import Mathlib

/-!
Verification model of `phoenix/core/project.py`: the in-memory trace and
evaluation store (`Project`, `_Spans`, `_Evals`).

Python dicts are modelled as association lists in insertion order
(`aget` = `dict.get`, `aset` = `dict.__setitem__`), timestamps as rational
numbers of seconds (UTC), span and trace identifiers as naturals, and the
DDSketch as the list of values ever passed to its `add` method.  The
ancestor walk of `_add_value_to_span_ancestors` is a `while` loop with no
cycle detection, so its model takes explicit fuel and returns `none` when
the fuel runs out; because a walk over stored spans that runs longer than
the number of stored spans must revisit one and hence loop forever,
`none` faithfully models a non-terminating ingest.
-/

/- Witnesses evaluate concrete stores with `decide`; the arithmetic of the
`Rat` structure is kernel-computable, so its operations are restored to
their default transparency for that evaluation. -/
set_option allowUnsafeReducibility true

attribute [semireducible] Rat.mul Rat.add Rat.sub Rat.inv Rat.ofScientific

namespace Phoenix

/-- Python `dict.get(k)`: the binding of `k` in an association list held in
insertion order, or `none`. -/
def aget {κ ν : Type} [DecidableEq κ] (k : κ) : List (κ × ν) → Option ν
  | [] => none
  | (k', v) :: t => if k = k' then some v else aget k t

/-- Python `d[k] = v` on a dict: overwrite the existing binding in place, or
append a new binding at the end (dicts iterate in insertion order). -/
def aset {κ ν : Type} [DecidableEq κ] (k : κ) (v : ν) : List (κ × ν) → List (κ × ν)
  | [] => [(k, v)]
  | (k', v') :: t => if k = k' then (k, v) :: t else (k', v') :: aset k v t

/-- A dict's key list has no duplicate keys. -/
def NodupKeys {κ ν : Type} (l : List (κ × ν)) : Prop := (l.map Prod.fst).Nodup

/-- Span status codes (`phoenix.trace.schemas.SpanStatusCode`). -/
inductive SpanStatusCode
  | unset
  | ok
  | error
deriving DecidableEq, Repr

/-- Data of an ingested span, restricted to the fields `_Spans` reads:
identifiers, parentage, timing, status, the three `llm.token_count.*`
attributes (absent modelled as `none`) and the length of the
`retrieval.documents` attribute (absent modelled as `0`). -/
structure Span where
  span_id : ℕ
  trace_id : ℕ
  parent_id : Option ℕ
  start_time : ℚ
  end_time : ℚ
  status_code : SpanStatusCode
  tok_total : Option ℕ
  tok_prompt : Option ℕ
  tok_completion : Option ℕ
  num_documents : ℕ
deriving DecidableEq, Repr

/-- The four cumulative computed attributes of `_CUMULATIVE_ATTRIBUTES`,
in the source dictionary's order. -/
inductive CumKey
  | total
  | prompt
  | completion
  | err
deriving DecidableEq, Repr

/-- Values of the four cumulative computed attributes of one span. -/
structure CumVals where
  total : ℚ
  prompt : ℚ
  completion : ℚ
  err : ℚ
deriving DecidableEq, Repr

def CumVals.get (c : CumVals) : CumKey → ℚ
  | .total => c.total
  | .prompt => c.prompt
  | .completion => c.completion
  | .err => c.err

def CumVals.set (c : CumVals) : CumKey → ℚ → CumVals
  | .total, v => { c with total := v }
  | .prompt, v => { c with prompt := v }
  | .completion, v => { c with completion := v }
  | .err, v => { c with err := v }

/-- Cumulative values all start at `0`; the source leaves the computed keys
absent until first written and coerces every read with `or 0`, which is
observationally the same. -/
def CumVals.zero : CumVals := ⟨0, 0, 0, 0⟩

/-- A span as stored in `_Spans._spans`: the ingested data together with the
computed attributes the store writes on it (`latency_ms`, `error_count`,
and the four cumulative values). -/
structure StoredSpan where
  span : Span
  latency_ms : ℚ
  error_count : ℚ
  cum : CumVals
deriving DecidableEq, Repr

/-- State of `_Spans`.  `spans`, `parentIds`, `childSpans`, `traces` and
`numDocuments` model the dicts of the same names (sets of spans are held as
lists of span ids in insertion order); `sortedAll`, `sortedRoots` and
`latencyRoots` model the three SortedKeyLists as `(key, span_id)` pairs in
key order; `sketch` is the list of values ever passed to the DDSketch. -/
structure SpansState where
  spans : List (ℕ × StoredSpan)
  parentIds : List (ℕ × ℕ)
  childSpans : List (ℕ × List ℕ)
  traces : List (ℕ × List ℕ)
  numDocuments : List (ℕ × ℕ)
  sortedAll : List (ℚ × ℕ)
  sortedRoots : List (ℚ × ℕ)
  latencyRoots : List (ℚ × ℕ)
  sketch : List ℚ
  tokenTotal : ℕ
  lastUpdated : Option ℤ
deriving DecidableEq, Repr

def SpansState.empty : SpansState :=
  ⟨[], [], [], [], [], [], [], [], [], 0, none⟩

/-- The `(cumulative key, underlying key)` pairs of `_CUMULATIVE_ATTRIBUTES`,
in source order: the three token counts and the error count. -/
def cumKeys : List CumKey := [.total, .prompt, .completion, .err]

/-- Value of the underlying key of a cumulative attribute as read by
`_propagate_cumulative_values` through `span[attribute] or 0`: the ingested
token-count attribute for the three token keys (`None` coerced to `0`), and
the computed `error_count` for the cumulative error count. -/
def underlyingVal (st : StoredSpan) : CumKey → ℚ
  | .total => (st.span.tok_total.getD 0 : ℕ)
  | .prompt => (st.span.tok_prompt.getD 0 : ℕ)
  | .completion => (st.span.tok_completion.getD 0 : ℕ)
  | .err => st.error_count

/-- Read `span[C] or 0` of the span stored under id `i` (0 when absent). -/
def getCum (s : SpansState) (i : ℕ) (k : CumKey) : ℚ :=
  match aget i s.spans with
  | some st => st.cum.get k
  | none => 0

/-- Write the cumulative value `C` of the span stored under id `i`; spans
are mutable objects in the source, so the write lands in the store. -/
def setCum (s : SpansState) (i : ℕ) (k : CumKey) (v : ℚ) : SpansState :=
  match aget i s.spans with
  | some st => { s with spans := aset i { st with cum := st.cum.set k v } s.spans }
  | none => s

/-- The children index entry for `i` (`self._child_spans.get(i) or ()`). -/
def childList (s : SpansState) (i : ℕ) : List ℕ :=
  (aget i s.childSpans).getD []

/-- Step 5a of ingest, one key of the loop body of
`_propagate_cumulative_values`: `span[C] = span[U] or 0`, then
`span[C] += child[C] or 0` for each recorded child of the span. -/
def gatherKey (i : ℕ) (s : SpansState) (k : CumKey) : SpansState :=
  let s1 :=
    match aget i s.spans with
    | some st => setCum s i k (underlyingVal st k)
    | none => s
  (childList s1 i).foldl (fun t c => setCum t i k (getCum t i k + getCum t c k)) s1

/-- The whole 5a loop of `_propagate_cumulative_values` over the four
cumulative keys. -/
def gatherAll (i : ℕ) (s : SpansState) : SpansState :=
  cumKeys.foldl (gatherKey i) s

/-- Model of `_Spans._add_value_to_span_ancestors`: walk `parent_of` upward
while the parent is present, adding `v` to each ancestor's cumulative value
`k`.  The source loop has no cycle detection; `none` models fuel running
out, which on a walk over stored spans means a revisit and hence a loop
that never terminates. -/
def walkKey (k : CumKey) (v : ℚ) : ℕ → ℕ → SpansState → Option SpansState
  | 0, _, _ => none
  | fuel + 1, i, s =>
    match aget i s.parentIds with
    | none => some s
    | some p =>
      match aget p s.spans with
      | none => some s
      | some pst => walkKey k v fuel p (setCum s p k (pst.cum.get k + v))

/-- Model of `_Spans._update_ancestors`: for each cumulative key, read
`value = span[C] or 0` and push it to the span's ancestors. -/
def updateAncestors (fuel i : ℕ) (s : SpansState) : Option SpansState :=
  cumKeys.foldlM (fun t k => walkKey k (getCum t i k) fuel i t) s

/-- SortedKeyList insertion (`SortedKeyList.add`, which bisects right): the
new entry goes after every entry whose key is less than or equal to its
own, before the first strictly greater key. -/
def insortR (k : ℚ) (x : ℕ) : List (ℚ × ℕ) → List (ℚ × ℕ)
  | [] => [(k, x)]
  | (k', y) :: t => if k < k' then (k, x) :: (k', y) :: t else (k', y) :: insortR k x t

/-- Steps 2-4 of `_add_span` for a fresh span id: record parentage for a
non-root span, compute `latency_ms` and `error_count` (feeding the root
latency sketch), and publish the span into `_spans`, `_traces` and the
sorted indices. -/
def publishSpan (sp : Span) (s : SpansState) : SpansState :=
  let i := sp.span_id
  let s :=
    match sp.parent_id with
    | some p =>
        { s with
          childSpans := aset p ((aget p s.childSpans).getD [] ++ [i]) s.childSpans,
          parentIds := aset i p s.parentIds }
    | none => s
  let latency := (sp.end_time - sp.start_time) * 1000
  let errCnt : ℚ := if sp.status_code = .error then 1 else 0
  let s :=
    if sp.parent_id.isNone then { s with sketch := s.sketch ++ [latency] } else s
  let st : StoredSpan := ⟨sp, latency, errCnt, CumVals.zero⟩
  let s :=
    { s with
      spans := aset i st s.spans,
      traces := aset sp.trace_id ((aget sp.trace_id s.traces).getD [] ++ [i]) s.traces,
      sortedAll := insortR sp.start_time i s.sortedAll }
  if sp.parent_id.isNone then
    { s with
      sortedRoots := insortR sp.start_time i s.sortedRoots,
      latencyRoots := insortR latency i s.latencyRoots }
  else s

/-- Steps 6-7 of `_add_span`: the cached statistics
(`token_count_total`, `_num_documents`) and the last-updated clock. -/
def finishSpan (now : ℤ) (sp : Span) (s : SpansState) : SpansState :=
  let s := { s with tokenTotal := s.tokenTotal + sp.tok_total.getD 0 }
  let s :=
    if sp.num_documents ≠ 0 then
      { s with
        numDocuments :=
          aset sp.span_id ((aget sp.span_id s.numDocuments).getD 0 + sp.num_documents)
            s.numDocuments }
    else s
  { s with lastUpdated := some now }

/-- Model of `_Spans._add_span`, following the source order: duplicate check;
children/parent index writes for non-root spans; computed `latency_ms`
(sketch add when root) and `error_count`; publication into `_spans`,
`_traces` and the sorted indices; cumulative propagation (5a gather, then
5b ancestor walks); cached statistics; last-updated clock.  The ancestor
walk gets fuel `spans.length + 1`, which suffices exactly when the walk
terminates at all; `none` models an ingest that never completes. -/
def addSpan (now : ℤ) (sp : Span) (s : SpansState) : Option SpansState :=
  if (aget sp.span_id s.spans).isSome then some s
  else
    match updateAncestors
        ((gatherAll sp.span_id (publishSpan sp s)).spans.length + 1) sp.span_id
        (gatherAll sp.span_id (publishSpan sp s)) with
    | none => none
    | some s3 => some (finishSpan now sp s3)

/-- Ingest of a whole list of spans into a fresh store (`now` fixed at `0`;
the clock value does not feed back into any other field). -/
def buildStateS (l : List Span) : Option SpansState :=
  l.foldl (fun acc sp => acc.bind (addSpan 0 sp)) (some SpansState.empty)

/-! ### Read operations of `_Spans`

Every read is modelled as a function returning `(result, store)`, threading
the store through exactly the accesses the source performs; the source uses
the non-inserting `dict.get` everywhere, never the defaultdict item access
that inserts a default entry, so the returned store is the input store. -/

/-- Modelled from the spec: `phoenix.datetime_utils.right_open_time_range`
is not among the sources here.  Per the spec it returns
`(min_start, max_start + ε)` where the exclusive upper bound exceeds the
largest observed start time by one tick, the spec fixing ε to one minute
(here 60, with timestamps in seconds). -/
def timeTick : ℚ := 60

def rightOpenRange (lo hi : ℚ) : ℚ × ℚ := (lo, hi + timeTick)

/-- Key of `self._start_time_sorted_spans[0]` (callers guard non-emptiness). -/
def storeMinStart (s : SpansState) : ℚ :=
  (s.sortedAll.head?.map Prod.fst).getD 0

/-- Key of `self._start_time_sorted_spans[-1]` (callers guard non-emptiness). -/
def storeMaxStart (s : SpansState) : ℚ :=
  (s.sortedAll.getLast?.map Prod.fst).getD 0

/-- Model of `_Spans.get_trace`: snapshot of `self._traces.get(trace_id)`,
empty when absent. -/
def getTrace (s : SpansState) (tid : ℕ) : List ℕ × SpansState :=
  match aget tid s.traces with
  | some tr => (tr, s)
  | none => ([], s)

/-- Model of `_Spans.get_spans`, yielding span ids in yield order.  With
explicit `span_ids` the input order is kept and each span is filtered by
presence, time window and the root flag; otherwise the matching sorted
index is range-scanned: `irange_key(start, stop, inclusive=(True, False),
reverse=True)` on a list sorted by key enumerates the entries with
`start ≤ key < stop`, most recent first.  Absent endpoints default through
`right_open_time_range` over the index extremes. -/
def getSpans (s : SpansState) (start_time stop_time : Option ℚ)
    (root_spans_only : Bool) (span_ids : Option (List ℕ)) :
    List ℕ × SpansState :=
  if s.spans.isEmpty then ([], s)
  else
    let startv := start_time.getD (rightOpenRange (storeMinStart s) (storeMaxStart s)).1
    let stopv := stop_time.getD (rightOpenRange (storeMinStart s) (storeMaxStart s)).2
    match span_ids with
    | some ids =>
        (ids.filterMap (fun i =>
          match aget i s.spans with
          | some st =>
              if startv ≤ st.span.start_time ∧ st.span.start_time < stopv ∧
                  (root_spans_only = false ∨ st.span.parent_id = none) then
                some i
              else none
          | none => none), s)
    | none =>
        let sorted := if root_spans_only then s.sortedRoots else s.sortedAll
        (((sorted.filter (fun p => decide (startv ≤ p.1) && decide (p.1 < stopv))).reverse).map
          Prod.snd, s)

/-- Model of `_Spans.get_num_documents`: `self._num_documents.get(i) or 0`. -/
def getNumDocuments (s : SpansState) (i : ℕ) : ℕ × SpansState :=
  ((aget i s.numDocuments).getD 0, s)

/-- Descendant ids of a span in the depth-first yield order of
`_Spans._get_descendant_spans` (child, then the child's descendants).  The
source recursion does not terminate on a cyclic children index, so the
model takes explicit fuel. -/
def descendantIds (s : SpansState) : ℕ → ℕ → List ℕ
  | 0, _ => []
  | fuel + 1, i =>
      ((aget i s.childSpans).getD []).foldl
        (fun acc c => acc ++ c :: descendantIds s fuel c) []

/-- Model of `_Spans.get_descendant_spans`: reads the children index with
non-inserting lookups only. -/
def getDescendantSpans (s : SpansState) (fuel i : ℕ) : List ℕ × SpansState :=
  (descendantIds s fuel i, s)

/-! ### The evaluation store `_Evals` -/

/-- Evaluation subject (`pb.Evaluation.SubjectId`): the oneof is a document
retrieval id, a span id, a trace id, or unset (`WhichOneof` returning
`None`). -/
inductive SubjectId
  | document (span_id : ℕ) (position : ℕ)
  | span (span_id : ℕ)
  | trace (trace_id : ℕ)
  | missing
deriving DecidableEq, Repr

/-- Evaluation result: any subset of score, label, explanation. -/
structure EvalResult where
  score : Option ℚ
  label : Option String
  explanation : Option String
deriving DecidableEq, Repr

/-- An evaluation record (`pb.Evaluation`). -/
structure Evaluation where
  name : String
  subject : SubjectId
  result : EvalResult
deriving DecidableEq, Repr

/-- State of `_Evals`: the seven index dicts and the clock, with nested
dicts as nested association lists in insertion order and the label sets as
lists without duplicates. -/
structure EvalsState where
  traceEvalsByName : List (String × List (ℕ × Evaluation))
  evalsByTraceId : List (ℕ × List (String × Evaluation))
  spanEvalsByName : List (String × List (ℕ × Evaluation))
  evalsBySpanId : List (ℕ × List (String × Evaluation))
  spanEvalLabels : List (String × List String)
  docEvalsBySpanId : List (ℕ × List (String × List (ℕ × Evaluation)))
  docEvalsByName : List (String × List (ℕ × List (ℕ × Evaluation)))
  lastUpdated : Option ℤ
deriving DecidableEq, Repr

def EvalsState.empty : EvalsState :=
  ⟨[], [], [], [], [], [], [], none⟩

/-- Model of `_Evals._add`, dispatching on the subject kind.  Existing
entries under the same key are overwritten (last writer wins); a missing
subject is logged at warning level and the record discarded.  The final
clock write of the source runs on every branch, including the
missing-subject branch. -/
def addEval (now : ℤ) (e : Evaluation) (s : EvalsState) : EvalsState :=
  let s :=
    match e.subject with
    | .document span_id pos =>
        let inner1 := (aget span_id s.docEvalsBySpanId).getD []
        let byPos1 := (aget e.name inner1).getD []
        let s1 :=
          { s with
            docEvalsBySpanId :=
              aset span_id (aset e.name (aset pos e byPos1) inner1) s.docEvalsBySpanId }
        let inner2 := (aget e.name s1.docEvalsByName).getD []
        let byPos2 := (aget span_id inner2).getD []
        { s1 with
          docEvalsByName :=
            aset e.name (aset span_id (aset pos e byPos2) inner2) s1.docEvalsByName }
    | .span span_id =>
        let byName := (aget span_id s.evalsBySpanId).getD []
        let s1 :=
          { s with evalsBySpanId := aset span_id (aset e.name e byName) s.evalsBySpanId }
        let byId := (aget e.name s1.spanEvalsByName).getD []
        let s2 :=
          { s1 with spanEvalsByName := aset e.name (aset span_id e byId) s1.spanEvalsByName }
        match e.result.label with
        | some lb =>
            let labels := (aget e.name s2.spanEvalLabels).getD []
            { s2 with
              spanEvalLabels :=
                aset e.name (if lb ∈ labels then labels else labels ++ [lb]) s2.spanEvalLabels }
        | none => s2
    | .trace trace_id =>
        let byName := (aget trace_id s.evalsByTraceId).getD []
        let s1 :=
          { s with evalsByTraceId := aset trace_id (aset e.name e byName) s.evalsByTraceId }
        let byId := (aget e.name s1.traceEvalsByName).getD []
        { s1 with traceEvalsByName := aset e.name (aset trace_id e byId) s1.traceEvalsByName }
    | .missing => s
  { s with lastUpdated := some now }

/-- Ingest of a list of evaluations into a fresh store (`now` fixed). -/
def buildStateE (l : List Evaluation) : EvalsState :=
  l.foldl (fun s e => addEval 0 e s) EvalsState.empty

/-! ### Read operations of `_Evals` (non-inserting lookups throughout) -/

/-- Model of `_Evals.get_span_evaluation`. -/
def getSpanEvaluation (s : EvalsState) (span_id : ℕ) (name : String) :
    Option Evaluation × EvalsState :=
  match aget span_id s.evalsBySpanId with
  | some m => (aget name m, s)
  | none => (none, s)

/-- Model of `_Evals.get_span_evaluation_names` (keys in insertion order). -/
def getSpanEvaluationNames (s : EvalsState) : List String × EvalsState :=
  (s.spanEvalsByName.map Prod.fst, s)

/-- Model of `_Evals.get_document_evaluation_names`. -/
def getDocumentEvaluationNames (s : EvalsState) (span_id : Option ℕ) :
    List String × EvalsState :=
  match span_id with
  | none => (s.docEvalsByName.map Prod.fst, s)
  | some i =>
      match aget i s.docEvalsBySpanId with
      | some m => (m.map Prod.fst, s)
      | none => ([], s)

/-- Model of `_Evals.get_span_evaluation_labels`. -/
def getSpanEvaluationLabels (s : EvalsState) (name : String) :
    List String × EvalsState :=
  ((aget name s.spanEvalLabels).getD [], s)

/-- Model of `_Evals.get_span_evaluation_span_ids`. -/
def getSpanEvaluationSpanIds (s : EvalsState) (name : String) :
    List ℕ × EvalsState :=
  match aget name s.spanEvalsByName with
  | some m => (m.map Prod.fst, s)
  | none => ([], s)

/-- Model of `_Evals.get_evaluations_by_span_id`. -/
def getEvaluationsBySpanId (s : EvalsState) (span_id : ℕ) :
    List Evaluation × EvalsState :=
  match aget span_id s.evalsBySpanId with
  | some m => (m.map Prod.snd, s)
  | none => ([], s)

/-- Model of `_Evals.get_document_evaluation_span_ids`. -/
def getDocumentEvaluationSpanIds (s : EvalsState) (name : String) :
    List ℕ × EvalsState :=
  match aget name s.docEvalsByName with
  | some m => (m.map Prod.fst, s)
  | none => ([], s)

/-- Model of `_Evals.get_document_evaluations_by_span_id`: flatten across
names and positions in index order. -/
def getDocumentEvaluationsBySpanId (s : EvalsState) (span_id : ℕ) :
    List Evaluation × EvalsState :=
  match aget span_id s.docEvalsBySpanId with
  | some m => (m.foldl (fun acc ne => acc ++ ne.2.map Prod.snd) [], s)
  | none => ([], s)

/-- Loop body of `get_document_evaluation_scores`: when the evaluation's
result has a score and its document position is below `num_documents`,
write the score at that position of the accumulator. -/
def scoreStep (num_documents : ℕ) (acc : List (Option ℚ)) (pe : ℕ × Evaluation) :
    List (Option ℚ) :=
  match pe.2.result.score with
  | some sc => if pe.1 < num_documents then acc.set pe.1 (some sc) else acc
  | none => acc

/-- Model of `_Evals.get_document_evaluation_scores`: a vector of
`num_documents` entries, NaN (modelled as `none`) everywhere except that
each stored evaluation whose result has a score and whose position is below
`num_documents` writes its score at its position. -/
def getDocumentEvaluationScores (s : EvalsState) (span_id : ℕ) (name : String)
    (num_documents : ℕ) : List (Option ℚ) × EvalsState :=
  let scores : List (Option ℚ) := List.replicate num_documents none
  match aget span_id s.docEvalsBySpanId with
  | none => (scores, s)
  | some byName =>
      match aget name byName with
      | none => (scores, s)
      | some evals => (evals.foldl (scoreStep num_documents) scores, s)

/-- Ascending insertion by document position, for the export's
`sorted(..., key = document position)`. -/
def insortPos (p : ℕ × Evaluation) : List (ℕ × Evaluation) → List (ℕ × Evaluation)
  | [] => [p]
  | q :: t => if p.1 ≤ q.1 then p :: q :: t else q :: insortPos p t

/-- Model of `_Evals.export_evaluations`: one frame per span-evaluation name
with `(span_id, result)` rows in index order, then one frame per
document-evaluation name with `((span_id, position), result)` rows sorted by
ascending position within each span. -/
def exportEvaluations (s : EvalsState) :
    (List (String × List (ℕ × EvalResult)) ×
      List (String × List ((ℕ × ℕ) × EvalResult))) × EvalsState :=
  let spanFrames :=
    s.spanEvalsByName.map (fun ne => (ne.1, ne.2.map (fun ie => (ie.1, ie.2.result))))
  let docFrames :=
    s.docEvalsByName.map (fun ne =>
      (ne.1,
        ne.2.foldl (fun acc se =>
          acc ++ (se.2.foldr insortPos []).map (fun pe => ((se.1, pe.1), pe.2.result))) []))
  ((spanFrames, docFrames), s)

/-- The document evaluation stored for `(span_id, name, position)`, read
through the same index chain the getter uses. -/
def storedDocEval (s : EvalsState) (span_id : ℕ) (name : String) (pos : ℕ) :
    Option Evaluation :=
  match aget span_id s.docEvalsBySpanId with
  | none => none
  | some byName =>
      match aget name byName with
      | none => none
      | some evals => aget pos evals

/-- Position dicts of the document index always have distinct position
keys: they are only ever written through `aset`. -/
def EDocNodup (s : EvalsState) : Prop :=
  ∀ span_id inner, aget span_id s.docEvalsBySpanId = some inner →
    ∀ name evals, aget name inner = some evals → NodupKeys evals

/-- The evaluation stored in `span_evaluations_by_name[name][span_id]`. -/
def spanEvalByName (s : EvalsState) (n : String) (i : ℕ) : Option Evaluation :=
  match aget n s.spanEvalsByName with
  | some m => aget i m
  | none => none

/-- The evaluation stored in `evaluations_by_trace_id[trace_id][name]`. -/
def traceEvalAt (s : EvalsState) (t : ℕ) (n : String) : Option Evaluation :=
  match aget t s.evalsByTraceId with
  | some m => aget n m
  | none => none

/-- The evaluation stored in `trace_evaluations_by_name[name][trace_id]`. -/
def traceEvalByName (s : EvalsState) (n : String) (t : ℕ) : Option Evaluation :=
  match aget n s.traceEvalsByName with
  | some m => aget t m
  | none => none

/-- The evaluation stored in
`document_evaluations_by_name[name][span_id][position]`. -/
def docEvalByName (s : EvalsState) (n : String) (i pos : ℕ) : Option Evaluation :=
  match aget n s.docEvalsByName with
  | some m =>
      match aget i m with
      | some byPos => aget pos byPos
      | none => none
  | none => none

/-- The index slot an evaluation is filed under: its subject oneof together
with its name (`none` for a missing subject, which is discarded). -/
def evalKey (e : Evaluation) : Option (SubjectId × String) :=
  match e.subject with
  | .missing => none
  | sub => some (sub, e.name)

/-! ### The Project facade, for claims over mixed span/eval ingest -/

/-- One ingest event at Project level. -/
inductive Item
  | span (sp : Span)
  | eval (e : Evaluation)
deriving DecidableEq, Repr

/-- The span carried by a Project-level event, if any. -/
def itemSpan : Item → Option Span
  | .span sp => some sp
  | .eval _ => none

/-- The evaluation carried by a Project-level event, if any. -/
def itemEval : Item → Option Evaluation
  | .eval e => some e
  | .span _ => none

/-- Combined state of one Project. -/
structure ProjectState where
  spans : SpansState
  evals : EvalsState
deriving DecidableEq, Repr

/-- Model of `Project.add_span` / `Project.add_eval` dispatch; a span whose
ingest never completes poisons the whole run (`none`). -/
def addItem (acc : Option ProjectState) (it : Item) : Option ProjectState :=
  match acc, it with
  | none, _ => none
  | some p, .span sp => (addSpan 0 sp p.spans).map (fun s => { p with spans := s })
  | some p, .eval e => some { p with evals := addEval 0 e p.evals }

/-- Ingest of a list of Project-level events into a fresh Project. -/
def buildProject (l : List Item) : Option ProjectState :=
  l.foldl addItem (some ⟨SpansState.empty, EvalsState.empty⟩)

/-! ### Views of the span store used by the invariants -/

/-- The ingested span stored under id `i`. -/
def spanAt (s : SpansState) (i : ℕ) : Option Span :=
  (aget i s.spans).map (fun st => st.span)

/-- The computed `latency_ms` of the span stored under id `i`. -/
def latencyAt (s : SpansState) (i : ℕ) : Option ℚ :=
  (aget i s.spans).map (fun st => st.latency_ms)

/-- The computed `error_count` of the span stored under id `i`. -/
def errorAt (s : SpansState) (i : ℕ) : Option ℚ :=
  (aget i s.spans).map (fun st => st.error_count)

/-- The underlying value of cumulative key `k` at stored span `i`
(0 when the span is absent). -/
def underlyingAt (s : SpansState) (i : ℕ) (k : CumKey) : ℚ :=
  match aget i s.spans with
  | some st => underlyingVal st k
  | none => 0

/-- Everything in the store except the cumulative values: used to state
that the propagation step only rewrites cumulative attributes. -/
def skeletonData (s : SpansState) : List (ℕ × Span × ℚ × ℚ) :=
  s.spans.map (fun p => (p.1, p.2.span, p.2.latency_ms, p.2.error_count))

/-- Two stores that agree on everything except possibly the cumulative
values of stored spans. -/
structure SameSkeleton (s t : SpansState) : Prop where
  parentIds : t.parentIds = s.parentIds
  childSpans : t.childSpans = s.childSpans
  traces : t.traces = s.traces
  numDocuments : t.numDocuments = s.numDocuments
  sortedAll : t.sortedAll = s.sortedAll
  sortedRoots : t.sortedRoots = s.sortedRoots
  latencyRoots : t.latencyRoots = s.latencyRoots
  sketch : t.sketch = s.sketch
  tokenTotal : t.tokenTotal = s.tokenTotal
  lastUpdated : t.lastUpdated = s.lastUpdated
  skeleton : skeletonData t = skeletonData s

/-- One step of the ancestor walk: the recorded parent when it is stored,
`none` when the walk stops (no recorded parent, or parent not stored). -/
def pstep (s : SpansState) (j : ℕ) : Option ℕ :=
  match aget j s.parentIds with
  | none => none
  | some p => if (aget p s.spans).isSome then some p else none

/-- The list of ancestors the walk from `j` visits, with fuel; `none` when
the fuel runs out before the walk stops. -/
def achain (s : SpansState) : ℕ → ℕ → Option (List ℕ)
  | 0, _ => none
  | fuel + 1, j =>
      match pstep s j with
      | none => some []
      | some p => (achain s fuel p).map (fun t => p :: t)

/-- A terminating ancestor walk: `Chain s j L` says the walk from `j`
visits exactly the stored ancestors `L` and then stops. -/
inductive Chain (s : SpansState) : ℕ → List ℕ → Prop
  | nil (j : ℕ) (h : pstep s j = none) : Chain s j []
  | cons (j p : ℕ) (L : List ℕ) (hp : pstep s j = some p) (hc : Chain s p L) :
      Chain s j (p :: L)

/-- The cumulative effect of one terminating ancestor walk: add `v` to the
key-`k` cumulative value of every visited ancestor, in walk order. -/
def addAlong (k : CumKey) (v : ℚ) (L : List ℕ) (s : SpansState) : SpansState :=
  L.foldl (fun t p => setCum t p k (getCum t p k + v)) s

/-- Every orbit of the ancestor-walk step relation terminates.  Reachable
stores satisfy this: a store with a parent cycle can only arise from an
ingest that never returned. -/
def AcyclicStore (s : SpansState) : Prop :=
  ∀ j, (aget j s.spans).isSome = true → ∃ L, Chain s j L

/-- The stored record a fresh ingest of `sp` creates (computed attributes
filled in, cumulative values still zero). -/
def mkStored (sp : Span) : StoredSpan :=
  ⟨sp, (sp.end_time - sp.start_time) * 1000,
    (if sp.status_code = .error then (1 : ℚ) else 0), CumVals.zero⟩

/-- Field-by-field description of a successful fresh ingest, relating the
resulting store to the previous one. -/
structure AddEffects (sp : Span) (s sf : SpansState) : Prop where
  spanAtEq : ∀ j, spanAt sf j = if j = sp.span_id then some sp else spanAt s j
  latencyAtEq : ∀ j, latencyAt sf j =
      if j = sp.span_id then some ((sp.end_time - sp.start_time) * 1000)
      else latencyAt s j
  errorAtEq : ∀ j, errorAt sf j =
      if j = sp.span_id then some (if sp.status_code = .error then (1 : ℚ) else 0)
      else errorAt s j
  keysEq : sf.spans.map Prod.fst = s.spans.map Prod.fst ++ [sp.span_id]
  spansSkelEq : skeletonData sf =
      (aset sp.span_id (mkStored sp) s.spans).map
        (fun p => (p.1, p.2.span, p.2.latency_ms, p.2.error_count))
  parentIdsEq : sf.parentIds =
      (match sp.parent_id with
       | some p => aset sp.span_id p s.parentIds
       | none => s.parentIds)
  childSpansEq : sf.childSpans =
      (match sp.parent_id with
       | some p => aset p ((aget p s.childSpans).getD [] ++ [sp.span_id]) s.childSpans
       | none => s.childSpans)
  tracesEq : sf.traces =
      aset sp.trace_id ((aget sp.trace_id s.traces).getD [] ++ [sp.span_id]) s.traces
  numDocsEq : sf.numDocuments =
      (if sp.num_documents ≠ 0 then
        aset sp.span_id ((aget sp.span_id s.numDocuments).getD 0 + sp.num_documents)
          s.numDocuments
      else s.numDocuments)
  sortedAllEq : sf.sortedAll = insortR sp.start_time sp.span_id s.sortedAll
  sortedRootsEq : sf.sortedRoots =
      (if sp.parent_id.isNone then insortR sp.start_time sp.span_id s.sortedRoots
       else s.sortedRoots)
  latRootsEq : sf.latencyRoots =
      (if sp.parent_id.isNone then
        insortR ((sp.end_time - sp.start_time) * 1000) sp.span_id s.latencyRoots
       else s.latencyRoots)
  sketchEq : sf.sketch =
      (if sp.parent_id.isNone then
        s.sketch ++ [(sp.end_time - sp.start_time) * 1000]
       else s.sketch)
  tokenEq : sf.tokenTotal = s.tokenTotal + sp.tok_total.getD 0
  clockEq : ∃ t0, sf.lastUpdated = some t0

/-- The invariant of `_Spans` maintained by ingest. -/
structure Inv (s : SpansState) : Prop where
  nodupSpans : NodupKeys s.spans
  spanIdOk : ∀ i sp, spanAt s i = some sp → sp.span_id = i
  latencyOk : ∀ i st, aget i s.spans = some st →
      st.latency_ms = (st.span.end_time - st.span.start_time) * 1000
  errorOk : ∀ i st, aget i s.spans = some st →
      st.error_count = (if st.span.status_code = .error then (1 : ℚ) else 0)
  parentIdsOk : ∀ c, aget c s.parentIds = (spanAt s c).bind (fun sp => sp.parent_id)
  childMemOk : ∀ p c, c ∈ childList s p ↔
      (∃ sp, spanAt s c = some sp ∧ sp.parent_id = some p)
  childNodup : ∀ p, (childList s p).Nodup
  traceMemOk : ∀ t i, i ∈ (aget t s.traces).getD [] ↔
      (∃ sp, spanAt s i = some sp ∧ sp.trace_id = t)
  traceNodupInner : ∀ t, ((aget t s.traces).getD []).Nodup
  traceKeysOk : ∀ t, (aget t s.traces).isSome = true ↔
      (∃ i sp, spanAt s i = some sp ∧ sp.trace_id = t)
  nodupTraces : NodupKeys s.traces
  numDocsOk : ∀ i, aget i s.numDocuments =
      (spanAt s i).bind (fun sp =>
        if sp.num_documents ≠ 0 then some sp.num_documents else none)
  sortedAllSorted : s.sortedAll.Pairwise (fun a b => a.1 ≤ b.1)
  sortedAllMem : ∀ q i, (q, i) ∈ s.sortedAll ↔
      (∃ sp, spanAt s i = some sp ∧ sp.start_time = q)
  sortedAllNodup : (s.sortedAll.map Prod.snd).Nodup
  sortedRootsSorted : s.sortedRoots.Pairwise (fun a b => a.1 ≤ b.1)
  sortedRootsMem : ∀ q i, (q, i) ∈ s.sortedRoots ↔
      (∃ sp, spanAt s i = some sp ∧ sp.parent_id = none ∧ sp.start_time = q)
  sortedRootsNodup : (s.sortedRoots.map Prod.snd).Nodup
  latRootsMem : ∀ q i, (q, i) ∈ s.latencyRoots ↔
      (∃ sp, spanAt s i = some sp ∧ sp.parent_id = none ∧ latencyAt s i = some q)
  latRootsNodup : (s.latencyRoots.map Prod.snd).Nodup
  sketchOk : s.sketch.Perm
      (s.spans.filterMap (fun p =>
        if p.2.span.parent_id.isNone then some p.2.latency_ms else none))
  tokenOk : s.tokenTotal = (s.spans.map (fun p => p.2.span.tok_total.getD 0)).sum
  acyclic : AcyclicStore s
  cumOk : ∀ i, (aget i s.spans).isSome = true → ∀ k,
      getCum s i k = underlyingAt s i k + ((childList s i).map (fun c => getCum s c k)).sum

/-! ### Example data -/

/-- Root span of the spec's first scenario. -/
def exSpanA : Span :=
  { span_id := 1, trace_id := 100, parent_id := none,
    start_time := 0, end_time := 1/20, status_code := .ok,
    tok_total := some 10, tok_prompt := none, tok_completion := none,
    num_documents := 0 }

/-- Child of `exSpanA` with an error status, as in the spec's second
scenario. -/
def exSpanB : Span :=
  { span_id := 2, trace_id := 100, parent_id := some 1,
    start_time := 1/200, end_time := 1/50, status_code := .error,
    tok_total := some 4, tok_prompt := none, tok_completion := none,
    num_documents := 0 }

/-- Store holding `exSpanA`. -/
def exStoreA : SpansState := (buildStateS [exSpanA]).getD SpansState.empty

/-- An evaluation whose `subject_id` oneof is unset. -/
def exEvalMissing : Evaluation :=
  { name := "x", subject := .missing,
    result := { score := none, label := none, explanation := none } }

/-- The spec's document-evaluation scenario. -/
def exEvalDoc : Evaluation :=
  { name := "doc_rel", subject := .document 1 2,
    result := { score := some (2/5), label := none, explanation := none } }

/-- Span whose parent pointer closes a two-cycle with `cycSpanY`. -/
def cycSpanX : Span :=
  { span_id := 1, trace_id := 100, parent_id := some 2,
    start_time := 0, end_time := 1, status_code := .ok,
    tok_total := none, tok_prompt := none, tok_completion := none,
    num_documents := 0 }

/-- Span whose parent pointer closes a two-cycle with `cycSpanX`. -/
def cycSpanY : Span :=
  { span_id := 2, trace_id := 100, parent_id := some 1,
    start_time := 0, end_time := 1, status_code := .ok,
    tok_total := none, tok_prompt := none, tok_completion := none,
    num_documents := 0 }

/-- A store in which spans 1 and 2 are both present and each is recorded as
the other's parent — the situation `_add_span` creates right before its
propagation step when the second member of a parent cycle is ingested. -/
def CyclePair (s : SpansState) : Prop :=
  aget 1 s.parentIds = some 2 ∧ aget 2 s.parentIds = some 1 ∧
    (aget 1 s.spans).isSome = true ∧ (aget 2 s.spans).isSome = true

/-- Concrete store with the two-cycle, to instantiate the general part of
the non-termination theorem. -/
def cycStore : SpansState :=
  { SpansState.empty with
    spans := [(1, ⟨cycSpanX, 1000, 0, CumVals.zero⟩), (2, ⟨cycSpanY, 1000, 0, CumVals.zero⟩)],
    parentIds := [(1, 2), (2, 1)] }

/-- Root span starting at `T = 0`, for the time-window read scenario. -/
def rootSpanT0 : Span :=
  { span_id := 10, trace_id := 500, parent_id := none,
    start_time := 0, end_time := 1, status_code := .ok,
    tok_total := none, tok_prompt := none, tok_completion := none,
    num_documents := 0 }

/-- Root span starting one hour later. -/
def rootSpanT1 : Span :=
  { span_id := 11, trace_id := 501, parent_id := none,
    start_time := 3600, end_time := 3601, status_code := .ok,
    tok_total := none, tok_prompt := none, tok_completion := none,
    num_documents := 0 }

/-- Root span starting two hours later. -/
def rootSpanT2 : Span :=
  { span_id := 12, trace_id := 502, parent_id := none,
    start_time := 7200, end_time := 7201, status_code := .ok,
    tok_total := none, tok_prompt := none, tok_completion := none,
    num_documents := 0 }

/-- Store with the three hourly roots. -/
def exStore6 : SpansState :=
  (buildStateS [rootSpanT0, rootSpanT1, rootSpanT2]).getD SpansState.empty

/-- Span evaluation of the span 1 with score 1/4, for the reordering
counterexample. -/
def evalQlow : Evaluation :=
  { name := "q", subject := .span 1,
    result := { score := some (1/4), label := none, explanation := none } }

/-- Same subject and name as `evalQlow` with score 3/4: the two records
collide in every index they touch. -/
def evalQhigh : Evaluation :=
  { name := "q", subject := .span 1,
    result := { score := some (3/4), label := some "good", explanation := none } }

/-- Mixed Project-level ingest, spans and evaluations interleaved. -/
def exItems1 : List Item :=
  [.span exSpanB, .eval exEvalDoc, .span exSpanA, .eval evalQhigh]

/-- A permutation of `exItems1`. -/
def exItems2 : List Item :=
  [.eval evalQhigh, .span exSpanA, .eval exEvalDoc, .span exSpanB]

/-- Project built from `exItems1`. -/
def exProj1 : ProjectState :=
  (buildProject exItems1).getD ⟨SpansState.empty, EvalsState.empty⟩

/-- Project built from the permuted `exItems2`. -/
def exProj2 : ProjectState :=
  (buildProject exItems2).getD ⟨SpansState.empty, EvalsState.empty⟩

/-! ## Theorems -/

/-! ### Basic lemmas about the dict model -/

section MapLemmas

variable {κ ν : Type} [DecidableEq κ]

@[simp]
theorem aget_nil (k : κ) : aget k ([] : List (κ × ν)) = none := rfl

theorem aget_cons (k : κ) (p : κ × ν) (t : List (κ × ν)) :
    aget k (p :: t) = if k = p.1 then some p.2 else aget k t := by
  cases p; rfl

@[simp]
theorem aget_aset_self (k : κ) (v : ν) (l : List (κ × ν)) :
    aget k (aset k v l) = some v := by
  induction l with
  | nil => simp [aset, aget]
  | cons p t ih =>
      cases p with
      | mk k' v' =>
          by_cases h : k = k'
          · subst h; simp [aset, aget]
          · simp [aset, aget, h, ih]

theorem aget_aset_ne (k k' : κ) (v : ν) (l : List (κ × ν)) (h : k' ≠ k) :
    aget k' (aset k v l) = aget k' l := by
  induction l with
  | nil => simp [aset, aget, h]
  | cons p t ih =>
      cases p with
      | mk k0 v0 =>
          by_cases hk : k = k0
          · subst hk; simp [aset, aget, h]
          · by_cases hk' : k' = k0
            · subst hk'; simp [aset, aget, hk]
            · simp [aset, aget, hk, hk', ih]

/-- Keys of the list after a dict write. -/
theorem keys_aset (k : κ) (v : ν) (l : List (κ × ν)) :
    (aset k v l).map Prod.fst =
      if (aget k l).isSome then l.map Prod.fst else l.map Prod.fst ++ [k] := by
  induction l with
  | nil => simp [aset, aget]
  | cons p t ih =>
      cases p with
      | mk k0 v0 =>
          by_cases hk : k = k0
          · subst hk; simp [aset, aget]
          · simp [aset, aget, hk, ih]
            by_cases hs : (aget k t).isSome <;> simp [hs]

theorem aget_eq_none_iff (k : κ) (l : List (κ × ν)) :
    aget k l = none ↔ k ∉ l.map Prod.fst := by
  induction l with
  | nil => simp
  | cons p t ih =>
      cases p with
      | mk k0 v0 =>
          by_cases hk : k = k0
          · subst hk; simp [aget]
          · simp [aget, hk, ih, Ne.symm hk]

theorem aget_isSome_iff (k : κ) (l : List (κ × ν)) :
    (aget k l).isSome = true ↔ k ∈ l.map Prod.fst := by
  constructor
  · intro h
    by_contra hmem
    rw [(aget_eq_none_iff k l).2 hmem] at h
    simp at h
  · intro hmem
    cases hs : aget k l with
    | some v => simp
    | none => exact absurd ((aget_eq_none_iff k l).1 hs) (by simp [hmem])

theorem length_aset (k : κ) (v : ν) (l : List (κ × ν)) :
    (aset k v l).length =
      if (aget k l).isSome then l.length else l.length + 1 := by
  have h := congrArg List.length (keys_aset k v l)
  simpa using by
    by_cases hs : (aget k l).isSome <;> simpa [hs] using h

omit [DecidableEq κ] in
theorem NodupKeys.nil : NodupKeys ([] : List (κ × ν)) := by
  simp [NodupKeys]

theorem NodupKeys.aset {l : List (κ × ν)} (h : NodupKeys l) (k : κ) (v : ν) :
    NodupKeys (Phoenix.aset k v l) := by
  unfold NodupKeys at h ⊢
  rw [keys_aset]
  by_cases hs : (aget k l).isSome
  · simpa [hs] using h
  · have hk : k ∉ l.map Prod.fst := by
      intro hmem
      exact hs ((aget_isSome_iff k l).2 hmem)
    simp [hs, List.nodup_append, h, hk]

theorem aget_mem {k : κ} {v : ν} {l : List (κ × ν)} (h : aget k l = some v) :
    (k, v) ∈ l := by
  induction l with
  | nil => simp [aget] at h
  | cons p t ih =>
      cases p with
      | mk k0 v0 =>
          by_cases hk : k = k0
          · subst hk
            simp [aget] at h
            simp [h]
          · simp [aget, hk] at h
            exact List.mem_cons_of_mem _ (ih h)

theorem mem_aget {k : κ} {v : ν} {l : List (κ × ν)} (hn : NodupKeys l)
    (h : (k, v) ∈ l) : aget k l = some v := by
  induction l with
  | nil => simp at h
  | cons p t ih =>
      cases p with
      | mk k0 v0 =>
          unfold NodupKeys at hn
          simp at hn
          rcases List.mem_cons.1 h with h0 | h0
          · cases h0
            simp [aget]
          · have hk : k ≠ k0 := by
              intro he
              subst he
              exact hn.1 v (by simpa using h0)
            simp [aget, hk]
            exact ih hn.2 h0

end MapLemmas

@[simp]
theorem CumVals.get_set_self (c : CumVals) (k : CumKey) (v : ℚ) :
    (c.set k v).get k = v := by
  cases k <;> rfl

theorem CumVals.get_set_ne (c : CumVals) (k k' : CumKey) (v : ℚ) (h : k' ≠ k) :
    (c.set k v).get k' = c.get k' := by
  cases k <;> cases k' <;> first | rfl | exact absurd rfl h

/-! ### Claim C3: a duplicate span id makes `add` a complete no-op -/

/-- C3.  For every store state, adding a span whose `span_id` is already
present in `_spans` returns the state unchanged: the guard at the top of
`_add_span` fires before any index, counter, sketch, computed attribute or
clock write, so every observable quantity is untouched. -/
theorem addSpan_duplicate_noop (now : ℤ) (sp : Span) (s : SpansState)
    (h : (aget sp.span_id s.spans).isSome) : addSpan now sp s = some s := by
  simp [addSpan, h]

theorem addSpan_duplicate_noop_witness :
    (aget exSpanA.span_id exStoreA.spans).isSome ∧
      addSpan 5 exSpanA exStoreA = some exStoreA :=
  ⟨by decide, addSpan_duplicate_noop 5 exSpanA exStoreA (by decide)⟩

/-! ### Claim C5: evaluations with a missing subject kind -/

/-- C5 counterexample.  The claim says a missing-subject evaluation leaves
`last_updated_at` unmodified, but the clock write at the end of
`_Evals._add` runs on every branch, so even a discarded evaluation moves
the clock: here from `none` to `some 7`. -/
theorem addEval_missing_subject_clock_counterexample :
    (addEval 7 exEvalMissing EvalsState.empty).lastUpdated ≠
      EvalsState.empty.lastUpdated := by
  decide

/-- C5 as amended.  Adding an evaluation whose subject has no kind set is
not fatal and writes nothing into any evaluation index — the only field
that changes is `last_updated_at`, which is set to the current time even
though the record is discarded. -/
theorem addEval_missing_subject (now : ℤ) (e : Evaluation) (s : EvalsState)
    (h : e.subject = .missing) :
    addEval now e s = { s with lastUpdated := some now } := by
  unfold addEval
  rw [h]

theorem addEval_missing_subject_witness :
    exEvalMissing.subject = .missing ∧
      addEval 7 exEvalMissing EvalsState.empty =
        { EvalsState.empty with lastUpdated := some 7 } :=
  ⟨by decide, addEval_missing_subject 7 exEvalMissing EvalsState.empty (by decide)⟩

/-! ### Claim C10: public reads never mutate the store -/

/-- C10.  Every public read operation — `get_trace`, `get_spans`,
`get_num_documents`, `get_descendant_spans`, the evaluation getters and
`export_evaluations` — returns the store exactly as it found it: every
lookup is the non-inserting `dict.get`, so querying absent trace ids, span
ids or evaluation names creates no entries and changes no index, counter
or clock. -/
theorem reads_leave_store_unchanged :
    ∀ (s : SpansState) (es : EvalsState) (tid i fuel n : ℕ) (nm : String)
      (t1 t2 : Option ℚ) (b : Bool) (ids : Option (List ℕ)) (oi : Option ℕ),
      (getTrace s tid).2 = s ∧
      (getSpans s t1 t2 b ids).2 = s ∧
      (getNumDocuments s i).2 = s ∧
      (getDescendantSpans s fuel i).2 = s ∧
      (getSpanEvaluation es i nm).2 = es ∧
      (getSpanEvaluationNames es).2 = es ∧
      (getDocumentEvaluationNames es oi).2 = es ∧
      (getSpanEvaluationLabels es nm).2 = es ∧
      (getSpanEvaluationSpanIds es nm).2 = es ∧
      (getEvaluationsBySpanId es i).2 = es ∧
      (getDocumentEvaluationSpanIds es nm).2 = es ∧
      (getDocumentEvaluationsBySpanId es i).2 = es ∧
      (getDocumentEvaluationScores es i nm n).2 = es ∧
      (exportEvaluations es).2 = es := by
  intro s es tid i fuel n nm t1 t2 b ids oi
  refine ⟨?_, ?_, rfl, rfl, ?_, rfl, ?_, rfl, ?_, ?_, ?_, ?_, ?_, rfl⟩
  · unfold getTrace
    split <;> rfl
  · unfold getSpans
    split
    · rfl
    · split
      · rfl
      · rfl
  · unfold getSpanEvaluation
    split <;> rfl
  · unfold getDocumentEvaluationNames
    split
    · rfl
    · split <;> rfl
  · unfold getSpanEvaluationSpanIds
    split <;> rfl
  · unfold getEvaluationsBySpanId
    split <;> rfl
  · unfold getDocumentEvaluationSpanIds
    split <;> rfl
  · unfold getDocumentEvaluationsBySpanId
    split <;> rfl
  · unfold getDocumentEvaluationScores
    split
    · rfl
    · split <;> rfl

/-! ### Claim C7: document evaluation score vectors -/

theorem scoreStep_length (n : ℕ) (acc : List (Option ℚ)) (pe : ℕ × Evaluation) :
    (scoreStep n acc pe).length = acc.length := by
  unfold scoreStep
  split
  · split <;> simp
  · rfl

theorem scoreStep_get_ne (n : ℕ) (acc : List (Option ℚ)) (q : ℕ) (e : Evaluation)
    (p : ℕ) (hpq : p ≠ q) : (scoreStep n acc (q, e)).get? p = acc.get? p := by
  unfold scoreStep
  cases hsc : e.result.score with
  | some sc =>
      simp only [hsc]
      by_cases hq : q < n
      · simp only [if_pos hq]
        exact List.get?_set_ne _ _ (Ne.symm hpq)
      · simp only [if_neg hq]
  | none => simp only [hsc]

/-- Effect of the score-writing fold over a position dict without duplicate
positions: entry `p` of the result carries the score of the evaluation
stored at `p` when it has one, and the original entry otherwise. -/
theorem foldl_scoreStep_get (n : ℕ) (evals : List (ℕ × Evaluation))
    (hnd : NodupKeys evals) :
    ∀ acc : List (Option ℚ), acc.length = n →
      (evals.foldl (scoreStep n) acc).length = n ∧
      ∀ p, p < n →
        (aget p evals = none →
          (evals.foldl (scoreStep n) acc).get? p = acc.get? p) ∧
        (∀ e sc, aget p evals = some e → e.result.score = some sc →
          (evals.foldl (scoreStep n) acc).get? p = some (some sc)) ∧
        (∀ e, aget p evals = some e → e.result.score = none →
          (evals.foldl (scoreStep n) acc).get? p = acc.get? p) := by
  induction evals with
  | nil =>
      intro acc hlen
      refine ⟨hlen, fun p _ => ⟨fun _ => rfl, fun e sc he _ => ?_, fun e he _ => rfl⟩⟩
      simp [aget] at he
  | cons qe t ih =>
      intro acc hlen
      cases qe with
      | mk q e =>
          have hnds : q ∉ t.map Prod.fst ∧ (t.map Prod.fst).Nodup := by
            unfold NodupKeys at hnd
            exact List.nodup_cons.1 (by simpa using hnd)
          have hnd' : NodupKeys t := hnds.2
          have hqt : aget q t = none := (aget_eq_none_iff q t).2 hnds.1
          have hstep : (scoreStep n acc (q, e)).length = n := by
            rw [scoreStep_length]; exact hlen
          obtain ⟨hl, hget⟩ := ih hnd' (scoreStep n acc (q, e)) hstep
          refine ⟨by simpa using hl, ?_⟩
          intro p hp
          obtain ⟨h1, h2, h3⟩ := hget p hp
          rw [List.foldl_cons]
          refine ⟨?_, ?_, ?_⟩
          · intro hnone
            rw [aget_cons] at hnone
            by_cases hpq : p = q
            · simp [hpq] at hnone
            · simp only [if_neg (by simpa using hpq)] at hnone
              rw [h1 hnone]
              exact scoreStep_get_ne n acc q e p hpq
          · intro e2 sc hsome hsc
            rw [aget_cons] at hsome
            by_cases hpq : p = q
            · simp only [hpq, if_pos rfl] at hsome
              cases hsome
              subst hpq
              rw [h1 hqt]
              unfold scoreStep
              simp only [hsc, if_pos hp, List.get?_eq_getElem?]
              exact List.getElem?_set_eq_of_lt _ (by rw [hlen]; exact hp)
            · simp only [if_neg (by simpa using hpq)] at hsome
              rw [h2 e2 sc hsome hsc]
          · intro e2 hsome hsc
            rw [aget_cons] at hsome
            by_cases hpq : p = q
            · simp only [hpq, if_pos rfl] at hsome
              cases hsome
              subst hpq
              rw [h1 hqt]
              unfold scoreStep
              simp only [hsc]
            · simp only [if_neg (by simpa using hpq)] at hsome
              rw [h3 e2 hsome hsc]
              exact scoreStep_get_ne n acc q e p hpq

theorem EDocNodup_empty : EDocNodup EvalsState.empty := by
  intro span_id inner h
  simp [EvalsState.empty, aget] at h

theorem EDocNodup_addEval (now : ℤ) (e : Evaluation) (s : EvalsState)
    (h : EDocNodup s) : EDocNodup (addEval now e s) := by
  unfold addEval
  cases hs : e.subject with
  | document sid pos =>
      intro span_id inner hinner name evals hevals
      simp only [hs] at hinner
      by_cases hspan : span_id = sid
      · subst hspan
        rw [aget_aset_self] at hinner
        cases hinner
        by_cases hname : name = e.name
        · subst hname
          rw [aget_aset_self] at hevals
          cases hevals
          have hbase : NodupKeys ((aget e.name ((aget span_id s.docEvalsBySpanId).getD [])).getD ([] : List (ℕ × Evaluation))) := by
            cases hout : aget span_id s.docEvalsBySpanId with
            | none => simpa [hout] using NodupKeys.nil
            | some inner0 =>
                cases hin : aget e.name inner0 with
                | none => simpa [hout, hin] using NodupKeys.nil
                | some evals0 => simpa [hout, hin] using h span_id inner0 hout e.name evals0 hin
          exact hbase.aset pos e
        · rw [aget_aset_ne _ _ _ _ hname] at hevals
          cases hout : aget span_id s.docEvalsBySpanId with
          | none => rw [hout] at hevals; simp [aget] at hevals
          | some inner0 =>
              rw [hout] at hevals
              exact h span_id inner0 hout name evals hevals
      · rw [aget_aset_ne _ _ _ _ hspan] at hinner
        exact h span_id inner hinner name evals hevals
  | span sid =>
      intro span_id inner hinner name evals hevals
      simp only [hs] at hinner
      have hinner2 : aget span_id s.docEvalsBySpanId = some inner := by
        cases hlb : e.result.label <;> simpa [hlb] using hinner
      exact h span_id inner hinner2 name evals hevals
  | trace tid =>
      intro span_id inner hinner name evals hevals
      simp only [hs] at hinner
      exact h span_id inner hinner name evals hevals
  | missing =>
      intro span_id inner hinner name evals hevals
      simp only [hs] at hinner
      exact h span_id inner hinner name evals hevals

theorem EDocNodup_buildStateE (l : List Evaluation) : EDocNodup (buildStateE l) := by
  unfold buildStateE
  have hgen : ∀ s : EvalsState, EDocNodup s →
      EDocNodup (l.foldl (fun s e => addEval 0 e s) s) := by
    induction l with
    | nil => intro s hsx; simpa using hsx
    | cons e t ih =>
        intro s hsx
        rw [List.foldl_cons]
        exact ih _ (EDocNodup_addEval 0 e s hsx)
  exact hgen EvalsState.empty EDocNodup_empty

/-- C7.  On any store reached by ingest, `get_document_evaluation_scores`
returns a vector of exactly `num_documents` entries, all NaN (modelled as
`none`) except that each stored document evaluation at a position `p` below
`num_documents` whose result has a score puts that score at entry `p`. -/
theorem getDocumentEvaluationScores_spec (l : List Evaluation) (span_id : ℕ)
    (name : String) (n : ℕ) :
    ((getDocumentEvaluationScores (buildStateE l) span_id name n).1.length = n) ∧
    ∀ p, p < n →
      (getDocumentEvaluationScores (buildStateE l) span_id name n).1.get? p =
        some ((storedDocEval (buildStateE l) span_id name p).bind
          (fun e => e.result.score)) := by
  have hinv := EDocNodup_buildStateE l
  unfold getDocumentEvaluationScores storedDocEval
  cases hout : aget span_id (buildStateE l).docEvalsBySpanId with
  | none =>
      simp only [hout]
      refine ⟨by simp, ?_⟩
      intro p hp
      simp [List.get?_eq_getElem?, List.getElem?_replicate, hp]
  | some byName =>
      simp only [hout]
      cases hin : aget name byName with
      | none =>
          simp only [hin]
          refine ⟨by simp, ?_⟩
          intro p hp
          simp [List.get?_eq_getElem?, List.getElem?_replicate, hp]
      | some evals =>
          simp only [hin]
          have hnd : NodupKeys evals := hinv span_id byName hout name evals hin
          obtain ⟨hl, hget⟩ :=
            foldl_scoreStep_get n evals hnd (List.replicate n none) (by simp)
          refine ⟨hl, ?_⟩
          intro p hp
          obtain ⟨h1, h2, h3⟩ := hget p hp
          cases hag : aget p evals with
          | none =>
              rw [h1 hag]
              simp [List.get?_eq_getElem?, List.getElem?_replicate, hp]
          | some ev =>
              cases hsc : ev.result.score with
              | some sc =>
                  rw [h2 ev sc hag hsc]
                  simp [hsc]
              | none =>
                  rw [h3 ev hag hsc]
                  simp [hsc, List.get?_eq_getElem?, List.getElem?_replicate, hp]

theorem getDocumentEvaluationScores_spec_witness :
    (2 < 4 ∧
      (getDocumentEvaluationScores (buildStateE [exEvalDoc]) 1 "doc_rel" 4).1.get? 2 =
        some ((storedDocEval (buildStateE [exEvalDoc]) 1 "doc_rel" 2).bind
          (fun e => e.result.score))) := by
  refine ⟨by decide, (getDocumentEvaluationScores_spec [exEvalDoc] 1 "doc_rel" 4).2 2 (by decide)⟩

/-! ### Claim C4: the ancestor walk on a cyclic parent relation -/

theorem aget_isSome_aset {κ ν : Type} [DecidableEq κ] (i p : κ) (v : ν)
    (l : List (κ × ν)) (h : (aget i l).isSome = true) :
    (aget i (aset p v l)).isSome = true := by
  by_cases hip : i = p
  · subst hip; simp
  · rw [aget_aset_ne _ _ _ _ hip]; exact h

theorem CyclePair.setCum {s : SpansState} (h : CyclePair s) (p : ℕ) (k : CumKey)
    (v : ℚ) : CyclePair (setCum s p k v) := by
  obtain ⟨h1, h2, h3, h4⟩ := h
  unfold Phoenix.setCum
  cases hg : aget p s.spans with
  | none => exact ⟨h1, h2, h3, h4⟩
  | some st =>
      exact ⟨h1, h2, aget_isSome_aset 1 p _ _ h3, aget_isSome_aset 2 p _ _ h4⟩

/-- On a two-cycle, the ancestor walk exhausts any amount of fuel starting
from either member: the loop never terminates. -/
theorem cycle_walk_none (k : CumKey) (v : ℚ) :
    ∀ fuel (s : SpansState), CyclePair s →
      walkKey k v fuel 1 s = none ∧ walkKey k v fuel 2 s = none := by
  intro fuel
  induction fuel with
  | zero => intro s _; exact ⟨rfl, rfl⟩
  | succ m ih =>
      intro s h
      obtain ⟨h1, h2, h3, h4⟩ := h
      obtain ⟨st2, hst2⟩ := Option.isSome_iff_exists.1 h4
      obtain ⟨st1, hst1⟩ := Option.isSome_iff_exists.1 h3
      constructor
      · show walkKey k v (m + 1) 1 s = none
        unfold walkKey
        simp only [h1, hst2]
        exact (ih _ (CyclePair.setCum ⟨h1, h2, h3, h4⟩ 2 k _)).2
      · show walkKey k v (m + 1) 2 s = none
        unfold walkKey
        simp only [h2, hst1]
        exact (ih _ (CyclePair.setCum ⟨h1, h2, h3, h4⟩ 1 k _)).1

/-- C4, refuting the claimed behaviour on the code.  The source has no
cycle detection: on the two-span parent cycle the ingest of the second
span never completes (the fueled model returns `none`), and, in general,
from a store whose parent relation links spans 1 and 2 into a cycle the
ancestor walk exhausts every amount of fuel — the source's `while` loop
runs forever instead of aborting the ingest. -/
theorem addSpan_cycle_never_terminates :
    buildStateS [cycSpanX, cycSpanY] = none ∧
    ∀ fuel (s : SpansState) (k : CumKey) (v : ℚ), CyclePair s →
      walkKey k v fuel cycSpanX.span_id s = none := by
  constructor
  · rfl
  · exact fun fuel s k v h => (cycle_walk_none k v fuel s h).1

theorem addSpan_cycle_never_terminates_witness :
    CyclePair cycStore ∧ walkKey .total 0 5 cycSpanX.span_id cycStore = none := by
  refine ⟨?_, addSpan_cycle_never_terminates.2 5 cycStore .total 0 ?_⟩ <;>
    exact ⟨by decide, by decide, by decide, by decide⟩

/-! ### Skeleton lemmas: cumulative propagation rewrites only cums -/

theorem SameSkeleton.refl (s : SpansState) : SameSkeleton s s :=
  ⟨rfl, rfl, rfl, rfl, rfl, rfl, rfl, rfl, rfl, rfl, rfl⟩

theorem SameSkeleton.trans {s t u : SpansState} (h1 : SameSkeleton s t)
    (h2 : SameSkeleton t u) : SameSkeleton s u :=
  ⟨h2.parentIds.trans h1.parentIds, h2.childSpans.trans h1.childSpans,
    h2.traces.trans h1.traces, h2.numDocuments.trans h1.numDocuments,
    h2.sortedAll.trans h1.sortedAll, h2.sortedRoots.trans h1.sortedRoots,
    h2.latencyRoots.trans h1.latencyRoots, h2.sketch.trans h1.sketch,
    h2.tokenTotal.trans h1.tokenTotal, h2.lastUpdated.trans h1.lastUpdated,
    h2.skeleton.trans h1.skeleton⟩

theorem skeleton_aget {a b : List (ℕ × StoredSpan)}
    (h : a.map (fun p => (p.1, p.2.span, p.2.latency_ms, p.2.error_count)) =
      b.map (fun p => (p.1, p.2.span, p.2.latency_ms, p.2.error_count))) (i : ℕ) :
    (aget i a).map (fun st => (st.span, st.latency_ms, st.error_count)) =
      (aget i b).map (fun st => (st.span, st.latency_ms, st.error_count)) := by
  induction a generalizing b with
  | nil =>
      cases b with
      | nil => rfl
      | cons q u => simp at h
  | cons p t ih =>
      cases b with
      | nil => simp at h
      | cons q u =>
          simp only [List.map_cons, List.cons.injEq, Prod.mk.injEq] at h
          obtain ⟨⟨hk, hsp, hlat, herr⟩, ht⟩ := h
          rw [aget_cons, aget_cons, ← hk]
          by_cases hi : i = p.1
          · simp [hi, hsp, hlat, herr]
          · simp only [if_neg hi]
            exact ih ht

theorem skel_option_components {oa ob : Option StoredSpan}
    (h : oa.map (fun st => (st.span, st.latency_ms, st.error_count)) =
      ob.map (fun st => (st.span, st.latency_ms, st.error_count))) :
    oa.map (fun st => st.span) = ob.map (fun st => st.span) ∧
      oa.map (fun st => st.latency_ms) = ob.map (fun st => st.latency_ms) ∧
      oa.map (fun st => st.error_count) = ob.map (fun st => st.error_count) ∧
      oa.isSome = ob.isSome := by
  cases oa <;> cases ob <;> simp_all [Prod.ext_iff]

theorem SameSkeleton.spanAt_eq {s t : SpansState} (h : SameSkeleton s t) (i : ℕ) :
    spanAt t i = spanAt s i :=
  (skel_option_components (skeleton_aget h.skeleton i)).1

theorem SameSkeleton.latencyAt_eq {s t : SpansState} (h : SameSkeleton s t) (i : ℕ) :
    latencyAt t i = latencyAt s i :=
  (skel_option_components (skeleton_aget h.skeleton i)).2.1

theorem SameSkeleton.errorAt_eq {s t : SpansState} (h : SameSkeleton s t) (i : ℕ) :
    errorAt t i = errorAt s i :=
  (skel_option_components (skeleton_aget h.skeleton i)).2.2.1

theorem SameSkeleton.isSome_eq {s t : SpansState} (h : SameSkeleton s t) (i : ℕ) :
    (aget i t.spans).isSome = (aget i s.spans).isSome :=
  (skel_option_components (skeleton_aget h.skeleton i)).2.2.2

theorem SameSkeleton.keys_eq {s t : SpansState} (h : SameSkeleton s t) :
    t.spans.map Prod.fst = s.spans.map Prod.fst := by
  have := congrArg (fun l => l.map (fun x : ℕ × Span × ℚ × ℚ => x.1)) h.skeleton
  simpa [skeletonData, Function.comp] using this

theorem SameSkeleton.length_eq {s t : SpansState} (h : SameSkeleton s t) :
    t.spans.length = s.spans.length := by
  have := congrArg List.length h.skeleton
  simpa [skeletonData] using this

theorem SameSkeleton.childList_eq {s t : SpansState} (h : SameSkeleton s t) (p : ℕ) :
    childList t p = childList s p := by
  unfold childList
  rw [h.childSpans]

theorem SameSkeleton.pstep_eq {s t : SpansState} (h : SameSkeleton s t) (j : ℕ) :
    pstep t j = pstep s j := by
  unfold pstep
  rw [h.parentIds]
  cases aget j s.parentIds with
  | none => rfl
  | some p => simp [h.isSome_eq p]

theorem SameSkeleton.underlyingAt_eq {s t : SpansState} (h : SameSkeleton s t)
    (i : ℕ) (k : CumKey) : underlyingAt t i k = underlyingAt s i k := by
  unfold underlyingAt
  have hsp := h.spanAt_eq i
  have herr := h.errorAt_eq i
  unfold spanAt at hsp
  unfold errorAt at herr
  cases ha : aget i t.spans with
  | none =>
      rw [ha] at hsp
      cases hb : aget i s.spans with
      | none => rfl
      | some st => rw [hb] at hsp; simp at hsp
  | some st =>
      rw [ha] at hsp herr
      cases hb : aget i s.spans with
      | none => rw [hb] at hsp; simp at hsp
      | some st' =>
          rw [hb] at hsp herr
          simp at hsp herr
          cases k <;> simp [underlyingVal, hsp, herr]

theorem skeletonData_aset {l : List (ℕ × StoredSpan)} {i : ℕ} {st st' : StoredSpan}
    (h : aget i l = some st) (hsp : st'.span = st.span)
    (hlat : st'.latency_ms = st.latency_ms) (herr : st'.error_count = st.error_count) :
    (aset i st' l).map (fun p => (p.1, p.2.span, p.2.latency_ms, p.2.error_count)) =
      l.map (fun p => (p.1, p.2.span, p.2.latency_ms, p.2.error_count)) := by
  induction l with
  | nil => simp [aget] at h
  | cons q t ih =>
      cases q with
      | mk k0 v0 =>
          by_cases hk : i = k0
          · subst hk
            simp only [aget, if_pos rfl] at h
            cases h
            simp [aset, hsp, hlat, herr]
          · simp only [aget, if_neg hk] at h
            simp [aset, Ne.symm hk, hk, ih h]

theorem setCum_skel (s : SpansState) (i : ℕ) (k : CumKey) (v : ℚ) :
    SameSkeleton s (setCum s i k v) := by
  unfold setCum
  cases h : aget i s.spans with
  | none => exact SameSkeleton.refl s
  | some st =>
      refine ⟨rfl, rfl, rfl, rfl, rfl, rfl, rfl, rfl, rfl, rfl, ?_⟩
      exact skeletonData_aset h rfl rfl rfl

theorem getCum_setCum_self {s : SpansState} {i : ℕ}
    (h : (aget i s.spans).isSome = true) (k : CumKey) (v : ℚ) :
    getCum (setCum s i k v) i k = v := by
  obtain ⟨st, hst⟩ := Option.isSome_iff_exists.1 h
  unfold setCum getCum
  simp [hst]

theorem getCum_setCum_ne_id {s : SpansState} {i j : ℕ} (hij : j ≠ i)
    (k k' : CumKey) (v : ℚ) : getCum (setCum s i k v) j k' = getCum s j k' := by
  unfold setCum getCum
  cases hst : aget i s.spans with
  | none => rfl
  | some st => simp [aget_aset_ne _ _ _ _ hij]

theorem getCum_setCum_ne_key {s : SpansState} {i j : ℕ} {k k' : CumKey}
    (hk : k' ≠ k) (v : ℚ) : getCum (setCum s i k v) j k' = getCum s j k' := by
  unfold setCum getCum
  cases hst : aget i s.spans with
  | none => rfl
  | some st =>
      by_cases hij : j = i
      · subst hij
        simp [hst, CumVals.get_set_ne _ _ _ _ hk]
      · simp [aget_aset_ne _ _ _ _ hij]

theorem setCum_absent {s : SpansState} {i : ℕ} (h : aget i s.spans = none)
    (k : CumKey) (v : ℚ) : setCum s i k v = s := by
  unfold setCum
  rw [h]

/-! ### Effect of the gather phase (propagation step 5a) -/

theorem foldl_skel {α : Type} (g : SpansState → α → SpansState)
    (hg : ∀ t a, SameSkeleton t (g t a)) :
    ∀ (l : List α) (s : SpansState), SameSkeleton s (l.foldl g s) := by
  intro l
  induction l with
  | nil => intro s; exact SameSkeleton.refl s
  | cons a t ih =>
      intro s
      rw [List.foldl_cons]
      exact (hg s a).trans (ih (g s a))

theorem gatherKey_skel (i : ℕ) (s : SpansState) (k : CumKey) :
    SameSkeleton s (gatherKey i s k) := by
  unfold gatherKey
  cases h : aget i s.spans with
  | none =>
      simp only
      exact foldl_skel _ (fun t c => setCum_skel t i k _) _ s
  | some st =>
      simp only
      exact (setCum_skel s i k _).trans
        (foldl_skel _ (fun t c => setCum_skel t i k _) _ _)

theorem gatherAll_skel (i : ℕ) (s : SpansState) :
    SameSkeleton s (gatherAll i s) :=
  foldl_skel _ (fun t k => gatherKey_skel i t k) cumKeys s

theorem getCum_foldl_setCum_ne {α : Type} (F : SpansState → α → ℚ) (i : ℕ)
    (k : CumKey) :
    ∀ (l : List α) (s : SpansState) (j : ℕ) (k' : CumKey), j ≠ i ∨ k' ≠ k →
      getCum (l.foldl (fun t c => setCum t i k (F t c)) s) j k' = getCum s j k' := by
  intro l
  induction l with
  | nil => intro s j k' h; rfl
  | cons a t ih =>
      intro s j k' h
      rw [List.foldl_cons, ih _ j k' h]
      rcases h with h | h
      · exact getCum_setCum_ne_id h k k' _
      · exact getCum_setCum_ne_key h _

theorem getCum_gatherKey_ne {i j : ℕ} {k k' : CumKey} (s : SpansState)
    (h : j ≠ i ∨ k' ≠ k) :
    getCum (gatherKey i s k) j k' = getCum s j k' := by
  unfold gatherKey
  cases hst : aget i s.spans with
  | none =>
      simp only
      exact getCum_foldl_setCum_ne _ i k _ s j k' h
  | some st =>
      simp only
      rw [getCum_foldl_setCum_ne _ i k _ _ j k' h]
      rcases h with h | h
      · exact getCum_setCum_ne_id h k k' _
      · exact getCum_setCum_ne_key h _

theorem getCum_foldl_gather_sum (i : ℕ) (k : CumKey) (cs : List ℕ)
    (hni : i ∉ cs) :
    ∀ (s : SpansState), (aget i s.spans).isSome = true →
      getCum (cs.foldl (fun t c => setCum t i k (getCum t i k + getCum t c k)) s) i k =
        getCum s i k + (cs.map (fun c => getCum s c k)).sum := by
  induction cs with
  | nil => intro s _; simp
  | cons c t ih =>
      intro s hpres
      have hci : c ≠ i := by
        intro hc; exact hni (by simp [hc])
      have hni' : i ∉ t := fun hm => hni (List.mem_cons_of_mem _ hm)
      rw [List.foldl_cons]
      have hpres' :
          (aget i (setCum s i k (getCum s i k + getCum s c k)).spans).isSome = true := by
        rw [(setCum_skel s i k _).isSome_eq]
        exact hpres
      rw [ih hni' (setCum s i k (getCum s i k + getCum s c k)) hpres']
      rw [getCum_setCum_self hpres]
      have hmap : t.map (fun c2 => getCum (setCum s i k (getCum s i k + getCum s c k)) c2 k) =
          t.map (fun c2 => getCum s c2 k) := by
        apply List.map_congr_left
        intro c2 hc2
        have hc2i : c2 ≠ i := by
          intro hc; exact hni' (hc ▸ hc2)
        exact getCum_setCum_ne_id hc2i k k _
      rw [hmap]
      simp [List.map_cons, List.sum_cons]
      ring

theorem getCum_gatherKey_self (i : ℕ) (k : CumKey) (s : SpansState)
    (hpres : (aget i s.spans).isSome = true) (hni : i ∉ childList s i) :
    getCum (gatherKey i s k) i k =
      underlyingAt s i k + ((childList s i).map (fun c => getCum s c k)).sum := by
  obtain ⟨st, hst⟩ := Option.isSome_iff_exists.1 hpres
  unfold gatherKey
  simp only [hst]
  have hskel := setCum_skel s i k (underlyingVal st k)
  rw [hskel.childList_eq i]
  have hpres1 : (aget i (setCum s i k (underlyingVal st k)).spans).isSome = true := by
    rw [hskel.isSome_eq]; exact hpres
  rw [getCum_foldl_gather_sum i k _ hni _ hpres1]
  rw [getCum_setCum_self hpres]
  have hmap : (childList s i).map
        (fun c => getCum (setCum s i k (underlyingVal st k)) c k) =
      (childList s i).map (fun c => getCum s c k) := by
    apply List.map_congr_left
    intro c hc
    have hci : c ≠ i := fun h => hni (h ▸ hc)
    exact getCum_setCum_ne_id hci k k _
  rw [hmap]
  unfold underlyingAt
  rw [hst]

theorem getCum_gatherAll_ne {i j : ℕ} (s : SpansState) (h : j ≠ i) (k : CumKey) :
    getCum (gatherAll i s) j k = getCum s j k := by
  unfold gatherAll cumKeys
  simp only [List.foldl_cons, List.foldl_nil]
  rw [getCum_gatherKey_ne _ (Or.inl h), getCum_gatherKey_ne _ (Or.inl h),
    getCum_gatherKey_ne _ (Or.inl h), getCum_gatherKey_ne _ (Or.inl h)]

/-- A state skeleton-equal to `s` in which the cumulative values of spans
other than `i` are unchanged behaves like `s` for the gather formula. -/
theorem gather_formula_congr (i : ℕ) (k : CumKey) (s t : SpansState)
    (hskel : SameSkeleton s t) (hni : i ∉ childList s i)
    (hcs : ∀ c, c ≠ i → getCum t c k = getCum s c k)
    (hnit : i ∉ childList t i)
    (hprest : (aget i t.spans).isSome = true) :
    getCum (gatherKey i t k) i k =
      underlyingAt s i k + ((childList s i).map (fun c => getCum s c k)).sum := by
  rw [getCum_gatherKey_self i k t hprest hnit]
  rw [hskel.underlyingAt_eq, hskel.childList_eq]
  congr 1
  refine congrArg List.sum (List.map_congr_left ?_)
  intro c hc
  have hci : c ≠ i := fun h => hni (by simpa [h] using hc)
  exact hcs c hci

set_option maxHeartbeats 1000000 in
theorem getCum_gatherAll_self (i : ℕ) (s : SpansState)
    (hpres : (aget i s.spans).isSome = true) (hni : i ∉ childList s i) (k : CumKey) :
    getCum (gatherAll i s) i k =
      underlyingAt s i k + ((childList s i).map (fun c => getCum s c k)).sum := by
  have step : ∀ (t : SpansState) (k' : CumKey), SameSkeleton s t →
      SameSkeleton s (gatherKey i t k') := fun t k' h =>
    h.trans (gatherKey_skel i t k')
  have g0 : SameSkeleton s s := SameSkeleton.refl s
  have g1 := step s .total g0
  have g2 := step _ .prompt g1
  have g3 := step _ .completion g2
  have hpres1 := (g1.isSome_eq i).trans hpres
  have hpres2 := (g2.isSome_eq i).trans hpres
  have hpres3 := (g3.isSome_eq i).trans hpres
  have hni1 : i ∉ childList (gatherKey i s .total) i := by
    rw [g1.childList_eq]; exact hni
  have hni2 : i ∉ childList (gatherKey i (gatherKey i s .total) .prompt) i := by
    rw [g2.childList_eq]; exact hni
  have hni3 : i ∉ childList (gatherKey i (gatherKey i (gatherKey i s .total) .prompt) .completion) i := by
    rw [g3.childList_eq]; exact hni
  unfold gatherAll cumKeys
  simp only [List.foldl_cons, List.foldl_nil]
  cases k with
  | total =>
      rw [getCum_gatherKey_ne _ (Or.inr (by decide)),
        getCum_gatherKey_ne _ (Or.inr (by decide)),
        getCum_gatherKey_ne _ (Or.inr (by decide))]
      rw [getCum_gatherKey_self i .total s hpres hni]
  | prompt =>
      rw [getCum_gatherKey_ne _ (Or.inr (by decide)),
        getCum_gatherKey_ne _ (Or.inr (by decide))]
      refine gather_formula_congr i .prompt s _ g1 hni ?_ hni1 hpres1
      intro c hci
      exact getCum_gatherKey_ne _ (Or.inl hci)
  | completion =>
      rw [getCum_gatherKey_ne _ (Or.inr (by decide))]
      refine gather_formula_congr i .completion s _ g2 hni ?_ hni2 hpres2
      intro c hci
      rw [getCum_gatherKey_ne _ (Or.inl hci), getCum_gatherKey_ne _ (Or.inl hci)]
  | err =>
      refine gather_formula_congr i .err s _ g3 hni ?_ hni3 hpres3
      intro c hci
      rw [getCum_gatherKey_ne _ (Or.inl hci), getCum_gatherKey_ne _ (Or.inl hci),
        getCum_gatherKey_ne _ (Or.inl hci)]

/-! ### The ancestor chain of the walk -/

theorem pstep_eq_some {s : SpansState} {j p : ℕ} :
    pstep s j = some p ↔
      aget j s.parentIds = some p ∧ (aget p s.spans).isSome = true := by
  unfold pstep
  cases h : aget j s.parentIds with
  | none => simp
  | some q =>
      by_cases hq : (aget q s.spans).isSome = true
      · simp only [if_pos hq]
        constructor
        · intro he
          cases he
          exact ⟨rfl, hq⟩
        · intro he
          cases he.1
          rfl
      · simp only [if_neg hq]
        constructor
        · intro he
          exact Option.noConfusion he
        · intro he
          cases he.1
          exact absurd he.2 hq

theorem achain_chain {s : SpansState} :
    ∀ {f j L}, achain s f j = some L → Chain s j L := by
  intro f
  induction f with
  | zero => intro j L h; simp [achain] at h
  | succ m ih =>
      intro j L h
      cases hp : pstep s j with
      | none =>
          simp only [achain, hp] at h
          cases h
          exact Chain.nil j hp
      | some p =>
          simp only [achain, hp] at h
          cases hm : achain s m p with
          | none => rw [hm] at h; simp at h
          | some L' =>
              rw [hm] at h
              simp at h
              rw [← h]
              exact Chain.cons j p L' hp (ih hm)

theorem achain_succ (s : SpansState) (f j : ℕ) :
    achain s (f + 1) j =
      match pstep s j with
      | none => some []
      | some p => Option.map (fun t => p :: t) (achain s f p) := rfl

theorem chain_achain {s : SpansState} :
    ∀ {j L}, Chain s j L → achain s (L.length + 1) j = some L := by
  intro j L h
  induction h with
  | nil j hp => simp [achain, hp]
  | cons j p L hp hc ih =>
      show achain s (L.length + 1 + 1) j = some (p :: L)
      rw [achain_succ, hp]
      show Option.map (fun t => p :: t) (achain s (L.length + 1) p) = some (p :: L)
      rw [ih]
      rfl

theorem achain_fuel_ge {s : SpansState} :
    ∀ {f f' j L}, achain s f j = some L → f ≤ f' → achain s f' j = some L := by
  intro f
  induction f with
  | zero => intro f' j L h; simp [achain] at h
  | succ m ih =>
      intro f' j L h hle
      obtain ⟨m', rfl⟩ : ∃ m', f' = m' + 1 := ⟨f' - 1, by omega⟩
      cases hp : pstep s j with
      | none =>
          simp only [achain, hp] at h ⊢
          exact h
      | some p =>
          simp only [achain, hp] at h ⊢
          cases hm : achain s m p with
          | none => rw [hm] at h; simp at h
          | some L' =>
              rw [hm] at h
              rw [ih hm (by omega)]
              exact h

theorem chain_unique {s : SpansState} :
    ∀ {j L L'}, Chain s j L → Chain s j L' → L = L' := by
  intro j L L' h1 h2
  have e1 := chain_achain h1
  have e2 := chain_achain h2
  rcases le_total (L.length + 1) (L'.length + 1) with hle | hle
  · have := achain_fuel_ge e1 hle
    rw [this] at e2
    exact (Option.some.injEq _ _ ▸ e2).symm ▸ by
      cases e2; rfl
  · have := achain_fuel_ge e2 hle
    rw [this] at e1
    cases e1; rfl

theorem chain_suffix_mem {s : SpansState} :
    ∀ {j L}, Chain s j L → ∀ c ∈ L, ∃ L', Chain s c L' ∧ L'.length < L.length := by
  intro j L h
  induction h with
  | nil j hp => intro c hc; simp at hc
  | cons j p L hp hc ih =>
      intro c hcm
      rcases List.mem_cons.1 hcm with rfl | hcm
      · exact ⟨L, hc, by simp⟩
      · obtain ⟨L', hc', hlen⟩ := ih c hcm
        exact ⟨L', hc', by simpa using Nat.lt_succ_of_lt hlen⟩

theorem chain_head_not_mem {s : SpansState} {j : ℕ} {L : List ℕ}
    (h : Chain s j L) : j ∉ L := by
  intro hmem
  obtain ⟨L', h', hlen⟩ := chain_suffix_mem h j hmem
  rw [chain_unique h h'] at hlen
  exact lt_irrefl _ hlen

theorem chain_nodup {s : SpansState} :
    ∀ {j L}, Chain s j L → (j :: L).Nodup := by
  intro j L h
  induction h with
  | nil j hp => simp
  | cons j p L hp hc ih =>
      refine List.nodup_cons.2 ⟨?_, ih⟩
      exact chain_head_not_mem (Chain.cons j p L hp hc)

theorem chain_mem_present {s : SpansState} :
    ∀ {j L}, Chain s j L → ∀ c ∈ L, (aget c s.spans).isSome = true := by
  intro j L h
  induction h with
  | nil j hp => intro c hc; simp at hc
  | cons j p L hp hc ih =>
      intro c hcm
      rcases List.mem_cons.1 hcm with rfl | hcm
      · exact (pstep_eq_some.1 hp).2
      · exact ih c hcm

theorem chain_succ_mem {s : SpansState} :
    ∀ {r L}, Chain s r L → ∀ c ∈ r :: L, ∀ q, pstep s c = some q → q ∈ L := by
  intro r L h
  induction h with
  | nil j hp =>
      intro c hc q hq
      simp at hc
      subst hc
      rw [hp] at hq
      simp at hq
  | cons j p L hp hc ih =>
      intro c hcm q hq
      rcases List.mem_cons.1 hcm with rfl | hcm
      · rw [hp] at hq
        cases hq
        simp
      · exact List.mem_cons_of_mem _ (ih c hcm q hq)

theorem chain_pred_unique {s : SpansState} :
    ∀ {r L}, Chain s r L → ∀ j c c', c ∈ r :: L → c' ∈ r :: L →
      pstep s c = some j → pstep s c' = some j → c = c' := by
  intro r L h
  induction h with
  | nil j hp =>
      intro j0 c c' hc hc' _ _
      simp at hc hc'
      rw [hc, hc']
  | cons j p L hp hc ih =>
      intro j0 c c' hcm hcm' hq hq'
      have hnd := chain_nodup hc
      rcases List.mem_cons.1 hcm with hceq | hcm2
      · rcases List.mem_cons.1 hcm' with hceq' | hcm2'
        · rw [hceq, hceq']
        · rw [hceq] at hq
          rw [hp] at hq
          cases hq
          have hmem : p ∈ L := chain_succ_mem hc c' hcm2' p hq'
          exact absurd hmem (List.nodup_cons.1 hnd).1
      · rcases List.mem_cons.1 hcm' with hceq' | hcm2'
        · rw [hceq'] at hq'
          rw [hp] at hq'
          cases hq'
          have hmem : p ∈ L := chain_succ_mem hc c hcm2 p hq
          exact absurd hmem (List.nodup_cons.1 hnd).1
        · exact ih j0 c c' hcm2 hcm2' hq hq'

/-- A chain is bounded by the number of stored spans. -/
theorem chain_length_le {s : SpansState} {j : ℕ} {L : List ℕ}
    (h : Chain s j L) : L.length ≤ s.spans.length := by
  have hnd : L.Nodup := (List.nodup_cons.1 (chain_nodup h)).2
  have hsub : L ⊆ s.spans.map Prod.fst := by
    intro c hc
    exact (aget_isSome_iff c s.spans).1 (chain_mem_present h c hc)
  have hle := (List.Nodup.subperm hnd hsub).length_le
  simpa using hle

/-! ### The ancestor walk in terms of its chain -/

theorem achain_congr {s t : SpansState} (h : ∀ j, pstep t j = pstep s j) :
    ∀ f j, achain t f j = achain s f j := by
  intro f
  induction f with
  | zero => intro j; rfl
  | succ m ih =>
      intro j
      rw [achain_succ, achain_succ, h j]
      cases hp : pstep s j with
      | none => rfl
      | some p =>
          show Option.map (fun t2 => p :: t2) (achain t m p) =
            Option.map (fun t2 => p :: t2) (achain s m p)
          rw [ih p]

theorem walkKey_succ (k : CumKey) (v : ℚ) (f j : ℕ) (s : SpansState) :
    walkKey k v (f + 1) j s =
      match aget j s.parentIds with
      | none => some s
      | some p =>
          match aget p s.spans with
          | none => some s
          | some pst => walkKey k v f p (setCum s p k (pst.cum.get k + v)) := rfl

theorem addAlong_cons (k : CumKey) (v : ℚ) (p : ℕ) (t : List ℕ) (s : SpansState) :
    addAlong k v (p :: t) s = addAlong k v t (setCum s p k (getCum s p k + v)) := rfl

theorem addAlong_skel (k : CumKey) (v : ℚ) (L : List ℕ) (s : SpansState) :
    SameSkeleton s (addAlong k v L s) :=
  foldl_skel _ (fun t p => setCum_skel t p k _) L s

/-- The walk either runs out of fuel exactly when the chain does, or adds
`v` along the chain. -/
theorem walkKey_eq (k : CumKey) (v : ℚ) :
    ∀ (f j : ℕ) (s : SpansState),
      walkKey k v f j s = (achain s f j).map (fun L => addAlong k v L s) := by
  intro f
  induction f with
  | zero => intro j s; rfl
  | succ m ih =>
      intro j s
      cases hp : aget j s.parentIds with
      | none =>
          have hps : pstep s j = none := by
            unfold pstep; rw [hp]
          rw [walkKey_succ, hp, achain_succ, hps]
          rfl
      | some p =>
          cases hq : aget p s.spans with
          | none =>
              have hps : pstep s j = none := by
                simp [pstep, hp, hq]
              rw [walkKey_succ, hp, achain_succ, hps]
              show (match aget p s.spans with
                    | none => some s
                    | some pst => walkKey k v m p (setCum s p k (pst.cum.get k + v))) =
                  some (addAlong k v [] s)
              rw [hq]
              rfl
          | some pst =>
              have hps : pstep s j = some p := by
                simp [pstep, hp, hq]
              rw [walkKey_succ, hp, achain_succ, hps]
              show (match aget p s.spans with
                    | none => some s
                    | some pst => walkKey k v m p (setCum s p k (pst.cum.get k + v))) =
                  (Option.map (fun t2 => p :: t2) (achain s m p)).map
                    (fun L => addAlong k v L s)
              rw [hq]
              show walkKey k v m p (setCum s p k (pst.cum.get k + v)) =
                  (Option.map (fun t2 => p :: t2) (achain s m p)).map
                    (fun L => addAlong k v L s)
              rw [ih p (setCum s p k (pst.cum.get k + v))]
              rw [achain_congr
                (fun j2 => (setCum_skel s p k (pst.cum.get k + v)).pstep_eq j2) m p]
              rw [Option.map_map]
              cases achain s m p with
              | none => rfl
              | some L2 =>
                  simp only [Option.map_some', Function.comp]
                  congr 1
                  rw [addAlong_cons]
                  have hg : getCum s p k = pst.cum.get k := by
                    unfold getCum; rw [hq]
                  rw [hg]

theorem getCum_addAlong (k : CumKey) (v : ℚ) :
    ∀ (L : List ℕ) (s : SpansState), L.Nodup →
      (∀ p ∈ L, (aget p s.spans).isSome = true) → ∀ j k',
      getCum (addAlong k v L s) j k' =
        getCum s j k' + (if j ∈ L ∧ k' = k then v else 0) := by
  intro L
  induction L with
  | nil => intro s _ _ j k'; simp [addAlong]
  | cons p t ih =>
      intro s hnd hpres j k'
      have hps : (aget p s.spans).isSome = true := hpres p (by simp)
      rw [addAlong_cons]
      have hpres2 : ∀ q ∈ t,
          (aget q (setCum s p k (getCum s p k + v)).spans).isSome = true := by
        intro q hqm
        rw [(setCum_skel s p k _).isSome_eq]
        exact hpres q (List.mem_cons_of_mem _ hqm)
      rw [ih _ (List.nodup_cons.1 hnd).2 hpres2 j k']
      have hstep : getCum (setCum s p k (getCum s p k + v)) j k' =
          getCum s j k' + (if j = p ∧ k' = k then v else 0) := by
        by_cases hj : j = p
        · subst hj
          by_cases hk : k' = k
          · subst hk
            rw [getCum_setCum_self hps]
            simp
          · rw [getCum_setCum_ne_key hk]
            simp [hk]
        · rw [getCum_setCum_ne_id hj]
          simp [hj]
      rw [hstep]
      have hnp : p ∉ t := (List.nodup_cons.1 hnd).1
      by_cases hk : k' = k
      · subst hk
        by_cases hj : j = p
        · subst hj
          have hjt : j ∉ t := hnp
          simp [hjt]
        · by_cases hjt : j ∈ t <;> simp [hj, hjt]
      · simp [hk]

/-- Effect of `_update_ancestors` run over a list of distinct keys, when
the chain from `i` terminates: every walk succeeds and every ancestor on
the chain receives the span's own cumulative value, key by key. -/
theorem foldlM_walk_spec (f i : ℕ) (L : List ℕ) :
    ∀ (ks : List CumKey) (s : SpansState), ks.Nodup → achain s f i = some L →
      ∃ s', ks.foldlM (fun t k => walkKey k (getCum t i k) f i t) s = some s' ∧
        SameSkeleton s s' ∧
        ∀ j k, getCum s' j k =
          getCum s j k + (if j ∈ L ∧ k ∈ ks then getCum s i k else 0) := by
  intro ks
  induction ks with
  | nil =>
      intro s _ _
      exact ⟨s, rfl, SameSkeleton.refl s, fun j k => by simp⟩
  | cons k0 kt ih =>
      intro s hnd hach
      have hchain : Chain s i L := achain_chain hach
      have hLnd : L.Nodup := (List.nodup_cons.1 (chain_nodup hchain)).2
      have hiL : i ∉ L := chain_head_not_mem hchain
      have hLpres : ∀ p ∈ L, (aget p s.spans).isSome = true :=
        chain_mem_present hchain
      have hwalk : walkKey k0 (getCum s i k0) f i s =
          some (addAlong k0 (getCum s i k0) L s) := by
        rw [walkKey_eq, hach]
        rfl
      have hskel1 : SameSkeleton s (addAlong k0 (getCum s i k0) L s) :=
        addAlong_skel k0 _ L s
      have hach1 : achain (addAlong k0 (getCum s i k0) L s) f i = some L := by
        rw [achain_congr (fun j2 => hskel1.pstep_eq j2) f i]
        exact hach
      obtain ⟨s', hfold, hskel2, hget⟩ :=
        ih (addAlong k0 (getCum s i k0) L s) (List.nodup_cons.1 hnd).2 hach1
      refine ⟨s', ?_, hskel1.trans hskel2, ?_⟩
      · rw [List.foldlM_cons, hwalk]
        exact hfold
      · intro j k
        rw [hget j k]
        have hga := getCum_addAlong k0 (getCum s i k0) L s hLnd hLpres
        rw [hga j k]
        have hgi : ∀ k2, getCum (addAlong k0 (getCum s i k0) L s) i k2 = getCum s i k2 := by
          intro k2
          rw [hga i k2]
          simp [hiL]
        rw [hgi k]
        have hk0nt : k0 ∉ kt := (List.nodup_cons.1 hnd).1
        by_cases hjL : j ∈ L
        · by_cases hkk : k = k0
          · subst hkk
            simp [hjL, hk0nt]
          · by_cases hkt : k ∈ kt <;>
              simp [hjL, hkk, hkt, Ne.symm hkk]
        · simp [hjL]

/-! ### Shape of the publication step -/

theorem publishSpan_root (sp : Span) (s : SpansState) (h : sp.parent_id = none) :
    publishSpan sp s =
      { s with
        sketch := s.sketch ++ [(sp.end_time - sp.start_time) * 1000],
        spans := aset sp.span_id
          ⟨sp, (sp.end_time - sp.start_time) * 1000,
            (if sp.status_code = .error then (1 : ℚ) else 0), CumVals.zero⟩ s.spans,
        traces := aset sp.trace_id
          ((aget sp.trace_id s.traces).getD [] ++ [sp.span_id]) s.traces,
        sortedAll := insortR sp.start_time sp.span_id s.sortedAll,
        sortedRoots := insortR sp.start_time sp.span_id s.sortedRoots,
        latencyRoots := insortR ((sp.end_time - sp.start_time) * 1000) sp.span_id
          s.latencyRoots } := by
  unfold publishSpan
  rw [h]
  rfl

theorem publishSpan_nonroot (sp : Span) (s : SpansState) (p : ℕ)
    (h : sp.parent_id = some p) :
    publishSpan sp s =
      { s with
        childSpans := aset p ((aget p s.childSpans).getD [] ++ [sp.span_id]) s.childSpans,
        parentIds := aset sp.span_id p s.parentIds,
        spans := aset sp.span_id
          ⟨sp, (sp.end_time - sp.start_time) * 1000,
            (if sp.status_code = .error then (1 : ℚ) else 0), CumVals.zero⟩ s.spans,
        traces := aset sp.trace_id
          ((aget sp.trace_id s.traces).getD [] ++ [sp.span_id]) s.traces,
        sortedAll := insortR sp.start_time sp.span_id s.sortedAll } := by
  unfold publishSpan
  rw [h]
  rfl

/-! ### Sorted-list insertion lemmas -/

theorem insortR_perm (k : ℚ) (x : ℕ) :
    ∀ l : List (ℚ × ℕ), List.Perm (insortR k x l) ((k, x) :: l) := by
  intro l
  induction l with
  | nil => exact List.Perm.refl _
  | cons q t ih =>
      cases q with
      | mk k' y =>
          unfold insortR
          by_cases hk : k < k'
          · rw [if_pos hk]
          · rw [if_neg hk]
            exact (ih.cons _).trans (List.Perm.swap _ _ _)

theorem insortR_mem (k : ℚ) (x : ℕ) (l : List (ℚ × ℕ)) (q : ℚ) (i : ℕ) :
    (q, i) ∈ insortR k x l ↔ (q = k ∧ i = x) ∨ (q, i) ∈ l := by
  rw [(insortR_perm k x l).mem_iff]
  simp [Prod.ext_iff]

theorem insortR_sorted (k : ℚ) (x : ℕ) :
    ∀ l : List (ℚ × ℕ), l.Pairwise (fun a b => a.1 ≤ b.1) →
      (insortR k x l).Pairwise (fun a b => a.1 ≤ b.1) := by
  intro l
  induction l with
  | nil => intro _; simp [insortR]
  | cons q t ih =>
      intro hs
      cases q with
      | mk k' y =>
          obtain ⟨hhead, htail⟩ := List.pairwise_cons.1 hs
          unfold insortR
          by_cases hk : k < k'
          · rw [if_pos hk]
            refine List.pairwise_cons.2 ⟨?_, hs⟩
            intro b hb
            rcases List.mem_cons.1 hb with rfl | hb
            · exact le_of_lt hk
            · exact le_trans (le_of_lt hk) (hhead b hb)
          · rw [if_neg hk]
            refine List.pairwise_cons.2 ⟨?_, ih htail⟩
            intro b hb
            rw [(insortR_perm k x t).mem_iff] at hb
            rcases List.mem_cons.1 hb with rfl | hb
            · exact le_of_not_lt hk
            · exact hhead b hb

theorem insortR_map_snd_perm (k : ℚ) (x : ℕ) (l : List (ℚ × ℕ)) :
    List.Perm ((insortR k x l).map Prod.snd) (x :: l.map Prod.snd) :=
  (insortR_perm k x l).map Prod.snd

/-! ### More helpers for the ingest invariant -/

theorem aset_fresh_append {κ ν : Type} [DecidableEq κ] {k : κ} {l : List (κ × ν)}
    (h : aget k l = none) (v : ν) : aset k v l = l ++ [(k, v)] := by
  induction l with
  | nil => rfl
  | cons p t ih =>
      cases p with
      | mk k0 v0 =>
          by_cases hk : k = k0
          · subst hk; simp [aget] at h
          · simp only [aget, if_neg hk] at h
            simp [aset, hk, ih h]

theorem finishSpan_eq (now : ℤ) (sp : Span) (t : SpansState) :
    finishSpan now sp t =
      { t with
        tokenTotal := t.tokenTotal + sp.tok_total.getD 0,
        numDocuments :=
          if sp.num_documents ≠ 0 then
            aset sp.span_id ((aget sp.span_id t.numDocuments).getD 0 + sp.num_documents)
              t.numDocuments
          else t.numDocuments,
        lastUpdated := some now } := by
  unfold finishSpan
  by_cases h : sp.num_documents ≠ 0 <;> simp [h]

/-- The root-latency view of the store depends only on its skeleton. -/
theorem filterMap_rootLat_skel {a b : SpansState} (h : skeletonData a = skeletonData b) :
    a.spans.filterMap (fun p =>
        if p.2.span.parent_id.isNone then some p.2.latency_ms else none) =
      b.spans.filterMap (fun p =>
        if p.2.span.parent_id.isNone then some p.2.latency_ms else none) := by
  have key : ∀ c : SpansState, c.spans.filterMap (fun p =>
      if p.2.span.parent_id.isNone then some p.2.latency_ms else none) =
      (skeletonData c).filterMap (fun x =>
        if x.2.1.parent_id.isNone then some x.2.2.1 else none) := by
    intro c
    unfold skeletonData
    rw [List.filterMap_map]
    rfl
  rw [key a, key b, h]

/-- The token-count view of the store depends only on its skeleton. -/
theorem map_tok_skel {a b : SpansState} (h : skeletonData a = skeletonData b) :
    a.spans.map (fun p => p.2.span.tok_total.getD 0) =
      b.spans.map (fun p => p.2.span.tok_total.getD 0) := by
  have key : ∀ c : SpansState, c.spans.map (fun p => p.2.span.tok_total.getD 0) =
      (skeletonData c).map (fun x => x.2.1.tok_total.getD 0) := by
    intro c
    unfold skeletonData
    rw [List.map_map]
    rfl
  rw [key a, key b, h]

theorem sum_ite_of_none {cs : List ℕ} {P : ℕ → Prop} [DecidablePred P] (v : ℚ)
    (h : ∀ c ∈ cs, ¬ P c) :
    (cs.map (fun c => if P c then v else 0)).sum = 0 := by
  induction cs with
  | nil => simp
  | cons c t ih =>
      simp only [List.map_cons, List.sum_cons]
      rw [if_neg (h c (by simp)), ih (fun c2 hc2 => h c2 (List.mem_cons_of_mem _ hc2))]
      simp

theorem sum_ite_of_unique {cs : List ℕ} {P : ℕ → Prop} [DecidablePred P] (v : ℚ)
    (hnd : cs.Nodup) (c0 : ℕ) (hc0 : c0 ∈ cs) (hp : P c0)
    (huniq : ∀ c ∈ cs, P c → c = c0) :
    (cs.map (fun c => if P c then v else 0)).sum = v := by
  induction cs with
  | nil => simp at hc0
  | cons c t ih =>
      simp only [List.map_cons, List.sum_cons]
      rcases List.mem_cons.1 hc0 with hceq | hcm
      · subst hceq
        rw [if_pos hp]
        have hnone : ∀ c2 ∈ t, ¬ P c2 := by
          intro c2 hc2 hp2
          have := huniq c2 (List.mem_cons_of_mem _ hc2) hp2
          subst this
          exact (List.nodup_cons.1 hnd).1 hc2
        rw [sum_ite_of_none v hnone]
        simp
      · have hcne : ¬ P c := by
          intro hpc
          have := huniq c (by simp) hpc
          subst this
          exact (List.nodup_cons.1 hnd).1 hcm
        rw [if_neg hcne]
        rw [ih (List.nodup_cons.1 hnd).2 hcm
          (fun c2 hc2 hp2 => huniq c2 (List.mem_cons_of_mem _ hc2) hp2)]
        simp

/-- Every chain member has a predecessor in the extended chain. -/
theorem chain_mem_pred {s : SpansState} :
    ∀ {i L}, Chain s i L → ∀ j ∈ L, ∃ c ∈ i :: L, pstep s c = some j := by
  intro i L h
  induction h with
  | nil r hp => intro j hj; simp at hj
  | cons r p L hp hc ih =>
      intro j hj
      rcases List.mem_cons.1 hj with hceq | hcm
      · subst hceq
        exact ⟨r, by simp, hp⟩
      · obtain ⟨c, hcmem, hcp⟩ := ih j hcm
        exact ⟨c, List.mem_cons_of_mem _ hcmem, hcp⟩

/-- Transfer of termination from an old store into the store with one more
span: the old walk either still stops, or now continues through the new
span and follows its (terminating) chain. -/
theorem chain_transfer {s t : SpansState} {i : ℕ} {Li : List ℕ}
    (hpar : ∀ c, c ≠ i → aget c t.parentIds = aget c s.parentIds)
    (hpres : ∀ c, c ≠ i → (aget c t.spans).isSome = (aget c s.spans).isSome)
    (hifresh : aget i s.spans = none)
    (hipres : (aget i t.spans).isSome = true)
    (hchaini : Chain t i Li) :
    ∀ {j L}, Chain s j L → (aget j s.spans).isSome = true → ∃ L', Chain t j L' := by
  intro j L h
  induction h with
  | nil r hp =>
      intro hjpres
      have hrne : r ≠ i := by
        intro he
        rw [he, hifresh] at hjpres
        simp at hjpres
      cases hq : aget r s.parentIds with
      | none =>
          refine ⟨[], Chain.nil r ?_⟩
          unfold pstep
          rw [hpar r hrne, hq]
      | some q =>
          by_cases hqs : (aget q s.spans).isSome = true
          · rw [pstep_eq_some.2 ⟨hq, hqs⟩] at hp
            exact Option.noConfusion hp
          · by_cases hqi : q = i
            · subst hqi
              refine ⟨q :: Li, Chain.cons r q Li ?_ hchaini⟩
              rw [pstep_eq_some]
              exact ⟨by rw [hpar r hrne, hq], hipres⟩
            · refine ⟨[], Chain.nil r ?_⟩
              unfold pstep
              rw [hpar r hrne, hq]
              show (if (aget q t.spans).isSome = true then some q else none) = none
              rw [hpres q hqi]
              simp only [Bool.not_eq_true] at hqs
              rw [hqs]
              rfl
  | cons r p L hp hc ih =>
      intro hjpres
      have hrne : r ≠ i := by
        intro he
        rw [he, hifresh] at hjpres
        simp at hjpres
      obtain ⟨hq, hqs⟩ := pstep_eq_some.1 hp
      have hpne : p ≠ i := by
        intro he
        rw [he, hifresh] at hqs
        simp at hqs
      obtain ⟨L', hc'⟩ := ih hqs
      refine ⟨p :: L', Chain.cons r p L' ?_ hc'⟩
      rw [pstep_eq_some]
      exact ⟨by rw [hpar r hrne, hq], by rw [hpres p hpne]; exact hqs⟩

/-! ### Anatomy of a successful fresh ingest -/

theorem getCum_congr {a b : SpansState} (h : a.spans = b.spans) (j : ℕ) (k : CumKey) :
    getCum a j k = getCum b j k := by
  unfold getCum
  rw [h]

theorem underlyingAt_of_skel {a b : SpansState}
    (h : skeletonData a = skeletonData b) (j : ℕ) (k : CumKey) :
    underlyingAt a j k = underlyingAt b j k := by
  have htr := skeleton_aget h j
  unfold underlyingAt
  cases ha : aget j a.spans with
  | none =>
      rw [ha] at htr
      cases hb : aget j b.spans with
      | none => rfl
      | some st => rw [hb] at htr; simp at htr
  | some st =>
      rw [ha] at htr
      cases hb : aget j b.spans with
      | none => rw [hb] at htr; simp at htr
      | some st2 =>
          rw [hb] at htr
          simp [Prod.ext_iff] at htr
          cases k <;> simp [underlyingVal, htr.1, htr.2.2]

theorem pstep_congr {a b : SpansState} (hpar : a.parentIds = b.parentIds)
    (hpres : ∀ p, (aget p a.spans).isSome = (aget p b.spans).isSome) (j : ℕ) :
    pstep a j = pstep b j := by
  unfold pstep
  rw [hpar]
  cases aget j b.parentIds with
  | none => rfl
  | some p => simp [hpres p]

theorem chain_congr {a b : SpansState} (h : ∀ j, pstep a j = pstep b j) :
    ∀ {j L}, Chain b j L → Chain a j L := by
  intro j L hc
  induction hc with
  | nil r hp => exact Chain.nil r (by rw [h r]; exact hp)
  | cons r p L hp hc ih => exact Chain.cons r p L (by rw [h r]; exact hp) ih

theorem updateAncestors_some_chain {f i : ℕ} {s s3 : SpansState}
    (h : updateAncestors f i s = some s3) : ∃ L, achain s f i = some L := by
  cases hach : achain s f i with
  | some L => exact ⟨L, rfl⟩
  | none =>
      exfalso
      unfold updateAncestors cumKeys at h
      rw [List.foldlM_cons, walkKey_eq, hach] at h
      simp at h

set_option maxHeartbeats 1600000 in
/-- Full description of a successful fresh ingest: the field changes, the
terminating ancestor chain of the new span, and the cumulative values of
the result (the new span gathers its recorded children; every chain member
gains the new span's cumulative value; everything else is untouched). -/
theorem addSpan_anatomy (now : ℤ) (sp : Span) (s s' : SpansState)
    (hfresh : aget sp.span_id s.spans = none)
    (hni : sp.span_id ∉ childList s sp.span_id)
    (h : addSpan now sp s = some s') :
    AddEffects sp s s' ∧
    ∃ L : List ℕ, Chain s' sp.span_id L ∧
      (∀ k, getCum s' sp.span_id k =
        underlyingAt s' sp.span_id k +
          ((childList s sp.span_id).map (fun c => getCum s c k)).sum) ∧
      (∀ j k, j ≠ sp.span_id →
        getCum s' j k = getCum s j k + (if j ∈ L then getCum s' sp.span_id k else 0)) := by
  unfold addSpan at h
  rw [if_neg (by rw [hfresh]; simp)] at h
  cases hupd : updateAncestors
      ((gatherAll sp.span_id (publishSpan sp s)).spans.length + 1) sp.span_id
      (gatherAll sp.span_id (publishSpan sp s)) with
  | none => rw [hupd] at h; exact absurd h (by simp)
  | some s3 =>
      rw [hupd] at h
      have hs' : s' = finishSpan now sp s3 := by cases h; rfl
      obtain ⟨L, hach⟩ := updateAncestors_some_chain hupd
      obtain ⟨s3', hupd', hskel23, hcum3⟩ :=
        foldlM_walk_spec _ sp.span_id L cumKeys
          (gatherAll sp.span_id (publishSpan sp s)) (by decide) hach
      have hs3 : s3' = s3 := by
        unfold updateAncestors at hupd
        rw [hupd'] at hupd
        cases hupd
        rfl
      subst hs3
      have hchain2 : Chain (gatherAll sp.span_id (publishSpan sp s)) sp.span_id L :=
        achain_chain hach
      have hiL : sp.span_id ∉ L := chain_head_not_mem hchain2
      have hndL : L.Nodup := (List.nodup_cons.1 (chain_nodup hchain2)).2
      have hskel12 : SameSkeleton (publishSpan sp s)
          (gatherAll sp.span_id (publishSpan sp s)) :=
        gatherAll_skel sp.span_id (publishSpan sp s)
      -- publication-stage field equations (case split on the root flag)
      have hspans1 : (publishSpan sp s).spans = aset sp.span_id (mkStored sp) s.spans := by
        cases hpar : sp.parent_id with
        | none => rw [publishSpan_root sp s hpar]; rfl
        | some p => rw [publishSpan_nonroot sp s p hpar]; rfl
      have hparent1 : (publishSpan sp s).parentIds =
          (match sp.parent_id with
           | some p => aset sp.span_id p s.parentIds
           | none => s.parentIds) := by
        cases hpar : sp.parent_id with
        | none => rw [publishSpan_root sp s hpar]
        | some p => rw [publishSpan_nonroot sp s p hpar]
      have hchild1 : (publishSpan sp s).childSpans =
          (match sp.parent_id with
           | some p => aset p ((aget p s.childSpans).getD [] ++ [sp.span_id]) s.childSpans
           | none => s.childSpans) := by
        cases hpar : sp.parent_id with
        | none => rw [publishSpan_root sp s hpar]
        | some p => rw [publishSpan_nonroot sp s p hpar]
      have htraces1 : (publishSpan sp s).traces =
          aset sp.trace_id ((aget sp.trace_id s.traces).getD [] ++ [sp.span_id]) s.traces := by
        cases hpar : sp.parent_id with
        | none => rw [publishSpan_root sp s hpar]
        | some p => rw [publishSpan_nonroot sp s p hpar]
      have hnd1 : (publishSpan sp s).numDocuments = s.numDocuments := by
        cases hpar : sp.parent_id with
        | none => rw [publishSpan_root sp s hpar]
        | some p => rw [publishSpan_nonroot sp s p hpar]
      have hsortedAll1 : (publishSpan sp s).sortedAll =
          insortR sp.start_time sp.span_id s.sortedAll := by
        cases hpar : sp.parent_id with
        | none => rw [publishSpan_root sp s hpar]
        | some p => rw [publishSpan_nonroot sp s p hpar]
      have hsortedRoots1 : (publishSpan sp s).sortedRoots =
          (if sp.parent_id.isNone then insortR sp.start_time sp.span_id s.sortedRoots
           else s.sortedRoots) := by
        cases hpar : sp.parent_id with
        | none => rw [publishSpan_root sp s hpar]; simp [hpar]
        | some p => rw [publishSpan_nonroot sp s p hpar]; simp [hpar]
      have hlatRoots1 : (publishSpan sp s).latencyRoots =
          (if sp.parent_id.isNone then
            insortR ((sp.end_time - sp.start_time) * 1000) sp.span_id s.latencyRoots
           else s.latencyRoots) := by
        cases hpar : sp.parent_id with
        | none => rw [publishSpan_root sp s hpar]; simp [hpar]
        | some p => rw [publishSpan_nonroot sp s p hpar]; simp [hpar]
      have hsketch1 : (publishSpan sp s).sketch =
          (if sp.parent_id.isNone then
            s.sketch ++ [(sp.end_time - sp.start_time) * 1000]
           else s.sketch) := by
        cases hpar : sp.parent_id with
        | none => rw [publishSpan_root sp s hpar]; simp [hpar]
        | some p => rw [publishSpan_nonroot sp s p hpar]; simp [hpar]
      have htok1 : (publishSpan sp s).tokenTotal = s.tokenTotal := by
        cases hpar : sp.parent_id with
        | none => rw [publishSpan_root sp s hpar]
        | some p => rw [publishSpan_nonroot sp s p hpar]
      -- the final stage only rewrites statistics and the clock
      have hs'spans : s'.spans = s3'.spans := by rw [hs', finishSpan_eq]
      have hs'parent : s'.parentIds = s3'.parentIds := by rw [hs', finishSpan_eq]
      have hs'child : s'.childSpans = s3'.childSpans := by rw [hs', finishSpan_eq]
      have hs'traces : s'.traces = s3'.traces := by rw [hs', finishSpan_eq]
      have hs'sortedAll : s'.sortedAll = s3'.sortedAll := by rw [hs', finishSpan_eq]
      have hs'sortedRoots : s'.sortedRoots = s3'.sortedRoots := by rw [hs', finishSpan_eq]
      have hs'latRoots : s'.latencyRoots = s3'.latencyRoots := by rw [hs', finishSpan_eq]
      have hs'sketch : s'.sketch = s3'.sketch := by rw [hs', finishSpan_eq]
      have hs'tok : s'.tokenTotal = s3'.tokenTotal + sp.tok_total.getD 0 := by
        rw [hs', finishSpan_eq]
      have hs'nd : s'.numDocuments =
          (if sp.num_documents ≠ 0 then
            aset sp.span_id ((aget sp.span_id s3'.numDocuments).getD 0 + sp.num_documents)
              s3'.numDocuments
          else s3'.numDocuments) := by rw [hs', finishSpan_eq]
      have hs'clock : s'.lastUpdated = some now := by rw [hs', finishSpan_eq]
      -- skeleton bookkeeping through the stages
      have hskelS : skeletonData s' =
          (aset sp.span_id (mkStored sp) s.spans).map
            (fun p => (p.1, p.2.span, p.2.latency_ms, p.2.error_count)) := by
        have h1 : skeletonData s' = skeletonData s3' := by
          unfold skeletonData
          rw [hs'spans]
        rw [h1, hskel23.skeleton, hskel12.skeleton]
        unfold skeletonData
        rw [hspans1]
      have hbase : ∀ j,
          (aget j s'.spans).map (fun st => (st.span, st.latency_ms, st.error_count)) =
            (aget j (aset sp.span_id (mkStored sp) s.spans)).map
              (fun st => (st.span, st.latency_ms, st.error_count)) := by
        intro j
        exact skeleton_aget hskelS j
      have hspanAt : ∀ j, spanAt s' j = if j = sp.span_id then some sp else spanAt s j := by
        intro j
        have := (skel_option_components (hbase j)).1
        unfold spanAt
        rw [this]
        by_cases hj : j = sp.span_id
        · subst hj; rw [aget_aset_self, if_pos rfl]; rfl
        · rw [aget_aset_ne _ _ _ _ hj, if_neg hj]
      have hlatAt : ∀ j, latencyAt s' j =
          if j = sp.span_id then some ((sp.end_time - sp.start_time) * 1000)
          else latencyAt s j := by
        intro j
        have := (skel_option_components (hbase j)).2.1
        unfold latencyAt
        rw [this]
        by_cases hj : j = sp.span_id
        · subst hj; rw [aget_aset_self, if_pos rfl]; rfl
        · rw [aget_aset_ne _ _ _ _ hj, if_neg hj]
      have herrAt : ∀ j, errorAt s' j =
          if j = sp.span_id then some (if sp.status_code = .error then (1 : ℚ) else 0)
          else errorAt s j := by
        intro j
        have := (skel_option_components (hbase j)).2.2.1
        unfold errorAt
        rw [this]
        by_cases hj : j = sp.span_id
        · subst hj; rw [aget_aset_self, if_pos rfl]; rfl
        · rw [aget_aset_ne _ _ _ _ hj, if_neg hj]
      have hkeys : s'.spans.map Prod.fst = s.spans.map Prod.fst ++ [sp.span_id] := by
        have h1 := congrArg (fun l => l.map (fun x : ℕ × Span × ℚ × ℚ => x.1)) hskelS
        simp only [skeletonData, List.map_map] at h1
        have h2 : s'.spans.map Prod.fst =
            (aset sp.span_id (mkStored sp) s.spans).map Prod.fst := by
          simpa [Function.comp] using h1
        rw [h2, keys_aset]
        rw [hfresh]
        rfl
      -- presence in the intermediate stores
      have hpres1 : (aget sp.span_id (publishSpan sp s).spans).isSome = true := by
        rw [hspans1, aget_aset_self]
        rfl
      have hpres2 : (aget sp.span_id
          (gatherAll sp.span_id (publishSpan sp s)).spans).isSome = true := by
        rw [hskel12.isSome_eq]
        exact hpres1
      -- the new span is not recorded as its own parent
      have hselfpar : sp.parent_id ≠ some sp.span_id := by
        intro hpar
        have hpstep : pstep (gatherAll sp.span_id (publishSpan sp s)) sp.span_id =
            some sp.span_id := by
          rw [pstep_eq_some]
          constructor
          · rw [hskel12.parentIds, hparent1, hpar]
            exact aget_aset_self _ _ _
          · exact hpres2
        cases hchain2 with
        | nil _ hps => rw [hps] at hpstep; exact Option.noConfusion hpstep
        | cons _ p2 L2 hps hc2 =>
            rw [hps] at hpstep
            cases hpstep
            exact hiL (by simp)
      have hchildS1 : childList (publishSpan sp s) sp.span_id = childList s sp.span_id := by
        unfold childList
        rw [hchild1]
        cases hpar : sp.parent_id with
        | none => rfl
        | some p =>
            have hpi : sp.span_id ≠ p := by
              intro he
              exact hselfpar (by rw [hpar, ← he])
            rw [aget_aset_ne _ _ _ _ hpi]
      have hni1 : sp.span_id ∉ childList (publishSpan sp s) sp.span_id := by
        rw [hchildS1]; exact hni
      -- cumulative values through the stages
      have hg2self : ∀ k, getCum (gatherAll sp.span_id (publishSpan sp s)) sp.span_id k =
          underlyingAt (publishSpan sp s) sp.span_id k +
            ((childList (publishSpan sp s) sp.span_id).map
              (fun c => getCum (publishSpan sp s) c k)).sum :=
        getCum_gatherAll_self sp.span_id (publishSpan sp s) hpres1 hni1
      have hg1old : ∀ j k, j ≠ sp.span_id →
          getCum (publishSpan sp s) j k = getCum s j k := by
        intro j k hj
        unfold getCum
        rw [hspans1, aget_aset_ne _ _ _ _ hj]
      have hg2old : ∀ j k, j ≠ sp.span_id →
          getCum (gatherAll sp.span_id (publishSpan sp s)) j k = getCum s j k := by
        intro j k hj
        rw [getCum_gatherAll_ne _ hj, hg1old j k hj]
      have hgS : ∀ j k, getCum s' j k = getCum s3' j k := by
        intro j k
        exact getCum_congr hs'spans j k
      have hfix : ∀ k, getCum s' sp.span_id k =
          getCum (gatherAll sp.span_id (publishSpan sp s)) sp.span_id k := by
        intro k
        rw [hgS, hcum3 sp.span_id k, if_neg (fun hc => hiL hc.1), add_zero]
      have huS : ∀ k, underlyingAt s' sp.span_id k =
          underlyingAt (publishSpan sp s) sp.span_id k := by
        intro k
        apply underlyingAt_of_skel
        rw [hskelS]
        unfold skeletonData
        rw [hspans1]
      have hgSself : ∀ k, getCum s' sp.span_id k =
          underlyingAt s' sp.span_id k +
            ((childList s sp.span_id).map (fun c => getCum s c k)).sum := by
        intro k
        rw [hfix k, hg2self k, hchildS1]
        have hmap : (childList s sp.span_id).map
              (fun c => getCum (publishSpan sp s) c k) =
            (childList s sp.span_id).map (fun c => getCum s c k) := by
          refine List.map_congr_left ?_
          intro c hc
          have hci : c ≠ sp.span_id := fun he => hni (he ▸ hc)
          exact hg1old c k hci
        rw [hmap, huS k]
      have hgSold : ∀ j k, j ≠ sp.span_id →
          getCum s' j k = getCum s j k +
            (if j ∈ L then getCum s' sp.span_id k else 0) := by
        intro j k hj
        rw [hgS, hcum3 j k, hg2old j k hj, hfix k]
        have hk : k ∈ cumKeys := by cases k <;> decide
        by_cases hjL : j ∈ L
        · rw [if_pos (And.intro hjL hk), if_pos hjL]
        · rw [if_neg (fun hc => hjL hc.1), if_neg hjL]
      -- the chain also lives in the final store
      have hpstepS : ∀ j, pstep s' j = pstep (gatherAll sp.span_id (publishSpan sp s)) j := by
        intro j
        apply pstep_congr
        · rw [hs'parent, hskel23.parentIds]
        · intro p
          rw [hs'spans]
          exact hskel23.isSome_eq p
      have hchainS : Chain s' sp.span_id L := chain_congr hpstepS hchain2
      refine ⟨⟨hspanAt, hlatAt, herrAt, hkeys, hskelS, ?_, ?_, ?_, ?_, ?_, ?_, ?_, ?_, ?_,
        ⟨now, hs'clock⟩⟩, L, hchainS, hgSself, fun j k hj => hgSold j k hj⟩
      · rw [hs'parent, hskel23.parentIds, hskel12.parentIds, hparent1]
      · rw [hs'child, hskel23.childSpans, hskel12.childSpans, hchild1]
      · rw [hs'traces, hskel23.traces, hskel12.traces, htraces1]
      · rw [hs'nd, hskel23.numDocuments, hskel12.numDocuments, hnd1]
      · rw [hs'sortedAll, hskel23.sortedAll, hskel12.sortedAll, hsortedAll1]
      · rw [hs'sortedRoots, hskel23.sortedRoots, hskel12.sortedRoots, hsortedRoots1]
      · rw [hs'latRoots, hskel23.latencyRoots, hskel12.latencyRoots, hlatRoots1]
      · rw [hs'sketch, hskel23.sketch, hskel12.sketch, hsketch1]
      · rw [hs'tok, hskel23.tokenTotal, hskel12.tokenTotal, htok1]

/-! ### Preservation of the store invariant by one ingest -/

theorem spanAt_of_fresh {s : SpansState} {i : ℕ} (h : aget i s.spans = none) :
    spanAt s i = none := by
  unfold spanAt
  rw [h]
  rfl

theorem invA_comp {sp : Span} {s s' : SpansState} (E : AddEffects sp s s') :
    ∀ j st, aget j s'.spans = some st →
      ∃ st2, aget j (aset sp.span_id (mkStored sp) s.spans) = some st2 ∧
        st.span = st2.span ∧ st.latency_ms = st2.latency_ms ∧
        st.error_count = st2.error_count := by
  intro j st hj
  have hb := skeleton_aget E.spansSkelEq j
  rw [hj] at hb
  cases h2 : aget j (aset sp.span_id (mkStored sp) s.spans) with
  | none => rw [h2] at hb; simp at hb
  | some st2 =>
      rw [h2] at hb
      simp [Prod.ext_iff] at hb
      exact ⟨st2, rfl, hb.1, hb.2.1, hb.2.2⟩

theorem invA_pres {sp : Span} {s s' : SpansState} (E : AddEffects sp s s') :
    ∀ j, (aget j s'.spans).isSome =
      (aget j (aset sp.span_id (mkStored sp) s.spans)).isSome := by
  intro j
  have hb := congrArg Option.isSome (skeleton_aget E.spansSkelEq j)
  simpa using hb

theorem invA_nodupSpans {sp : Span} {s s' : SpansState} (hInv : Inv s)
    (hfresh : aget sp.span_id s.spans = none) (E : AddEffects sp s s') :
    NodupKeys s'.spans := by
  unfold NodupKeys
  rw [E.keysEq]
  have h0 : (s.spans.map Prod.fst).Nodup := hInv.nodupSpans
  have h1 : sp.span_id ∉ s.spans.map Prod.fst := (aget_eq_none_iff _ _).1 hfresh
  simp [List.nodup_append, h0, h1]

theorem invA_spanIdOk {sp : Span} {s s' : SpansState} (hInv : Inv s)
    (E : AddEffects sp s s') :
    ∀ j sp2, spanAt s' j = some sp2 → sp2.span_id = j := by
  intro j sp2 hj
  rw [E.spanAtEq] at hj
  by_cases hje : j = sp.span_id
  · rw [if_pos hje] at hj
    cases hj
    exact hje.symm
  · rw [if_neg hje] at hj
    exact hInv.spanIdOk j sp2 hj

theorem invA_latencyOk {sp : Span} {s s' : SpansState} (hInv : Inv s)
    (E : AddEffects sp s s') :
    ∀ j st, aget j s'.spans = some st →
      st.latency_ms = (st.span.end_time - st.span.start_time) * 1000 := by
  intro j st hj
  obtain ⟨st2, h2, hsp, hlat, _⟩ := invA_comp E j st hj
  rw [hlat, hsp]
  by_cases hje : j = sp.span_id
  · subst hje
    rw [aget_aset_self] at h2
    cases h2
    rfl
  · rw [aget_aset_ne _ _ _ _ hje] at h2
    exact hInv.latencyOk j st2 h2

theorem invA_errorOk {sp : Span} {s s' : SpansState} (hInv : Inv s)
    (E : AddEffects sp s s') :
    ∀ j st, aget j s'.spans = some st →
      st.error_count = (if st.span.status_code = .error then (1 : ℚ) else 0) := by
  intro j st hj
  obtain ⟨st2, h2, hsp, _, herr⟩ := invA_comp E j st hj
  rw [herr, hsp]
  by_cases hje : j = sp.span_id
  · subst hje
    rw [aget_aset_self] at h2
    cases h2
    rfl
  · rw [aget_aset_ne _ _ _ _ hje] at h2
    exact hInv.errorOk j st2 h2

theorem invA_parentIdsOk {sp : Span} {s s' : SpansState} (hInv : Inv s)
    (hfresh : aget sp.span_id s.spans = none) (E : AddEffects sp s s') :
    ∀ c, aget c s'.parentIds = (spanAt s' c).bind (fun sp2 => sp2.parent_id) := by
  intro c
  have hspanF := spanAt_of_fresh hfresh
  cases hpar : sp.parent_id with
  | none =>
      have hpid : s'.parentIds = s.parentIds := by rw [E.parentIdsEq, hpar]
      rw [hpid, E.spanAtEq]
      by_cases hc : c = sp.span_id
      · subst hc
        rw [if_pos rfl, hInv.parentIdsOk, hspanF]
        simp [hpar]
      · rw [if_neg hc]
        exact hInv.parentIdsOk c
  | some q =>
      have hpid : s'.parentIds = aset sp.span_id q s.parentIds := by
        rw [E.parentIdsEq, hpar]
      rw [hpid, E.spanAtEq]
      by_cases hc : c = sp.span_id
      · subst hc
        rw [if_pos rfl, aget_aset_self]
        simp [hpar]
      · rw [if_neg hc, aget_aset_ne _ _ _ _ hc]
        exact hInv.parentIdsOk c

theorem invA_childList_root {sp : Span} {s s' : SpansState} (E : AddEffects sp s s')
    (hpar : sp.parent_id = none) : ∀ p, childList s' p = childList s p := by
  intro p
  have hcs : s'.childSpans = s.childSpans := by rw [E.childSpansEq, hpar]
  unfold childList
  rw [hcs]

theorem invA_childList_nonroot {sp : Span} {s s' : SpansState} {q : ℕ}
    (E : AddEffects sp s s') (hpar : sp.parent_id = some q) :
    ∀ p, childList s' p =
      (if p = q then childList s q ++ [sp.span_id] else childList s p) := by
  intro p
  have hcs : s'.childSpans =
      aset q ((aget q s.childSpans).getD [] ++ [sp.span_id]) s.childSpans := by
    rw [E.childSpansEq, hpar]
  unfold childList
  rw [hcs]
  by_cases hp : p = q
  · subst hp
    rw [aget_aset_self, if_pos rfl]
    rfl
  · rw [aget_aset_ne _ _ _ _ hp, if_neg hp]

theorem invA_childMemOk {sp : Span} {s s' : SpansState} (hInv : Inv s)
    (hfresh : aget sp.span_id s.spans = none) (E : AddEffects sp s s') :
    ∀ p c, c ∈ childList s' p ↔
      (∃ sp2, spanAt s' c = some sp2 ∧ sp2.parent_id = some p) := by
  intro p c
  have hspanF := spanAt_of_fresh hfresh
  cases hpar : sp.parent_id with
  | none =>
      rw [invA_childList_root E hpar p, E.spanAtEq]
      by_cases hc : c = sp.span_id
      · subst hc
        rw [if_pos rfl]
        constructor
        · intro hmem
          obtain ⟨sp2, hsp2, _⟩ := (hInv.childMemOk p sp.span_id).1 hmem
          rw [hspanF] at hsp2
          exact Option.noConfusion hsp2
        · rintro ⟨sp2, hsp2, hp2⟩
          cases hsp2
          rw [hpar] at hp2
          exact Option.noConfusion hp2
      · rw [if_neg hc]
        exact hInv.childMemOk p c
  | some q =>
      rw [invA_childList_nonroot E hpar p, E.spanAtEq]
      by_cases hc : c = sp.span_id
      · subst hc
        rw [if_pos rfl]
        by_cases hp : p = q
        · subst hp
          rw [if_pos rfl]
          constructor
          · intro _
            exact ⟨sp, rfl, hpar⟩
          · intro _
            exact List.mem_append_right _ (by simp)
        · rw [if_neg hp]
          constructor
          · intro hmem
            obtain ⟨sp2, hsp2, _⟩ := (hInv.childMemOk p sp.span_id).1 hmem
            rw [hspanF] at hsp2
            exact Option.noConfusion hsp2
          · rintro ⟨sp2, hsp2, hp2⟩
            cases hsp2
            rw [hpar] at hp2
            cases hp2
            exact absurd rfl hp
      · by_cases hp : p = q
        · subst hp
          rw [if_pos rfl, if_neg hc]
          simp only [List.mem_append, List.mem_singleton]
          constructor
          · rintro (hmem | hceq)
            · exact (hInv.childMemOk p c).1 hmem
            · exact absurd hceq hc
          · intro hx
            exact Or.inl ((hInv.childMemOk p c).2 hx)
        · rw [if_neg hp, if_neg hc]
          exact hInv.childMemOk p c

theorem invA_childNodup {sp : Span} {s s' : SpansState} (hInv : Inv s)
    (hfresh : aget sp.span_id s.spans = none) (E : AddEffects sp s s') :
    ∀ p, (childList s' p).Nodup := by
  intro p
  have hspanF := spanAt_of_fresh hfresh
  cases hpar : sp.parent_id with
  | none =>
      rw [invA_childList_root E hpar p]
      exact hInv.childNodup p
  | some q =>
      rw [invA_childList_nonroot E hpar p]
      by_cases hp : p = q
      · subst hp
        rw [if_pos rfl]
        have hni : sp.span_id ∉ childList s p := by
          intro hmem
          obtain ⟨sp2, hsp2, _⟩ := (hInv.childMemOk p sp.span_id).1 hmem
          rw [hspanF] at hsp2
          exact Option.noConfusion hsp2
        simp [List.nodup_append, hInv.childNodup p, hni]
      · rw [if_neg hp]
        exact hInv.childNodup p

theorem invA_traceList {sp : Span} {s s' : SpansState} (E : AddEffects sp s s') :
    ∀ t, (aget t s'.traces).getD [] =
      (if t = sp.trace_id then (aget sp.trace_id s.traces).getD [] ++ [sp.span_id]
       else (aget t s.traces).getD []) := by
  intro t
  rw [E.tracesEq]
  by_cases ht : t = sp.trace_id
  · subst ht
    rw [aget_aset_self, if_pos rfl]
    rfl
  · rw [aget_aset_ne _ _ _ _ ht, if_neg ht]

theorem invA_traceMemOk {sp : Span} {s s' : SpansState} (hInv : Inv s)
    (hfresh : aget sp.span_id s.spans = none) (E : AddEffects sp s s') :
    ∀ t j, j ∈ (aget t s'.traces).getD [] ↔
      (∃ sp2, spanAt s' j = some sp2 ∧ sp2.trace_id = t) := by
  intro t j
  have hspanF := spanAt_of_fresh hfresh
  rw [invA_traceList E t, E.spanAtEq]
  by_cases ht : t = sp.trace_id
  · subst ht
    rw [if_pos rfl]
    simp only [List.mem_append, List.mem_singleton]
    by_cases hj : j = sp.span_id
    · subst hj
      rw [if_pos rfl]
      constructor
      · intro _
        exact ⟨sp, rfl, rfl⟩
      · intro _
        exact Or.inr rfl
    · rw [if_neg hj]
      constructor
      · rintro (hmem | hjeq)
        · exact (hInv.traceMemOk sp.trace_id j).1 hmem
        · exact absurd hjeq hj
      · intro hx
        exact Or.inl ((hInv.traceMemOk sp.trace_id j).2 hx)
  · rw [if_neg ht]
    by_cases hj : j = sp.span_id
    · subst hj
      rw [if_pos rfl]
      constructor
      · intro hmem
        obtain ⟨sp2, hsp2, _⟩ := (hInv.traceMemOk t sp.span_id).1 hmem
        rw [hspanF] at hsp2
        exact Option.noConfusion hsp2
      · rintro ⟨sp2, hsp2, htr2⟩
        cases hsp2
        exact absurd htr2.symm ht
    · rw [if_neg hj]
      exact hInv.traceMemOk t j

theorem invA_traceNodupInner {sp : Span} {s s' : SpansState} (hInv : Inv s)
    (hfresh : aget sp.span_id s.spans = none) (E : AddEffects sp s s') :
    ∀ t, ((aget t s'.traces).getD []).Nodup := by
  intro t
  have hspanF := spanAt_of_fresh hfresh
  rw [invA_traceList E t]
  by_cases ht : t = sp.trace_id
  · subst ht
    rw [if_pos rfl]
    have hni : sp.span_id ∉ (aget sp.trace_id s.traces).getD [] := by
      intro hmem
      obtain ⟨sp2, hsp2, _⟩ := (hInv.traceMemOk sp.trace_id sp.span_id).1 hmem
      rw [hspanF] at hsp2
      exact Option.noConfusion hsp2
    simp [List.nodup_append, hInv.traceNodupInner sp.trace_id, hni]
  · rw [if_neg ht]
    exact hInv.traceNodupInner t

theorem invA_traceKeysOk {sp : Span} {s s' : SpansState} (hInv : Inv s)
    (hfresh : aget sp.span_id s.spans = none) (E : AddEffects sp s s') :
    ∀ t, (aget t s'.traces).isSome = true ↔
      (∃ j sp2, spanAt s' j = some sp2 ∧ sp2.trace_id = t) := by
  intro t
  have hspanF := spanAt_of_fresh hfresh
  rw [E.tracesEq]
  by_cases ht : t = sp.trace_id
  · subst ht
    rw [aget_aset_self]
    constructor
    · intro _
      refine ⟨sp.span_id, sp, ?_, rfl⟩
      rw [E.spanAtEq, if_pos rfl]
    · intro _
      rfl
  · rw [aget_aset_ne _ _ _ _ ht, hInv.traceKeysOk t]
    constructor
    · rintro ⟨j, sp2, hsp2, htr2⟩
      refine ⟨j, sp2, ?_, htr2⟩
      rw [E.spanAtEq]
      have hj : j ≠ sp.span_id := by
        intro he
        rw [he, hspanF] at hsp2
        exact Option.noConfusion hsp2
      rw [if_neg hj]
      exact hsp2
    · rintro ⟨j, sp2, hsp2, htr2⟩
      rw [E.spanAtEq] at hsp2
      by_cases hj : j = sp.span_id
      · rw [if_pos hj] at hsp2
        cases hsp2
        exact absurd htr2.symm ht
      · rw [if_neg hj] at hsp2
        exact ⟨j, sp2, hsp2, htr2⟩

theorem invA_nodupTraces {sp : Span} {s s' : SpansState} (hInv : Inv s)
    (E : AddEffects sp s s') : NodupKeys s'.traces := by
  rw [E.tracesEq]
  exact NodupKeys.aset hInv.nodupTraces _ _

theorem invA_numDocsOk {sp : Span} {s s' : SpansState} (hInv : Inv s)
    (hfresh : aget sp.span_id s.spans = none) (E : AddEffects sp s s') :
    ∀ j, aget j s'.numDocuments =
      (spanAt s' j).bind (fun sp2 =>
        if sp2.num_documents ≠ 0 then some sp2.num_documents else none) := by
  intro j
  have hspanF := spanAt_of_fresh hfresh
  rw [E.numDocsEq, E.spanAtEq]
  by_cases hnd : sp.num_documents ≠ 0
  · rw [if_pos hnd]
    by_cases hj : j = sp.span_id
    · subst hj
      rw [aget_aset_self, if_pos rfl]
      have h0 : aget sp.span_id s.numDocuments = none := by
        rw [hInv.numDocsOk, hspanF]
        rfl
      rw [h0]
      simp [hnd]
    · rw [aget_aset_ne _ _ _ _ hj, if_neg hj]
      exact hInv.numDocsOk j
  · rw [if_neg hnd]
    by_cases hj : j = sp.span_id
    · subst hj
      rw [if_pos rfl, hInv.numDocsOk, hspanF]
      simp at hnd
      simp [hnd]
    · rw [if_neg hj]
      exact hInv.numDocsOk j

theorem invA_sortedAllSorted {sp : Span} {s s' : SpansState} (hInv : Inv s)
    (E : AddEffects sp s s') :
    s'.sortedAll.Pairwise (fun a b => a.1 ≤ b.1) := by
  rw [E.sortedAllEq]
  exact insortR_sorted _ _ _ hInv.sortedAllSorted

theorem invA_sortedAllMem {sp : Span} {s s' : SpansState} (hInv : Inv s)
    (hfresh : aget sp.span_id s.spans = none) (E : AddEffects sp s s') :
    ∀ q j, (q, j) ∈ s'.sortedAll ↔
      (∃ sp2, spanAt s' j = some sp2 ∧ sp2.start_time = q) := by
  intro q j
  have hspanF := spanAt_of_fresh hfresh
  rw [E.sortedAllEq, insortR_mem, E.spanAtEq]
  by_cases hj : j = sp.span_id
  · subst hj
    rw [if_pos rfl]
    constructor
    · rintro (⟨hq, _⟩ | hmem)
      · exact ⟨sp, rfl, hq.symm⟩
      · obtain ⟨sp2, hsp2, _⟩ := (hInv.sortedAllMem q sp.span_id).1 hmem
        rw [hspanF] at hsp2
        exact Option.noConfusion hsp2
    · rintro ⟨sp2, hsp2, hst⟩
      cases hsp2
      exact Or.inl ⟨hst.symm, rfl⟩
  · rw [if_neg hj]
    constructor
    · rintro (⟨_, hjj⟩ | hmem)
      · exact absurd hjj hj
      · exact (hInv.sortedAllMem q j).1 hmem
    · intro hx
      exact Or.inr ((hInv.sortedAllMem q j).2 hx)

theorem invA_sortedAllNodup {sp : Span} {s s' : SpansState} (hInv : Inv s)
    (hfresh : aget sp.span_id s.spans = none) (E : AddEffects sp s s') :
    (s'.sortedAll.map Prod.snd).Nodup := by
  have hspanF := spanAt_of_fresh hfresh
  rw [E.sortedAllEq]
  refine (insortR_map_snd_perm sp.start_time sp.span_id s.sortedAll).nodup_iff.2
    (List.nodup_cons.2 ⟨?_, hInv.sortedAllNodup⟩)
  intro hmem
  rw [List.mem_map] at hmem
  obtain ⟨⟨pq, pi⟩, hp, hsnd⟩ := hmem
  simp at hsnd
  subst hsnd
  obtain ⟨sp2, hsp2, _⟩ := (hInv.sortedAllMem pq sp.span_id).1 hp
  rw [hspanF] at hsp2
  exact Option.noConfusion hsp2

theorem invA_sortedRootsSorted {sp : Span} {s s' : SpansState} (hInv : Inv s)
    (E : AddEffects sp s s') :
    s'.sortedRoots.Pairwise (fun a b => a.1 ≤ b.1) := by
  rw [E.sortedRootsEq]
  by_cases hro : sp.parent_id.isNone
  · rw [if_pos hro]
    exact insortR_sorted _ _ _ hInv.sortedRootsSorted
  · rw [if_neg hro]
    exact hInv.sortedRootsSorted

theorem invA_sortedRootsMem {sp : Span} {s s' : SpansState} (hInv : Inv s)
    (hfresh : aget sp.span_id s.spans = none) (E : AddEffects sp s s') :
    ∀ q j, (q, j) ∈ s'.sortedRoots ↔
      (∃ sp2, spanAt s' j = some sp2 ∧ sp2.parent_id = none ∧ sp2.start_time = q) := by
  intro q j
  have hspanF := spanAt_of_fresh hfresh
  rw [E.sortedRootsEq, E.spanAtEq]
  cases hpar : sp.parent_id with
  | none =>
      rw [if_pos (by rfl), insortR_mem]
      by_cases hj : j = sp.span_id
      · subst hj
        rw [if_pos rfl]
        constructor
        · rintro (⟨hq, _⟩ | hmem)
          · exact ⟨sp, rfl, hpar, hq.symm⟩
          · obtain ⟨sp2, hsp2, _⟩ := (hInv.sortedRootsMem q sp.span_id).1 hmem
            rw [hspanF] at hsp2
            exact Option.noConfusion hsp2
        · rintro ⟨sp2, hsp2, _, hst⟩
          cases hsp2
          exact Or.inl ⟨hst.symm, rfl⟩
      · rw [if_neg hj]
        constructor
        · rintro (⟨_, hjj⟩ | hmem)
          · exact absurd hjj hj
          · exact (hInv.sortedRootsMem q j).1 hmem
        · intro hx
          exact Or.inr ((hInv.sortedRootsMem q j).2 hx)
  | some q0 =>
      rw [if_neg (by simp)]
      by_cases hj : j = sp.span_id
      · subst hj
        rw [if_pos rfl]
        constructor
        · intro hmem
          obtain ⟨sp2, hsp2, _⟩ := (hInv.sortedRootsMem q sp.span_id).1 hmem
          rw [hspanF] at hsp2
          exact Option.noConfusion hsp2
        · rintro ⟨sp2, hsp2, hpn, _⟩
          cases hsp2
          rw [hpar] at hpn
          exact Option.noConfusion hpn
      · rw [if_neg hj]
        exact hInv.sortedRootsMem q j

theorem invA_sortedRootsNodup {sp : Span} {s s' : SpansState} (hInv : Inv s)
    (hfresh : aget sp.span_id s.spans = none) (E : AddEffects sp s s') :
    (s'.sortedRoots.map Prod.snd).Nodup := by
  have hspanF := spanAt_of_fresh hfresh
  rw [E.sortedRootsEq]
  by_cases hro : sp.parent_id.isNone
  · rw [if_pos hro]
    refine (insortR_map_snd_perm sp.start_time sp.span_id s.sortedRoots).nodup_iff.2
      (List.nodup_cons.2 ⟨?_, hInv.sortedRootsNodup⟩)
    intro hmem
    rw [List.mem_map] at hmem
    obtain ⟨⟨pq, pi⟩, hp, hsnd⟩ := hmem
    simp at hsnd
    subst hsnd
    obtain ⟨sp2, hsp2, _⟩ := (hInv.sortedRootsMem pq sp.span_id).1 hp
    rw [hspanF] at hsp2
    exact Option.noConfusion hsp2
  · rw [if_neg hro]
    exact hInv.sortedRootsNodup

theorem invA_latRootsMem {sp : Span} {s s' : SpansState} (hInv : Inv s)
    (hfresh : aget sp.span_id s.spans = none) (E : AddEffects sp s s') :
    ∀ q j, (q, j) ∈ s'.latencyRoots ↔
      (∃ sp2, spanAt s' j = some sp2 ∧ sp2.parent_id = none ∧
        latencyAt s' j = some q) := by
  intro q j
  have hspanF := spanAt_of_fresh hfresh
  rw [E.latRootsEq]
  cases hpar : sp.parent_id with
  | none =>
      rw [if_pos (by rfl), insortR_mem]
      by_cases hj : j = sp.span_id
      · subst hj
        constructor
        · rintro (⟨hq, _⟩ | hmem)
          · refine ⟨sp, ?_, hpar, ?_⟩
            · rw [E.spanAtEq, if_pos rfl]
            · rw [E.latencyAtEq, if_pos rfl, hq]
          · obtain ⟨sp2, hsp2, _⟩ := (hInv.latRootsMem q sp.span_id).1 hmem
            rw [hspanF] at hsp2
            exact Option.noConfusion hsp2
        · rintro ⟨sp2, _, _, hlat⟩
          rw [E.latencyAtEq, if_pos rfl] at hlat
          cases hlat
          exact Or.inl ⟨rfl, rfl⟩
      · constructor
        · rintro (⟨_, hjj⟩ | hmem)
          · exact absurd hjj hj
          · obtain ⟨sp2, hsp2, hpn, hlat⟩ := (hInv.latRootsMem q j).1 hmem
            refine ⟨sp2, ?_, hpn, ?_⟩
            · rw [E.spanAtEq, if_neg hj]
              exact hsp2
            · rw [E.latencyAtEq, if_neg hj]
              exact hlat
        · rintro ⟨sp2, hsp2, hpn, hlat⟩
          rw [E.spanAtEq, if_neg hj] at hsp2
          rw [E.latencyAtEq, if_neg hj] at hlat
          exact Or.inr ((hInv.latRootsMem q j).2 ⟨sp2, hsp2, hpn, hlat⟩)
  | some q0 =>
      rw [if_neg (by simp)]
      by_cases hj : j = sp.span_id
      · subst hj
        constructor
        · intro hmem
          obtain ⟨sp2, hsp2, _⟩ := (hInv.latRootsMem q sp.span_id).1 hmem
          rw [hspanF] at hsp2
          exact Option.noConfusion hsp2
        · rintro ⟨sp2, hsp2, hpn, _⟩
          rw [E.spanAtEq, if_pos rfl] at hsp2
          cases hsp2
          rw [hpar] at hpn
          exact Option.noConfusion hpn
      · constructor
        · intro hmem
          obtain ⟨sp2, hsp2, hpn, hlat⟩ := (hInv.latRootsMem q j).1 hmem
          refine ⟨sp2, ?_, hpn, ?_⟩
          · rw [E.spanAtEq, if_neg hj]
            exact hsp2
          · rw [E.latencyAtEq, if_neg hj]
            exact hlat
        · rintro ⟨sp2, hsp2, hpn, hlat⟩
          rw [E.spanAtEq, if_neg hj] at hsp2
          rw [E.latencyAtEq, if_neg hj] at hlat
          exact (hInv.latRootsMem q j).2 ⟨sp2, hsp2, hpn, hlat⟩

theorem invA_latRootsNodup {sp : Span} {s s' : SpansState} (hInv : Inv s)
    (hfresh : aget sp.span_id s.spans = none) (E : AddEffects sp s s') :
    (s'.latencyRoots.map Prod.snd).Nodup := by
  have hspanF := spanAt_of_fresh hfresh
  rw [E.latRootsEq]
  by_cases hro : sp.parent_id.isNone
  · rw [if_pos hro]
    refine (insortR_map_snd_perm _ sp.span_id s.latencyRoots).nodup_iff.2
      (List.nodup_cons.2 ⟨?_, hInv.latRootsNodup⟩)
    intro hmem
    rw [List.mem_map] at hmem
    obtain ⟨⟨pq, pi⟩, hp, hsnd⟩ := hmem
    simp at hsnd
    subst hsnd
    obtain ⟨sp2, hsp2, _⟩ := (hInv.latRootsMem pq sp.span_id).1 hp
    rw [hspanF] at hsp2
    exact Option.noConfusion hsp2
  · rw [if_neg hro]
    exact hInv.latRootsNodup

theorem invA_spans_filterMap {sp : Span} {s s' : SpansState} (E : AddEffects sp s s')
    (hfresh : aget sp.span_id s.spans = none) :
    s'.spans.filterMap (fun p =>
        if p.2.span.parent_id.isNone then some p.2.latency_ms else none) =
      s.spans.filterMap (fun p =>
        if p.2.span.parent_id.isNone then some p.2.latency_ms else none) ++
      (if sp.parent_id.isNone then [(sp.end_time - sp.start_time) * 1000] else []) := by
  have h1 : s'.spans.filterMap (fun p =>
      if p.2.span.parent_id.isNone then some p.2.latency_ms else none) =
      ({ s with spans := aset sp.span_id (mkStored sp) s.spans } :
        SpansState).spans.filterMap (fun p =>
        if p.2.span.parent_id.isNone then some p.2.latency_ms else none) :=
    filterMap_rootLat_skel E.spansSkelEq
  rw [h1]
  show (aset sp.span_id (mkStored sp) s.spans).filterMap _ = _
  rw [aset_fresh_append hfresh, List.filterMap_append]
  by_cases hro : sp.parent_id.isNone
  · rw [if_pos hro]
    have h2 : List.filterMap (fun p : ℕ × StoredSpan =>
        if p.2.span.parent_id.isNone then some p.2.latency_ms else none)
        [(sp.span_id, mkStored sp)] = [(sp.end_time - sp.start_time) * 1000] := by
      simp [List.filterMap, mkStored, hro]
    rw [h2]
  · rw [if_neg hro]
    have h2 : List.filterMap (fun p : ℕ × StoredSpan =>
        if p.2.span.parent_id.isNone then some p.2.latency_ms else none)
        [(sp.span_id, mkStored sp)] = [] := by
      simp [List.filterMap, mkStored, hro]
    rw [h2]

theorem invA_sketchOk {sp : Span} {s s' : SpansState} (hInv : Inv s)
    (hfresh : aget sp.span_id s.spans = none) (E : AddEffects sp s s') :
    s'.sketch.Perm
      (s'.spans.filterMap (fun p =>
        if p.2.span.parent_id.isNone then some p.2.latency_ms else none)) := by
  rw [invA_spans_filterMap E hfresh, E.sketchEq]
  by_cases hro : sp.parent_id.isNone
  · rw [if_pos hro, if_pos hro]
    exact hInv.sketchOk.append (List.Perm.refl _)
  · rw [if_neg hro, if_neg hro]
    simpa using hInv.sketchOk

theorem invA_tokenOk {sp : Span} {s s' : SpansState} (hInv : Inv s)
    (hfresh : aget sp.span_id s.spans = none) (E : AddEffects sp s s') :
    s'.tokenTotal = (s'.spans.map (fun p => p.2.span.tok_total.getD 0)).sum := by
  have h1 : s'.spans.map (fun p => p.2.span.tok_total.getD 0) =
      ({ s with spans := aset sp.span_id (mkStored sp) s.spans } :
        SpansState).spans.map (fun p => p.2.span.tok_total.getD 0) :=
    map_tok_skel E.spansSkelEq
  rw [h1]
  show _ = ((aset sp.span_id (mkStored sp) s.spans).map _).sum
  rw [aset_fresh_append hfresh, List.map_append, List.sum_append, E.tokenEq,
    hInv.tokenOk]
  rfl

theorem invA_acyclic {sp : Span} {s s' : SpansState} (hInv : Inv s)
    (hfresh : aget sp.span_id s.spans = none) (E : AddEffects sp s s')
    {L : List ℕ} (hchainL : Chain s' sp.span_id L) : AcyclicStore s' := by
  intro j hj
  rw [invA_pres E j] at hj
  by_cases hji : j = sp.span_id
  · subst hji
    exact ⟨L, hchainL⟩
  · rw [aget_aset_ne _ _ _ _ hji] at hj
    obtain ⟨L0, hc0⟩ := hInv.acyclic j hj
    refine chain_transfer (t := s') (i := sp.span_id) ?_ ?_ hfresh ?_ hchainL hc0 hj
    · intro c hc
      cases hpar : sp.parent_id with
      | none =>
          have hpid : s'.parentIds = s.parentIds := by rw [E.parentIdsEq, hpar]
          rw [hpid]
      | some q =>
          have hpid : s'.parentIds = aset sp.span_id q s.parentIds := by
            rw [E.parentIdsEq, hpar]
          rw [hpid, aget_aset_ne _ _ _ _ hc]
    · intro c hc
      rw [invA_pres E c, aget_aset_ne _ _ _ _ hc]
    · rw [invA_pres E sp.span_id, aget_aset_self]
      rfl

theorem invA_und {sp : Span} {s s' : SpansState} (E : AddEffects sp s s') :
    ∀ j k, j ≠ sp.span_id → underlyingAt s' j k = underlyingAt s j k := by
  intro j k hj
  have hb := skeleton_aget E.spansSkelEq j
  rw [aget_aset_ne _ _ _ _ hj] at hb
  unfold underlyingAt
  cases h1 : aget j s'.spans with
  | none =>
      rw [h1] at hb
      cases h2 : aget j s.spans with
      | none => rfl
      | some st => rw [h2] at hb; simp at hb
  | some st =>
      rw [h1] at hb
      cases h2 : aget j s.spans with
      | none => rw [h2] at hb; simp at hb
      | some st2 =>
          rw [h2] at hb
          simp [Prod.ext_iff] at hb
          cases k <;> simp [underlyingVal, hb.1, hb.2.2]

theorem invA_cumOk {sp : Span} {s s' : SpansState} (hInv : Inv s)
    (hfresh : aget sp.span_id s.spans = none) (E : AddEffects sp s s')
    {L : List ℕ} (hchainL : Chain s' sp.span_id L)
    (hself : ∀ k, getCum s' sp.span_id k =
      underlyingAt s' sp.span_id k +
        ((childList s sp.span_id).map (fun c => getCum s c k)).sum)
    (hold : ∀ j k, j ≠ sp.span_id →
      getCum s' j k = getCum s j k + (if j ∈ L then getCum s' sp.span_id k else 0)) :
    ∀ j, (aget j s'.spans).isSome = true → ∀ k,
      getCum s' j k = underlyingAt s' j k +
        ((childList s' j).map (fun c => getCum s' c k)).sum := by
  have hspanF := spanAt_of_fresh hfresh
  have hpresd : ∀ c, c ≠ sp.span_id →
      (aget c s'.spans).isSome = (aget c s.spans).isSome := by
    intro c hc
    rw [invA_pres E c, aget_aset_ne _ _ _ _ hc]
  have hpresi : (aget sp.span_id s'.spans).isSome = true := by
    rw [invA_pres E _, aget_aset_self]
    rfl
  have hparc : ∀ c, c ≠ sp.span_id → aget c s'.parentIds = aget c s.parentIds := by
    intro c hc
    cases hpar : sp.parent_id with
    | none =>
        have hpid : s'.parentIds = s.parentIds := by rw [E.parentIdsEq, hpar]
        rw [hpid]
    | some q =>
        have hpid : s'.parentIds = aset sp.span_id q s.parentIds := by
          rw [E.parentIdsEq, hpar]
        rw [hpid, aget_aset_ne _ _ _ _ hc]
  have hcne : ∀ j c, c ∈ childList s j → c ≠ sp.span_id := by
    intro j c hc
    obtain ⟨sp2, hsp2, _⟩ := (hInv.childMemOk j c).1 hc
    intro he
    rw [he, hspanF] at hsp2
    exact Option.noConfusion hsp2
  have hpstepc : ∀ j c, (aget j s'.spans).isSome = true → c ∈ childList s j →
      pstep s' c = some j := by
    intro j c hjp hc
    obtain ⟨sp2, hsp2, hp2⟩ := (hInv.childMemOk j c).1 hc
    rw [pstep_eq_some]
    refine ⟨?_, hjp⟩
    rw [hparc c (hcne j c hc), hInv.parentIdsOk c, hsp2]
    simpa using hp2
  have hheadL := chain_head_not_mem hchainL
  intro j hj k
  by_cases hji : j = sp.span_id
  · subst hji
    have hchilde : childList s' sp.span_id = childList s sp.span_id := by
      cases hpar : sp.parent_id with
      | none => exact invA_childList_root E hpar _
      | some q =>
          rw [invA_childList_nonroot E hpar]
          by_cases hiq : sp.span_id = q
          · exfalso
            have hpsi : pstep s' sp.span_id = some sp.span_id := by
              rw [pstep_eq_some]
              constructor
              · have hpid : s'.parentIds = aset sp.span_id q s.parentIds := by
                  rw [E.parentIdsEq, hpar]
                rw [hpid, aget_aset_self, hiq]
              · exact hpresi
            cases hchainL with
            | nil _ hn => rw [hpsi] at hn; exact Option.noConfusion hn
            | cons _ p L2 hp hc =>
                rw [hpsi] at hp
                cases hp
                exact (chain_head_not_mem (Chain.cons _ _ _ hpsi hc)) (by simp)
          · rw [if_neg hiq]
    rw [hchilde, hself k]
    have hmap : (childList s sp.span_id).map (fun c => getCum s' c k) =
        (childList s sp.span_id).map (fun c => getCum s c k) := by
      refine List.map_congr_left ?_
      intro c hc
      have hci := hcne sp.span_id c hc
      rw [hold c k hci]
      have hcL : c ∉ L := by
        intro hcl
        exact hheadL (chain_succ_mem hchainL c (List.mem_cons_of_mem _ hcl) _
          (hpstepc sp.span_id c hj hc))
      rw [if_neg hcL, add_zero]
    rw [hmap]
  · have hjs : (aget j s.spans).isSome = true := by
      rw [← hpresd j hji]
      exact hj
    have hbasej := hInv.cumOk j hjs k
    have hundj := invA_und E j k hji
    have hsum : ((childList s j).map (fun c => getCum s' c k)).sum =
        ((childList s j).map (fun c => getCum s c k)).sum +
        ((childList s j).map
          (fun c => if c ∈ L then getCum s' sp.span_id k else 0)).sum := by
      have hmap : (childList s j).map (fun c => getCum s' c k) =
          (childList s j).map (fun c =>
            getCum s c k + (if c ∈ L then getCum s' sp.span_id k else 0)) := by
        refine List.map_congr_left ?_
        intro c hc
        exact hold c k (hcne j c hc)
      rw [hmap, List.sum_map_add]
    cases hpar : sp.parent_id with
    | none =>
        have hLnil : L = [] := by
          cases hchainL with
          | nil _ _ => rfl
          | cons _ p L2 hp _ =>
              exfalso
              obtain ⟨hpp, _⟩ := pstep_eq_some.1 hp
              have hpid : s'.parentIds = s.parentIds := by rw [E.parentIdsEq, hpar]
              rw [hpid, hInv.parentIdsOk, hspanF] at hpp
              exact Option.noConfusion hpp
        subst hLnil
        rw [invA_childList_root E hpar j, hold j k hji, if_neg (by simp), hundj, hsum,
          sum_ite_of_none _ (by intro c _ hc; simp at hc), hbasej]
        ring
    | some q =>
        by_cases hqstored : (aget q s'.spans).isSome = true
        · -- the recorded parent is present: the walk visits it first
          have hqi : q ≠ sp.span_id → True := fun _ => trivial
          have hpsi : pstep s' sp.span_id = some q := by
            rw [pstep_eq_some]
            constructor
            · have hpid : s'.parentIds = aset sp.span_id q s.parentIds := by
                rw [E.parentIdsEq, hpar]
              rw [hpid, aget_aset_self]
            · exact hqstored
          have hqL : q ∈ L := by
            cases hchainL with
            | nil _ hn => rw [hpsi] at hn; exact Option.noConfusion hn
            | cons _ p L2 hp _ =>
                rw [hpsi] at hp
                cases hp
                simp
          have hqni : q ≠ sp.span_id := by
            intro he
            rw [he] at hqL
            exact hheadL hqL
          by_cases hjq : j = q
          · subst hjq
            rw [invA_childList_nonroot E hpar, if_pos rfl, List.map_append,
              List.sum_append]
            have hsingle : (([sp.span_id].map (fun c => getCum s' c k)).sum) =
                getCum s' sp.span_id k := by simp
            rw [hsingle, hold j k hji, if_pos hqL, hundj, hsum,
              sum_ite_of_none _ ?hnone, hbasej]
            · ring
            case hnone =>
              intro c hc hcL
              have hpc := hpstepc j c hj hc
              have hceq := chain_pred_unique hchainL j c sp.span_id
                (List.mem_cons_of_mem _ hcL) (by simp) hpc hpsi
              exact (hcne j c hc) hceq
          · rw [invA_childList_nonroot E hpar, if_neg hjq]
            by_cases hjL : j ∈ L
            · obtain ⟨d, hdmem, hdp⟩ := chain_mem_pred hchainL j hjL
              have hdi : d ≠ sp.span_id := by
                intro he
                rw [he, hpsi] at hdp
                cases hdp
                exact hjq rfl
              have hdL : d ∈ L := by
                rcases List.mem_cons.1 hdmem with he | hm
                · exact absurd he hdi
                · exact hm
              obtain ⟨hdpp, _⟩ := pstep_eq_some.1 hdp
              rw [hparc d hdi, hInv.parentIdsOk d] at hdpp
              have hdchild : d ∈ childList s j := by
                cases hsd : spanAt s d with
                | none => rw [hsd] at hdpp; exact Option.noConfusion hdpp
                | some spd =>
                    rw [hsd] at hdpp
                    simp at hdpp
                    exact (hInv.childMemOk j d).2 ⟨spd, hsd, hdpp⟩
              rw [hold j k hji, if_pos hjL, hundj, hsum,
                sum_ite_of_unique _ (hInv.childNodup j) d hdchild hdL ?huniq, hbasej]
              · ring
              case huniq =>
                intro c hc hcL
                exact chain_pred_unique hchainL j c d (List.mem_cons_of_mem _ hcL)
                  hdmem (hpstepc j c hj hc) hdp
            · rw [hold j k hji, if_neg hjL, hundj, hsum,
                sum_ite_of_none _ ?hnone2, hbasej]
              · ring
              case hnone2 =>
                intro c hc hcL
                exact hjL (chain_succ_mem hchainL c (List.mem_cons_of_mem _ hcL) j
                  (hpstepc j c hj hc))
        · -- the recorded parent is absent: the walk stops immediately
          have hLnil : L = [] := by
            cases hchainL with
            | nil _ _ => rfl
            | cons _ p L2 hp _ =>
                exfalso
                obtain ⟨hpp, hps⟩ := pstep_eq_some.1 hp
                have hpid : s'.parentIds = aset sp.span_id q s.parentIds := by
                  rw [E.parentIdsEq, hpar]
                rw [hpid, aget_aset_self] at hpp
                cases hpp
                exact hqstored hps
          subst hLnil
          have hjq : j ≠ q := by
            intro he
            rw [he] at hj
            exact hqstored hj
          rw [invA_childList_nonroot E hpar, if_neg hjq, hold j k hji,
            if_neg (by simp), hundj, hsum,
            sum_ite_of_none _ (by intro c _ hc; simp at hc), hbasej]
          ring

/-- The empty store satisfies the ingest invariant. -/
theorem Inv_empty : Inv SpansState.empty := by
  constructor
  · exact NodupKeys.nil
  · intro i sp h
    simp [spanAt, SpansState.empty, aget_nil] at h
  · intro i st h
    simp [SpansState.empty, aget_nil] at h
  · intro i st h
    simp [SpansState.empty, aget_nil] at h
  · intro c
    simp [spanAt, SpansState.empty, aget_nil]
  · intro p c
    simp [childList, spanAt, SpansState.empty, aget_nil]
  · intro p
    simp [childList, SpansState.empty, aget_nil]
  · intro t i
    simp [spanAt, SpansState.empty, aget_nil]
  · intro t
    simp [SpansState.empty, aget_nil]
  · intro t
    simp [spanAt, SpansState.empty, aget_nil]
  · exact NodupKeys.nil
  · intro i
    simp [spanAt, SpansState.empty, aget_nil]
  · simp [SpansState.empty]
  · intro q i
    simp [spanAt, SpansState.empty, aget_nil]
  · simp [SpansState.empty]
  · simp [SpansState.empty]
  · intro q i
    simp [spanAt, SpansState.empty, aget_nil]
  · simp [SpansState.empty]
  · intro q i
    simp [spanAt, SpansState.empty, aget_nil]
  · simp [SpansState.empty]
  · simp [SpansState.empty]
  · simp [SpansState.empty]
  · intro j hj
    simp [SpansState.empty, aget_nil] at hj
  · intro i hi
    simp [SpansState.empty, aget_nil] at hi

/-- One ingest call, successful or duplicate, preserves the invariant. -/
theorem Inv_addSpan {now : ℤ} {sp : Span} {s s' : SpansState}
    (hInv : Inv s) (h : addSpan now sp s = some s') : Inv s' := by
  by_cases hdup : (aget sp.span_id s.spans).isSome = true
  · unfold addSpan at h
    rw [if_pos hdup] at h
    cases h
    exact hInv
  · have hfresh : aget sp.span_id s.spans = none := by
      cases hx : aget sp.span_id s.spans with
      | none => rfl
      | some v => rw [hx] at hdup; exact absurd rfl hdup
    have hni : sp.span_id ∉ childList s sp.span_id := by
      intro hmem
      obtain ⟨sp2, hsp2, _⟩ := (hInv.childMemOk sp.span_id sp.span_id).1 hmem
      rw [spanAt_of_fresh hfresh] at hsp2
      exact Option.noConfusion hsp2
    obtain ⟨E, L, hchainL, hself, hold⟩ := addSpan_anatomy now sp s s' hfresh hni h
    exact ⟨invA_nodupSpans hInv hfresh E, invA_spanIdOk hInv E, invA_latencyOk hInv E,
      invA_errorOk hInv E, invA_parentIdsOk hInv hfresh E, invA_childMemOk hInv hfresh E,
      invA_childNodup hInv hfresh E, invA_traceMemOk hInv hfresh E,
      invA_traceNodupInner hInv hfresh E, invA_traceKeysOk hInv hfresh E,
      invA_nodupTraces hInv E, invA_numDocsOk hInv hfresh E,
      invA_sortedAllSorted hInv E, invA_sortedAllMem hInv hfresh E,
      invA_sortedAllNodup hInv hfresh E, invA_sortedRootsSorted hInv E,
      invA_sortedRootsMem hInv hfresh E, invA_sortedRootsNodup hInv hfresh E,
      invA_latRootsMem hInv hfresh E, invA_latRootsNodup hInv hfresh E,
      invA_sketchOk hInv hfresh E, invA_tokenOk hInv hfresh E,
      invA_acyclic hInv hfresh E hchainL,
      invA_cumOk hInv hfresh E hchainL hself hold⟩

theorem buildStateS_go_none : ∀ (l : List Span),
    l.foldl (fun acc sp => acc.bind (addSpan 0 sp)) none = none := by
  intro l
  induction l with
  | nil => rfl
  | cons sp t ih => simpa using ih

theorem Inv_buildStateS_go : ∀ (l : List Span) (s0 s : SpansState), Inv s0 →
    l.foldl (fun acc sp => acc.bind (addSpan 0 sp)) (some s0) = some s → Inv s := by
  intro l
  induction l with
  | nil =>
      intro s0 s h0 h
      cases h
      exact h0
  | cons sp t ih =>
      intro s0 s h0 h
      rw [List.foldl_cons] at h
      have h' : t.foldl (fun acc sp => acc.bind (addSpan 0 sp)) (addSpan 0 sp s0) =
          some s := h
      cases hadd : addSpan 0 sp s0 with
      | none =>
          rw [hadd, buildStateS_go_none] at h'
          exact Option.noConfusion h'
      | some s1 =>
          rw [hadd] at h'
          exact ih s1 s (Inv_addSpan h0 hadd) h'

/-- Every store reachable by a completed sequence of ingests satisfies the
invariant. -/
theorem Inv_buildStateS {l : List Span} {s : SpansState}
    (h : buildStateS l = some s) : Inv s :=
  Inv_buildStateS_go l SpansState.empty s Inv_empty h

/-! ### Claim C1: the cumulative-value invariant -/

/-- C1.  After every completed sequence of `add(span)` calls, for every
stored span and every cumulative key `C` with underlying key `U`
(cumulative token counts and cumulative error count), the stored value of
`C` equals `(U or 0)` plus the sum of the children's `C` values over all
spans currently recorded as children — regardless of the order in which
parents and children were ingested. -/
theorem cumulative_values_correct (l : List Span) (s : SpansState)
    (h : buildStateS l = some s) (i : ℕ)
    (hstored : (aget i s.spans).isSome = true) (k : CumKey) :
    getCum s i k =
      underlyingAt s i k + ((childList s i).map (fun c => getCum s c k)).sum :=
  (Inv_buildStateS h).cumOk i hstored k

theorem cumulative_values_correct_witness :
    buildStateS [exSpanB, exSpanA] =
      some ((buildStateS [exSpanB, exSpanA]).getD SpansState.empty) ∧
    (aget 1 ((buildStateS [exSpanB, exSpanA]).getD SpansState.empty).spans).isSome =
      true ∧
    getCum ((buildStateS [exSpanB, exSpanA]).getD SpansState.empty) 1 CumKey.total =
      underlyingAt ((buildStateS [exSpanB, exSpanA]).getD SpansState.empty) 1
        CumKey.total +
      ((childList ((buildStateS [exSpanB, exSpanA]).getD SpansState.empty) 1).map
        (fun c => getCum ((buildStateS [exSpanB, exSpanA]).getD SpansState.empty) c
          CumKey.total)).sum :=
  ⟨by decide, by decide,
    cumulative_values_correct [exSpanB, exSpanA]
      ((buildStateS [exSpanB, exSpanA]).getD SpansState.empty) (by decide) 1
      (by decide) CumKey.total⟩

/-! ### Claim C8: the latency formula -/

/-- C8.  Every span accepted by `add(span)` is stored with the computed
`latency_ms` attribute equal to `(end_time − start_time) × 1000`, the
duration in seconds expressed in milliseconds. -/
theorem latency_ms_formula (l : List Span) (s : SpansState)
    (h : buildStateS l = some s) (i : ℕ) (st : StoredSpan)
    (hst : aget i s.spans = some st) :
    st.latency_ms = (st.span.end_time - st.span.start_time) * 1000 :=
  (Inv_buildStateS h).latencyOk i st hst

theorem latency_ms_formula_witness :
    buildStateS [exSpanA] = some ((buildStateS [exSpanA]).getD SpansState.empty) ∧
    aget 1 ((buildStateS [exSpanA]).getD SpansState.empty).spans =
      some (⟨exSpanA, 50, 0, ⟨10, 0, 0, 0⟩⟩ : StoredSpan) ∧
    (⟨exSpanA, 50, 0, ⟨10, 0, 0, 0⟩⟩ : StoredSpan).latency_ms =
      ((⟨exSpanA, 50, 0, ⟨10, 0, 0, 0⟩⟩ : StoredSpan).span.end_time -
        (⟨exSpanA, 50, 0, ⟨10, 0, 0, 0⟩⟩ : StoredSpan).span.start_time) * 1000 :=
  ⟨by decide, by decide,
    latency_ms_formula [exSpanA] ((buildStateS [exSpanA]).getD SpansState.empty)
      (by decide) 1 (⟨exSpanA, 50, 0, ⟨10, 0, 0, 0⟩⟩ : StoredSpan) (by decide)⟩

/-! ### Claim C9: the latency sketch holds exactly the root latencies -/

/-- C9.  After every completed sequence of ingests, the multiset of values
ever passed to the root latency sketch equals the multiset of computed
`latency_ms` values of the root spans accepted so far: every accepted root
span contributes its latency exactly once, while duplicate arrivals and
non-root spans contribute nothing. -/
theorem sketch_is_root_latencies (l : List Span) (s : SpansState)
    (h : buildStateS l = some s) :
    s.sketch.Perm
      (s.spans.filterMap (fun p =>
        if p.2.span.parent_id.isNone then some p.2.latency_ms else none)) :=
  (Inv_buildStateS h).sketchOk

theorem sketch_is_root_latencies_witness :
    buildStateS [exSpanA, exSpanB, exSpanA] =
      some ((buildStateS [exSpanA, exSpanB, exSpanA]).getD SpansState.empty) ∧
    ((buildStateS [exSpanA, exSpanB, exSpanA]).getD SpansState.empty).sketch.Perm
      (((buildStateS [exSpanA, exSpanB, exSpanA]).getD
          SpansState.empty).spans.filterMap (fun p =>
        if p.2.span.parent_id.isNone then some p.2.latency_ms else none)) :=
  ⟨by decide,
    sketch_is_root_latencies [exSpanA, exSpanB, exSpanA]
      ((buildStateS [exSpanA, exSpanB, exSpanA]).getD SpansState.empty) (by decide)⟩

/-! ### Claim C6: the time-window read over the sorted indices -/

theorem getSpans_none_eq (s : SpansState) (t1 t2 : Option ℚ) (ro : Bool)
    (hne : s.spans.isEmpty = false) :
    (getSpans s t1 t2 ro none).1 =
      (((if ro then s.sortedRoots else s.sortedAll).filter (fun p =>
          decide (t1.getD (storeMinStart s) ≤ p.1) &&
          decide (p.1 < t2.getD (storeMaxStart s + timeTick)))).reverse).map
        Prod.snd := by
  simp only [getSpans, hne, Bool.false_eq_true, if_false, rightOpenRange]

theorem get_spans_core (s : SpansState) (sorted : List (ℚ × ℕ))
    (P : ℕ → Span → Prop)
    (hchar : ∀ q j, (q, j) ∈ sorted ↔
      ∃ sp2, spanAt s j = some sp2 ∧ P j sp2 ∧ sp2.start_time = q)
    (hsorted : sorted.Pairwise (fun a b => a.1 ≤ b.1))
    (hnd : (sorted.map Prod.snd).Nodup) (lo hi : ℚ) :
    (((sorted.filter (fun p => decide (lo ≤ p.1) && decide (p.1 < hi))).reverse).map
      Prod.snd).Nodup ∧
    (∀ j, j ∈ ((sorted.filter (fun p =>
        decide (lo ≤ p.1) && decide (p.1 < hi))).reverse).map Prod.snd ↔
      ∃ sp2, spanAt s j = some sp2 ∧ P j sp2 ∧ lo ≤ sp2.start_time ∧
        sp2.start_time < hi) ∧
    List.Pairwise (fun a b => ∀ spa spb, spanAt s a = some spa →
        spanAt s b = some spb → spb.start_time ≤ spa.start_time)
      (((sorted.filter (fun p => decide (lo ≤ p.1) && decide (p.1 < hi))).reverse).map
        Prod.snd) := by
  refine ⟨?_, ?_, ?_⟩
  · rw [List.map_reverse, List.nodup_reverse]
    exact List.Nodup.sublist (List.Sublist.map _ (List.filter_sublist _)) hnd
  · intro j
    constructor
    · intro hj
      rw [List.mem_map] at hj
      obtain ⟨p, hp, hsnd⟩ := hj
      rw [List.mem_reverse, List.mem_filter] at hp
      obtain ⟨hpmem, hcond⟩ := hp
      rw [Bool.and_eq_true, decide_eq_true_iff, decide_eq_true_iff] at hcond
      obtain ⟨sp2, hsp2, hP, hst⟩ := (hchar p.1 p.2).1 hpmem
      subst hsnd
      exact ⟨sp2, hsp2, hP, by rw [hst]; exact hcond.1, by rw [hst]; exact hcond.2⟩
    · rintro ⟨sp2, hsp2, hP, hlo, hhi⟩
      rw [List.mem_map]
      refine ⟨(sp2.start_time, j), ?_, rfl⟩
      rw [List.mem_reverse, List.mem_filter]
      refine ⟨(hchar sp2.start_time j).2 ⟨sp2, hsp2, hP, rfl⟩, ?_⟩
      rw [Bool.and_eq_true, decide_eq_true_iff, decide_eq_true_iff]
      exact ⟨hlo, hhi⟩
  · rw [List.pairwise_map, List.pairwise_reverse]
    have hpf : (sorted.filter (fun p =>
        decide (lo ≤ p.1) && decide (p.1 < hi))).Pairwise (fun a b => a.1 ≤ b.1) :=
      List.Pairwise.filter _ hsorted
    refine List.Pairwise.imp_of_mem ?_ hpf
    intro a b hamem hbmem hab
    intro spa spb hspa hspb
    obtain ⟨sa, hsa, _, hsta⟩ := (hchar a.1 a.2).1 (List.mem_of_mem_filter hamem)
    obtain ⟨sb, hsb, _, hstb⟩ := (hchar b.1 b.2).1 (List.mem_of_mem_filter hbmem)
    rw [hspa] at hsb
    rw [hspb] at hsa
    cases hsa
    cases hsb
    rw [hsta, hstb]
    exact hab

/-- C6.  On a non-empty store, `get_spans(start, stop, root_only)` without
explicit span ids enumerates exactly the stored spans (restricted to roots
when `root_only` is set) whose start time lies in the half-open window
`[start, stop)` — without duplicates and in reverse chronological order of
start time — where an absent start defaults to the store's minimum start
time and an absent stop to one tick beyond its maximum start time. -/
theorem get_spans_window (l : List Span) (s : SpansState)
    (h : buildStateS l = some s) (hne : s.spans.isEmpty = false)
    (start_time stop_time : Option ℚ) (ro : Bool) :
    ((getSpans s start_time stop_time ro none).1.Nodup) ∧
    (∀ j, j ∈ (getSpans s start_time stop_time ro none).1 ↔
      ∃ sp2, spanAt s j = some sp2 ∧ (ro = true → sp2.parent_id = none) ∧
        start_time.getD (storeMinStart s) ≤ sp2.start_time ∧
        sp2.start_time < stop_time.getD (storeMaxStart s + timeTick)) ∧
    List.Pairwise (fun a b => ∀ spa spb, spanAt s a = some spa →
      spanAt s b = some spb → spb.start_time ≤ spa.start_time)
      (getSpans s start_time stop_time ro none).1 := by
  have hInv := Inv_buildStateS h
  rw [getSpans_none_eq s start_time stop_time ro hne]
  cases ro with
  | false =>
      rw [if_neg Bool.false_ne_true]
      obtain ⟨h1, h2, h3⟩ := get_spans_core s s.sortedAll (fun _ _ => True)
        (fun q j => by
          rw [hInv.sortedAllMem q j]
          constructor
          · rintro ⟨sp2, hsp2, hst⟩
            exact ⟨sp2, hsp2, trivial, hst⟩
          · rintro ⟨sp2, hsp2, _, hst⟩
            exact ⟨sp2, hsp2, hst⟩)
        hInv.sortedAllSorted hInv.sortedAllNodup
        (start_time.getD (storeMinStart s))
        (stop_time.getD (storeMaxStart s + timeTick))
      refine ⟨h1, ?_, h3⟩
      intro j
      rw [h2 j]
      constructor
      · rintro ⟨sp2, hsp2, _, hlo, hhi⟩
        exact ⟨sp2, hsp2, fun hc => absurd hc Bool.false_ne_true, hlo, hhi⟩
      · rintro ⟨sp2, hsp2, _, hlo, hhi⟩
        exact ⟨sp2, hsp2, trivial, hlo, hhi⟩
  | true =>
      rw [if_pos rfl]
      obtain ⟨h1, h2, h3⟩ := get_spans_core s s.sortedRoots
        (fun _ sp2 => sp2.parent_id = none)
        (fun q j => hInv.sortedRootsMem q j)
        hInv.sortedRootsSorted hInv.sortedRootsNodup
        (start_time.getD (storeMinStart s))
        (stop_time.getD (storeMaxStart s + timeTick))
      refine ⟨h1, ?_, h3⟩
      intro j
      rw [h2 j]
      constructor
      · rintro ⟨sp2, hsp2, hpn, hlo, hhi⟩
        exact ⟨sp2, hsp2, fun _ => hpn, hlo, hhi⟩
      · rintro ⟨sp2, hsp2, hpn, hlo, hhi⟩
        exact ⟨sp2, hsp2, hpn rfl, hlo, hhi⟩

theorem get_spans_window_witness :
    buildStateS [rootSpanT0, rootSpanT1, rootSpanT2] = some exStore6 ∧
    exStore6.spans.isEmpty = false ∧
    ((getSpans exStore6 (some 0) (some 7200) true none).1.Nodup ∧
    (∀ j, j ∈ (getSpans exStore6 (some 0) (some 7200) true none).1 ↔
      ∃ sp2, spanAt exStore6 j = some sp2 ∧ (true = true → sp2.parent_id = none) ∧
        (some (0 : ℚ)).getD (storeMinStart exStore6) ≤ sp2.start_time ∧
        sp2.start_time < (some (7200 : ℚ)).getD (storeMaxStart exStore6 + timeTick)) ∧
    List.Pairwise (fun a b => ∀ spa spb, spanAt exStore6 a = some spa →
      spanAt exStore6 b = some spb → spb.start_time ≤ spa.start_time)
      (getSpans exStore6 (some 0) (some 7200) true none).1) :=
  ⟨by decide, by decide,
    get_spans_window [rootSpanT0, rootSpanT1, rootSpanT2] exStore6 (by decide)
      (by decide) (some 0) (some 7200) true⟩

/-! ### Claim C2: determinism of ingest under reordering -/

theorem addEval_missing_eq {now : ℤ} {e : Evaluation} {s : EvalsState}
    (h : e.subject = .missing) :
    addEval now e s = { s with lastUpdated := some now } := by
  unfold addEval
  rw [h]

theorem addEval_trace_eq {now : ℤ} {e : Evaluation} {s : EvalsState} {tid : ℕ}
    (h : e.subject = .trace tid) :
    addEval now e s =
      { s with
        evalsByTraceId :=
          aset tid (aset e.name e ((aget tid s.evalsByTraceId).getD []))
            s.evalsByTraceId,
        traceEvalsByName :=
          aset e.name (aset tid e ((aget e.name s.traceEvalsByName).getD []))
            s.traceEvalsByName,
        lastUpdated := some now } := by
  unfold addEval
  rw [h]

theorem addEval_document_eq {now : ℤ} {e : Evaluation} {s : EvalsState} {j pos : ℕ}
    (h : e.subject = .document j pos) :
    addEval now e s =
      { s with
        docEvalsBySpanId :=
          aset j
            (aset e.name
              (aset pos e
                ((aget e.name ((aget j s.docEvalsBySpanId).getD [])).getD []))
              ((aget j s.docEvalsBySpanId).getD []))
            s.docEvalsBySpanId,
        docEvalsByName :=
          aset e.name
            (aset j
              (aset pos e
                ((aget j ((aget e.name s.docEvalsByName).getD [])).getD []))
              ((aget e.name s.docEvalsByName).getD []))
            s.docEvalsByName,
        lastUpdated := some now } := by
  unfold addEval
  rw [h]

theorem addEval_span_none_eq {now : ℤ} {e : Evaluation} {s : EvalsState} {j : ℕ}
    (h : e.subject = .span j) (hlb : e.result.label = none) :
    addEval now e s =
      { s with
        evalsBySpanId :=
          aset j (aset e.name e ((aget j s.evalsBySpanId).getD []))
            s.evalsBySpanId,
        spanEvalsByName :=
          aset e.name (aset j e ((aget e.name s.spanEvalsByName).getD []))
            s.spanEvalsByName,
        lastUpdated := some now } := by
  unfold addEval
  rw [h, hlb]

theorem addEval_span_some_eq {now : ℤ} {e : Evaluation} {s : EvalsState} {j : ℕ}
    {lb : String} (h : e.subject = .span j) (hlb : e.result.label = some lb) :
    addEval now e s =
      { s with
        evalsBySpanId :=
          aset j (aset e.name e ((aget j s.evalsBySpanId).getD []))
            s.evalsBySpanId,
        spanEvalsByName :=
          aset e.name (aset j e ((aget e.name s.spanEvalsByName).getD []))
            s.spanEvalsByName,
        spanEvalLabels :=
          aset e.name
            (if lb ∈ (aget e.name s.spanEvalLabels).getD [] then
              (aget e.name s.spanEvalLabels).getD []
            else (aget e.name s.spanEvalLabels).getD [] ++ [lb])
            s.spanEvalLabels,
        lastUpdated := some now } := by
  unfold addEval
  rw [h, hlb]

theorem spanEvalAt_eq (s : EvalsState) (i : ℕ) (n : String) :
    (getSpanEvaluation s i n).1 = aget n ((aget i s.evalsBySpanId).getD []) := by
  unfold getSpanEvaluation
  cases aget i s.evalsBySpanId <;> rfl

theorem spanEvalByName_eq (s : EvalsState) (n : String) (i : ℕ) :
    spanEvalByName s n i = aget i ((aget n s.spanEvalsByName).getD []) := by
  unfold spanEvalByName
  cases aget n s.spanEvalsByName <;> rfl

theorem traceEvalAt_eq (s : EvalsState) (t : ℕ) (n : String) :
    traceEvalAt s t n = aget n ((aget t s.evalsByTraceId).getD []) := by
  unfold traceEvalAt
  cases aget t s.evalsByTraceId <;> rfl

theorem traceEvalByName_eq (s : EvalsState) (n : String) (t : ℕ) :
    traceEvalByName s n t = aget t ((aget n s.traceEvalsByName).getD []) := by
  unfold traceEvalByName
  cases aget n s.traceEvalsByName <;> rfl

theorem storedDocEval_eq (s : EvalsState) (i : ℕ) (n : String) (pos : ℕ) :
    storedDocEval s i n pos =
      aget pos ((aget n ((aget i s.docEvalsBySpanId).getD [])).getD []) := by
  unfold storedDocEval
  cases aget i s.docEvalsBySpanId with
  | none => rfl
  | some m =>
      rw [Option.getD_some]
      show (match aget n m with
            | none => (none : Option Evaluation)
            | some evals => aget pos evals) = aget pos ((aget n m).getD [])
      cases aget n m <;> rfl

theorem docEvalByName_eq (s : EvalsState) (n : String) (i pos : ℕ) :
    docEvalByName s n i pos =
      aget pos ((aget i ((aget n s.docEvalsByName).getD [])).getD []) := by
  unfold docEvalByName
  cases aget n s.docEvalsByName with
  | none => rfl
  | some m =>
      rw [Option.getD_some]
      show (match aget i m with
            | some byPos => aget pos byPos
            | none => (none : Option Evaluation)) = aget pos ((aget i m).getD [])
      cases aget i m <;> rfl

theorem spanEvalAt_step (now : ℤ) (e : Evaluation) (s : EvalsState) (i : ℕ)
    (n : String) :
    (getSpanEvaluation (addEval now e s) i n).1 =
      (if e.subject = .span i ∧ e.name = n then some e
       else (getSpanEvaluation s i n).1) := by
  cases hsub : e.subject with
  | missing =>
      rw [addEval_missing_eq hsub, if_neg (by simp), spanEvalAt_eq, spanEvalAt_eq]
  | trace tid =>
      rw [addEval_trace_eq hsub, if_neg (by simp), spanEvalAt_eq, spanEvalAt_eq]
  | document j pos =>
      rw [addEval_document_eq hsub, if_neg (by simp), spanEvalAt_eq, spanEvalAt_eq]
  | span j =>
      have hset : (addEval now e s).evalsBySpanId =
          aset j (aset e.name e ((aget j s.evalsBySpanId).getD []))
            s.evalsBySpanId := by
        cases hlb : e.result.label with
        | none => rw [addEval_span_none_eq hsub hlb]
        | some lb => rw [addEval_span_some_eq hsub hlb]
      rw [spanEvalAt_eq, hset]
      by_cases hij : i = j
      · subst hij
        rw [aget_aset_self, Option.getD_some]
        by_cases hn : n = e.name
        · subst hn
          rw [aget_aset_self, if_pos ⟨rfl, rfl⟩]
        · rw [aget_aset_ne _ _ _ _ hn,
            if_neg (by rintro ⟨_, h2⟩; exact hn h2.symm), spanEvalAt_eq]
      · rw [aget_aset_ne _ _ _ _ hij,
          if_neg (by rintro ⟨h1, _⟩; cases h1; exact hij rfl), spanEvalAt_eq]

theorem spanEvalByName_step (now : ℤ) (e : Evaluation) (s : EvalsState)
    (n : String) (i : ℕ) :
    spanEvalByName (addEval now e s) n i =
      (if e.subject = .span i ∧ e.name = n then some e
       else spanEvalByName s n i) := by
  cases hsub : e.subject with
  | missing =>
      rw [addEval_missing_eq hsub, if_neg (by simp)]
      rfl
  | trace tid =>
      rw [addEval_trace_eq hsub, if_neg (by simp)]
      rfl
  | document j pos =>
      rw [addEval_document_eq hsub, if_neg (by simp)]
      rfl
  | span j =>
      have hset : (addEval now e s).spanEvalsByName =
          aset e.name (aset j e ((aget e.name s.spanEvalsByName).getD []))
            s.spanEvalsByName := by
        cases hlb : e.result.label with
        | none => rw [addEval_span_none_eq hsub hlb]
        | some lb => rw [addEval_span_some_eq hsub hlb]
      rw [spanEvalByName_eq, hset]
      by_cases hn : n = e.name
      · subst hn
        rw [aget_aset_self, Option.getD_some]
        by_cases hij : i = j
        · subst hij
          rw [aget_aset_self, if_pos ⟨rfl, rfl⟩]
        · rw [aget_aset_ne _ _ _ _ hij,
            if_neg (by rintro ⟨h1, _⟩; cases h1; exact hij rfl), spanEvalByName_eq]
      · rw [aget_aset_ne _ _ _ _ hn,
          if_neg (by rintro ⟨_, h2⟩; exact hn h2.symm), spanEvalByName_eq]

theorem traceEvalAt_step (now : ℤ) (e : Evaluation) (s : EvalsState) (t : ℕ)
    (n : String) :
    traceEvalAt (addEval now e s) t n =
      (if e.subject = .trace t ∧ e.name = n then some e
       else traceEvalAt s t n) := by
  cases hsub : e.subject with
  | missing =>
      rw [addEval_missing_eq hsub, if_neg (by simp)]
      rfl
  | span j =>
      have hset : (addEval now e s).evalsByTraceId = s.evalsByTraceId := by
        cases hlb : e.result.label with
        | none => rw [addEval_span_none_eq hsub hlb]
        | some lb => rw [addEval_span_some_eq hsub hlb]
      rw [traceEvalAt_eq, hset, if_neg (by simp), traceEvalAt_eq]
  | document j pos =>
      rw [addEval_document_eq hsub, if_neg (by simp)]
      rfl
  | trace tid =>
      rw [traceEvalAt_eq, addEval_trace_eq hsub]
      by_cases hti : t = tid
      · subst hti
        rw [aget_aset_self, Option.getD_some]
        by_cases hn : n = e.name
        · subst hn
          rw [aget_aset_self, if_pos ⟨rfl, rfl⟩]
        · rw [aget_aset_ne _ _ _ _ hn,
            if_neg (by rintro ⟨_, h2⟩; exact hn h2.symm), traceEvalAt_eq]
      · rw [aget_aset_ne _ _ _ _ hti,
          if_neg (by rintro ⟨h1, _⟩; cases h1; exact hti rfl), traceEvalAt_eq]

theorem traceEvalByName_step (now : ℤ) (e : Evaluation) (s : EvalsState)
    (n : String) (t : ℕ) :
    traceEvalByName (addEval now e s) n t =
      (if e.subject = .trace t ∧ e.name = n then some e
       else traceEvalByName s n t) := by
  cases hsub : e.subject with
  | missing =>
      rw [addEval_missing_eq hsub, if_neg (by simp)]
      rfl
  | span j =>
      have hset : (addEval now e s).traceEvalsByName = s.traceEvalsByName := by
        cases hlb : e.result.label with
        | none => rw [addEval_span_none_eq hsub hlb]
        | some lb => rw [addEval_span_some_eq hsub hlb]
      rw [traceEvalByName_eq, hset, if_neg (by simp), traceEvalByName_eq]
  | document j pos =>
      rw [addEval_document_eq hsub, if_neg (by simp)]
      rfl
  | trace tid =>
      rw [traceEvalByName_eq, addEval_trace_eq hsub]
      by_cases hn : n = e.name
      · subst hn
        rw [aget_aset_self, Option.getD_some]
        by_cases hti : t = tid
        · subst hti
          rw [aget_aset_self, if_pos ⟨rfl, rfl⟩]
        · rw [aget_aset_ne _ _ _ _ hti,
            if_neg (by rintro ⟨h1, _⟩; cases h1; exact hti rfl), traceEvalByName_eq]
      · rw [aget_aset_ne _ _ _ _ hn,
          if_neg (by rintro ⟨_, h2⟩; exact hn h2.symm), traceEvalByName_eq]

theorem storedDocEval_step (now : ℤ) (e : Evaluation) (s : EvalsState) (i : ℕ)
    (n : String) (pos : ℕ) :
    storedDocEval (addEval now e s) i n pos =
      (if e.subject = .document i pos ∧ e.name = n then some e
       else storedDocEval s i n pos) := by
  cases hsub : e.subject with
  | missing =>
      rw [addEval_missing_eq hsub, if_neg (by simp)]
      rfl
  | span j =>
      have hset : (addEval now e s).docEvalsBySpanId = s.docEvalsBySpanId := by
        cases hlb : e.result.label with
        | none => rw [addEval_span_none_eq hsub hlb]
        | some lb => rw [addEval_span_some_eq hsub hlb]
      rw [storedDocEval_eq, hset, if_neg (by simp), storedDocEval_eq]
  | trace tid =>
      rw [addEval_trace_eq hsub, if_neg (by simp)]
      rfl
  | document j pos2 =>
      rw [storedDocEval_eq, addEval_document_eq hsub]
      by_cases hij : i = j
      · subst hij
        rw [aget_aset_self, Option.getD_some]
        by_cases hn : n = e.name
        · subst hn
          rw [aget_aset_self, Option.getD_some]
          by_cases hp : pos = pos2
          · subst hp
            rw [aget_aset_self, if_pos ⟨rfl, rfl⟩]
          · rw [aget_aset_ne _ _ _ _ hp,
              if_neg (by rintro ⟨h1, _⟩; cases h1; exact hp rfl), storedDocEval_eq]
        · rw [aget_aset_ne _ _ _ _ hn,
            if_neg (by rintro ⟨_, h2⟩; exact hn h2.symm), storedDocEval_eq]
      · rw [aget_aset_ne _ _ _ _ hij,
          if_neg (by rintro ⟨h1, _⟩; cases h1; exact hij rfl), storedDocEval_eq]

theorem docEvalByName_step (now : ℤ) (e : Evaluation) (s : EvalsState)
    (n : String) (i pos : ℕ) :
    docEvalByName (addEval now e s) n i pos =
      (if e.subject = .document i pos ∧ e.name = n then some e
       else docEvalByName s n i pos) := by
  cases hsub : e.subject with
  | missing =>
      rw [addEval_missing_eq hsub, if_neg (by simp)]
      rfl
  | span j =>
      have hset : (addEval now e s).docEvalsByName = s.docEvalsByName := by
        cases hlb : e.result.label with
        | none => rw [addEval_span_none_eq hsub hlb]
        | some lb => rw [addEval_span_some_eq hsub hlb]
      rw [docEvalByName_eq, hset, if_neg (by simp), docEvalByName_eq]
  | trace tid =>
      rw [addEval_trace_eq hsub, if_neg (by simp)]
      rfl
  | document j pos2 =>
      rw [docEvalByName_eq, addEval_document_eq hsub]
      by_cases hn : n = e.name
      · subst hn
        rw [aget_aset_self, Option.getD_some]
        by_cases hij : i = j
        · subst hij
          rw [aget_aset_self, Option.getD_some]
          by_cases hp : pos = pos2
          · subst hp
            rw [aget_aset_self, if_pos ⟨rfl, rfl⟩]
          · rw [aget_aset_ne _ _ _ _ hp,
              if_neg (by rintro ⟨h1, _⟩; cases h1; exact hp rfl), docEvalByName_eq]
        · rw [aget_aset_ne _ _ _ _ hij,
            if_neg (by rintro ⟨h1, _⟩; cases h1; exact hij rfl), docEvalByName_eq]
      · rw [aget_aset_ne _ _ _ _ hn,
          if_neg (by rintro ⟨_, h2⟩; exact hn h2.symm), docEvalByName_eq]

theorem aget_isSome_aset_iff {κ ν : Type} [DecidableEq κ] (i p : κ) (v : ν)
    (l : List (κ × ν)) :
    ((aget i (aset p v l)).isSome = true) ↔ (p = i ∨ (aget i l).isSome = true) := by
  by_cases hip : i = p
  · subst hip
    rw [aget_aset_self]
    simp
  · rw [aget_aset_ne _ _ _ _ hip]
    constructor
    · exact Or.inr
    · rintro (h | h)
      · exact absurd h (fun he => hip he.symm)
      · exact h

theorem foldE_none {α : Type} {F : EvalsState → Option α} {P : Evaluation → Prop}
    [DecidablePred P] {G : Evaluation → α}
    (hstep : ∀ e s, F (addEval 0 e s) = if P e then some (G e) else F s) :
    ∀ (l : List Evaluation) (s0 : EvalsState), (∀ e ∈ l, ¬ P e) →
      F (l.foldl (fun t e => addEval 0 e t) s0) = F s0 := by
  intro l
  induction l with
  | nil => intro s0 _; rfl
  | cons e t ih =>
      intro s0 hn
      rw [List.foldl_cons,
        ih (addEval 0 e s0) (fun e2 he2 => hn e2 (List.mem_cons_of_mem _ he2)),
        hstep e s0, if_neg (hn e (by simp))]

theorem foldE_last {α : Type} {F : EvalsState → Option α} {P : Evaluation → Prop}
    [DecidablePred P] {G : Evaluation → α}
    (hstep : ∀ e s, F (addEval 0 e s) = if P e then some (G e) else F s) :
    ∀ (l : List Evaluation) (s0 : EvalsState) (e0 : Evaluation), e0 ∈ l → P e0 →
      (∀ e ∈ l, P e → e = e0) →
      F (l.foldl (fun t e => addEval 0 e t) s0) = some (G e0) := by
  intro l
  induction l with
  | nil => intro s0 e0 h; simp at h
  | cons e t ih =>
      intro s0 e0 hmem hP huniq
      rw [List.foldl_cons]
      by_cases hex : ∃ e2 ∈ t, P e2
      · obtain ⟨e2, he2, hP2⟩ := hex
        have he2e0 : e2 = e0 := huniq e2 (List.mem_cons_of_mem _ he2) hP2
        exact ih (addEval 0 e s0) e0 (he2e0 ▸ he2) hP
          (fun e3 he3 hP3 => huniq e3 (List.mem_cons_of_mem _ he3) hP3)
      · have he0e : e0 = e := by
          rcases List.mem_cons.1 hmem with h | h
          · exact h
          · exact absurd ⟨e0, h, hP⟩ hex
        push_neg at hex
        rw [foldE_none hstep t (addEval 0 e s0) hex, hstep e s0,
          if_pos (he0e ▸ hP), he0e]

theorem foldE_feature {F : EvalsState → Prop} {P : Evaluation → Prop}
    (hstep : ∀ e s, F (addEval 0 e s) ↔ (P e ∨ F s)) :
    ∀ (l : List Evaluation) (s0 : EvalsState),
      F (l.foldl (fun t e => addEval 0 e t) s0) ↔ ((∃ e ∈ l, P e) ∨ F s0) := by
  intro l
  induction l with
  | nil => intro s0; simp
  | cons e t ih =>
      intro s0
      rw [List.foldl_cons, ih (addEval 0 e s0), hstep e s0]
      constructor
      · rintro (⟨e2, he2, hP2⟩ | hP | hF)
        · exact Or.inl ⟨e2, List.mem_cons_of_mem _ he2, hP2⟩
        · exact Or.inl ⟨e, by simp, hP⟩
        · exact Or.inr hF
      · rintro (⟨e2, he2, hP2⟩ | hF)
        · rcases List.mem_cons.1 he2 with rfl | hm
          · exact Or.inr (Or.inl hP2)
          · exact Or.inl ⟨e2, hm, hP2⟩
        · exact Or.inr (Or.inr hF)

theorem filterMap_nodup_uniq {α β : Type} (f : α → Option β) :
    ∀ {l : List α}, (l.filterMap f).Nodup →
      ∀ a1 ∈ l, ∀ a2 ∈ l, ∀ b, f a1 = some b → f a2 = some b → a1 = a2 := by
  intro l
  induction l with
  | nil =>
      intro _ a1 h
      simp at h
  | cons a t ih =>
      intro hnd a1 h1 a2 h2 b hb1 hb2
      cases hfa : f a with
      | none =>
          rw [List.filterMap_cons_none hfa] at hnd
          rcases List.mem_cons.1 h1 with rfl | h1t
          · rw [hfa] at hb1
            exact Option.noConfusion hb1
          · rcases List.mem_cons.1 h2 with rfl | h2t
            · rw [hfa] at hb2
              exact Option.noConfusion hb2
            · exact ih hnd a1 h1t a2 h2t b hb1 hb2
      | some b0 =>
          rw [List.filterMap_cons_some hfa] at hnd
          obtain ⟨hb0nm, hndt⟩ := List.nodup_cons.1 hnd
          rcases List.mem_cons.1 h1 with rfl | h1t
          · rcases List.mem_cons.1 h2 with rfl | h2t
            · rfl
            · exfalso
              rw [hfa] at hb1
              cases hb1
              exact hb0nm (List.mem_filterMap.2 ⟨a2, h2t, hb2⟩)
          · rcases List.mem_cons.1 h2 with rfl | h2t
            · exfalso
              rw [hfa] at hb2
              cases hb2
              exact hb0nm (List.mem_filterMap.2 ⟨a1, h1t, hb1⟩)
            · exact ih hndt a1 h1t a2 h2t b hb1 hb2

theorem foldE_perm {α : Type} (F : EvalsState → Option α) (P : Evaluation → Prop)
    [DecidablePred P] (G : Evaluation → α)
    (hstep : ∀ e s, F (addEval 0 e s) = if P e then some (G e) else F s)
    {l1 l2 : List Evaluation} (hperm : List.Perm l1 l2)
    (huniq : ∀ e1 ∈ l1, ∀ e2 ∈ l1, P e1 → P e2 → e1 = e2) :
    F (buildStateE l1) = F (buildStateE l2) := by
  unfold buildStateE
  by_cases hex : ∃ e0 ∈ l1, P e0
  · obtain ⟨e0, hmem, hP⟩ := hex
    rw [foldE_last hstep l1 EvalsState.empty e0 hmem hP
        (fun e he hPe => huniq e he e0 hmem hPe hP),
      foldE_last hstep l2 EvalsState.empty e0 (hperm.mem_iff.1 hmem) hP
        (fun e he hPe => huniq e (hperm.mem_iff.2 he) e0 hmem hPe hP)]
  · push_neg at hex
    rw [foldE_none hstep l1 EvalsState.empty hex,
      foldE_none hstep l2 EvalsState.empty (fun e he => hex e (hperm.mem_iff.2 he))]

theorem foldE_feature_perm (F : EvalsState → Prop) (P : Evaluation → Prop)
    (hstep : ∀ e s, F (addEval 0 e s) ↔ (P e ∨ F s))
    {l1 l2 : List Evaluation} (hperm : List.Perm l1 l2) :
    F (buildStateE l1) ↔ F (buildStateE l2) := by
  unfold buildStateE
  rw [foldE_feature hstep l1 EvalsState.empty, foldE_feature hstep l2 EvalsState.empty]
  constructor
  · rintro (⟨e, he, hP⟩ | hF)
    · exact Or.inl ⟨e, hperm.mem_iff.1 he, hP⟩
    · exact Or.inr hF
  · rintro (⟨e, he, hP⟩ | hF)
    · exact Or.inl ⟨e, hperm.mem_iff.2 he, hP⟩
    · exact Or.inr hF

theorem presE_spanId_step (e : Evaluation) (s : EvalsState) (i : ℕ) :
    ((aget i (addEval 0 e s).evalsBySpanId).isSome = true) ↔
      (e.subject = .span i ∨ (aget i s.evalsBySpanId).isSome = true) := by
  cases hsub : e.subject with
  | span j =>
      have hset : (addEval 0 e s).evalsBySpanId =
          aset j (aset e.name e ((aget j s.evalsBySpanId).getD []))
            s.evalsBySpanId := by
        cases hlb : e.result.label with
        | none => rw [addEval_span_none_eq hsub hlb]
        | some lb => rw [addEval_span_some_eq hsub hlb]
      rw [hset, aget_isSome_aset_iff]
      constructor
      · rintro (rfl | h)
        · exact Or.inl rfl
        · exact Or.inr h
      · rintro (h | h)
        · cases h
          exact Or.inl rfl
        · exact Or.inr h
  | missing =>
      rw [addEval_missing_eq hsub]
      simp
  | trace tid =>
      rw [addEval_trace_eq hsub]
      simp
  | document j pos =>
      rw [addEval_document_eq hsub]
      simp

theorem presE_spanName_step (e : Evaluation) (s : EvalsState) (n : String) :
    ((aget n (addEval 0 e s).spanEvalsByName).isSome = true) ↔
      (((∃ j, e.subject = .span j) ∧ e.name = n) ∨
        (aget n s.spanEvalsByName).isSome = true) := by
  cases hsub : e.subject with
  | span j =>
      have hset : (addEval 0 e s).spanEvalsByName =
          aset e.name (aset j e ((aget e.name s.spanEvalsByName).getD []))
            s.spanEvalsByName := by
        cases hlb : e.result.label with
        | none => rw [addEval_span_none_eq hsub hlb]
        | some lb => rw [addEval_span_some_eq hsub hlb]
      rw [hset, aget_isSome_aset_iff]
      constructor
      · rintro (rfl | h)
        · exact Or.inl ⟨⟨j, rfl⟩, rfl⟩
        · exact Or.inr h
      · rintro (⟨_, rfl⟩ | h)
        · exact Or.inl rfl
        · exact Or.inr h
  | missing =>
      rw [addEval_missing_eq hsub]
      simp
  | trace tid =>
      rw [addEval_trace_eq hsub]
      simp
  | document j pos =>
      rw [addEval_document_eq hsub]
      simp

theorem presE_traceId_step (e : Evaluation) (s : EvalsState) (t : ℕ) :
    ((aget t (addEval 0 e s).evalsByTraceId).isSome = true) ↔
      (e.subject = .trace t ∨ (aget t s.evalsByTraceId).isSome = true) := by
  cases hsub : e.subject with
  | trace tid =>
      rw [addEval_trace_eq hsub]
      show (aget t (aset tid _ s.evalsByTraceId)).isSome = true ↔ _
      rw [aget_isSome_aset_iff]
      constructor
      · rintro (rfl | h)
        · exact Or.inl rfl
        · exact Or.inr h
      · rintro (h | h)
        · cases h
          exact Or.inl rfl
        · exact Or.inr h
  | missing =>
      rw [addEval_missing_eq hsub]
      simp
  | span j =>
      have hset : (addEval 0 e s).evalsByTraceId = s.evalsByTraceId := by
        cases hlb : e.result.label with
        | none => rw [addEval_span_none_eq hsub hlb]
        | some lb => rw [addEval_span_some_eq hsub hlb]
      rw [hset]
      simp
  | document j pos =>
      rw [addEval_document_eq hsub]
      simp

theorem presE_traceName_step (e : Evaluation) (s : EvalsState) (n : String) :
    ((aget n (addEval 0 e s).traceEvalsByName).isSome = true) ↔
      (((∃ t0, e.subject = .trace t0) ∧ e.name = n) ∨
        (aget n s.traceEvalsByName).isSome = true) := by
  cases hsub : e.subject with
  | trace tid =>
      rw [addEval_trace_eq hsub]
      show (aget n (aset e.name _ s.traceEvalsByName)).isSome = true ↔ _
      rw [aget_isSome_aset_iff]
      constructor
      · rintro (rfl | h)
        · exact Or.inl ⟨⟨tid, rfl⟩, rfl⟩
        · exact Or.inr h
      · rintro (⟨_, rfl⟩ | h)
        · exact Or.inl rfl
        · exact Or.inr h
  | missing =>
      rw [addEval_missing_eq hsub]
      simp
  | span j =>
      have hset : (addEval 0 e s).traceEvalsByName = s.traceEvalsByName := by
        cases hlb : e.result.label with
        | none => rw [addEval_span_none_eq hsub hlb]
        | some lb => rw [addEval_span_some_eq hsub hlb]
      rw [hset]
      simp
  | document j pos =>
      rw [addEval_document_eq hsub]
      simp

theorem presE_docId_step (e : Evaluation) (s : EvalsState) (i : ℕ) :
    ((aget i (addEval 0 e s).docEvalsBySpanId).isSome = true) ↔
      ((∃ pos, e.subject = .document i pos) ∨
        (aget i s.docEvalsBySpanId).isSome = true) := by
  cases hsub : e.subject with
  | document j pos2 =>
      rw [addEval_document_eq hsub]
      show (aget i (aset j _ s.docEvalsBySpanId)).isSome = true ↔ _
      rw [aget_isSome_aset_iff]
      constructor
      · rintro (rfl | h)
        · exact Or.inl ⟨pos2, rfl⟩
        · exact Or.inr h
      · rintro (⟨pos, hp⟩ | h)
        · cases hp
          exact Or.inl rfl
        · exact Or.inr h
  | missing =>
      rw [addEval_missing_eq hsub]
      simp
  | span j =>
      have hset : (addEval 0 e s).docEvalsBySpanId = s.docEvalsBySpanId := by
        cases hlb : e.result.label with
        | none => rw [addEval_span_none_eq hsub hlb]
        | some lb => rw [addEval_span_some_eq hsub hlb]
      rw [hset]
      simp
  | trace tid =>
      rw [addEval_trace_eq hsub]
      simp

theorem presE_docName_step (e : Evaluation) (s : EvalsState) (n : String) :
    ((aget n (addEval 0 e s).docEvalsByName).isSome = true) ↔
      (((∃ j pos, e.subject = .document j pos) ∧ e.name = n) ∨
        (aget n s.docEvalsByName).isSome = true) := by
  cases hsub : e.subject with
  | document j pos2 =>
      rw [addEval_document_eq hsub]
      show (aget n (aset e.name _ s.docEvalsByName)).isSome = true ↔ _
      rw [aget_isSome_aset_iff]
      constructor
      · rintro (rfl | h)
        · exact Or.inl ⟨⟨j, pos2, rfl⟩, rfl⟩
        · exact Or.inr h
      · rintro (⟨_, rfl⟩ | h)
        · exact Or.inl rfl
        · exact Or.inr h
  | missing =>
      rw [addEval_missing_eq hsub]
      simp
  | span j =>
      have hset : (addEval 0 e s).docEvalsByName = s.docEvalsByName := by
        cases hlb : e.result.label with
        | none => rw [addEval_span_none_eq hsub hlb]
        | some lb => rw [addEval_span_some_eq hsub hlb]
      rw [hset]
      simp
  | trace tid =>
      rw [addEval_trace_eq hsub]
      simp

theorem presE_labels_step (e : Evaluation) (s : EvalsState) (n : String) :
    ((aget n (addEval 0 e s).spanEvalLabels).isSome = true) ↔
      (((∃ j, e.subject = .span j) ∧ e.name = n ∧ (∃ lb, e.result.label = some lb)) ∨
        (aget n s.spanEvalLabels).isSome = true) := by
  cases hsub : e.subject with
  | span j =>
      cases hlb : e.result.label with
      | none =>
          rw [addEval_span_none_eq hsub hlb]
          simp
      | some lb0 =>
          rw [addEval_span_some_eq hsub hlb]
          show (aget n (aset e.name _ s.spanEvalLabels)).isSome = true ↔ _
          rw [aget_isSome_aset_iff]
          constructor
          · rintro (rfl | h)
            · exact Or.inl ⟨⟨j, rfl⟩, rfl, lb0, rfl⟩
            · exact Or.inr h
          · rintro (⟨_, rfl, _⟩ | h)
            · exact Or.inl rfl
            · exact Or.inr h
  | missing =>
      rw [addEval_missing_eq hsub]
      simp
  | trace tid =>
      rw [addEval_trace_eq hsub]
      simp
  | document j pos =>
      rw [addEval_document_eq hsub]
      simp

theorem labelMem_step (e : Evaluation) (s : EvalsState) (n lb : String) :
    (lb ∈ (aget n (addEval 0 e s).spanEvalLabels).getD []) ↔
      (((∃ j, e.subject = .span j) ∧ e.name = n ∧ e.result.label = some lb) ∨
        lb ∈ (aget n s.spanEvalLabels).getD []) := by
  cases hsub : e.subject with
  | span j =>
      cases hlb : e.result.label with
      | none =>
          rw [addEval_span_none_eq hsub hlb]
          simp
      | some lb0 =>
          rw [addEval_span_some_eq hsub hlb]
          show lb ∈ (aget n (aset e.name
            (if lb0 ∈ (aget e.name s.spanEvalLabels).getD [] then
              (aget e.name s.spanEvalLabels).getD []
            else (aget e.name s.spanEvalLabels).getD [] ++ [lb0])
            s.spanEvalLabels)).getD [] ↔ _
          by_cases hn : n = e.name
          · subst hn
            rw [aget_aset_self, Option.getD_some]
            by_cases hmem : lb0 ∈ (aget e.name s.spanEvalLabels).getD []
            · rw [if_pos hmem]
              constructor
              · exact fun h => Or.inr h
              · rintro (⟨_, _, hlbe⟩ | h)
                · cases hlbe
                  exact hmem
                · exact h
            · rw [if_neg hmem]
              rw [List.mem_append, List.mem_singleton]
              constructor
              · rintro (h | rfl)
                · exact Or.inr h
                · exact Or.inl ⟨⟨j, rfl⟩, rfl, rfl⟩
              · rintro (⟨_, _, hlbe⟩ | h)
                · cases hlbe
                  exact Or.inr rfl
                · exact Or.inl h
          · rw [aget_aset_ne _ _ _ _ hn]
            constructor
            · exact fun h => Or.inr h
            · rintro (⟨_, hne, _⟩ | h)
              · exact absurd hne.symm hn
              · exact h
  | missing =>
      rw [addEval_missing_eq hsub]
      simp
  | trace tid =>
      rw [addEval_trace_eq hsub]
      simp
  | document j pos =>
      rw [addEval_document_eq hsub]
      simp

theorem build_spanAt_go : ∀ (l : List Span) (s0 s : SpansState), Inv s0 →
    (∀ sp ∈ l, spanAt s0 sp.span_id = none) →
    ((l.map Span.span_id).Nodup) →
    l.foldl (fun acc sp => acc.bind (addSpan 0 sp)) (some s0) = some s →
    ∀ i sp', spanAt s i = some sp' ↔
      (spanAt s0 i = some sp' ∨ (sp' ∈ l ∧ sp'.span_id = i)) := by
  intro l
  induction l with
  | nil =>
      intro s0 s _ _ _ h i sp'
      cases h
      simp
  | cons sp t ih =>
      intro s0 s hInv hfr hnd h i sp'
      rw [List.foldl_cons] at h
      have h' : t.foldl (fun acc sp => acc.bind (addSpan 0 sp)) (addSpan 0 sp s0) =
          some s := h
      cases hadd : addSpan 0 sp s0 with
      | none =>
          rw [hadd, buildStateS_go_none] at h'
          exact Option.noConfusion h'
      | some s1 =>
          rw [hadd] at h'
          have hfresh : aget sp.span_id s0.spans = none := by
            have hx := hfr sp (by simp)
            unfold spanAt at hx
            cases hy : aget sp.span_id s0.spans with
            | none => rfl
            | some st => rw [hy] at hx; exact Option.noConfusion hx
          have hni : sp.span_id ∉ childList s0 sp.span_id := by
            intro hmem
            obtain ⟨sp2, hsp2, _⟩ := (hInv.childMemOk sp.span_id sp.span_id).1 hmem
            rw [spanAt_of_fresh hfresh] at hsp2
            exact Option.noConfusion hsp2
          obtain ⟨E, _, _, _, _⟩ := addSpan_anatomy 0 sp s0 s1 hfresh hni hadd
          have hnd2 : (sp.span_id :: t.map Span.span_id).Nodup := by simpa using hnd
          have hfr1 : ∀ sp2 ∈ t, spanAt s1 sp2.span_id = none := by
            intro sp2 hsp2
            rw [E.spanAtEq]
            have hne : sp2.span_id ≠ sp.span_id := by
              intro he
              exact (List.nodup_cons.1 hnd2).1
                (he ▸ List.mem_map_of_mem Span.span_id hsp2)
            rw [if_neg hne]
            exact hfr sp2 (List.mem_cons_of_mem _ hsp2)
          have hiff := ih s1 s (Inv_addSpan hInv hadd) hfr1
            (List.nodup_cons.1 hnd2).2 h' i sp'
          rw [hiff, E.spanAtEq]
          constructor
          · rintro (hs1 | ⟨hmem, hid⟩)
            · by_cases hieq : i = sp.span_id
              · rw [if_pos hieq] at hs1
                cases hs1
                exact Or.inr ⟨by simp, hieq.symm⟩
              · rw [if_neg hieq] at hs1
                exact Or.inl hs1
            · exact Or.inr ⟨List.mem_cons_of_mem _ hmem, hid⟩
          · rintro (hs0 | ⟨hmem, hid⟩)
            · have hieq : i ≠ sp.span_id := by
                intro he
                rw [he, hfr sp (by simp)] at hs0
                exact Option.noConfusion hs0
              rw [if_neg hieq]
              exact Or.inl hs0
            · rcases List.mem_cons.1 hmem with rfl | hmt
              · rw [if_pos hid.symm]
                exact Or.inl rfl
              · exact Or.inr ⟨hmt, hid⟩

/-- On a completed build with pairwise-distinct span ids, the stored span
under `i` is exactly the input span whose id is `i`. -/
theorem build_spanAt {l : List Span} {s : SpansState}
    (hnd : (l.map Span.span_id).Nodup) (h : buildStateS l = some s) :
    ∀ i sp', spanAt s i = some sp' ↔ (sp' ∈ l ∧ sp'.span_id = i) := by
  intro i sp'
  rw [build_spanAt_go l SpansState.empty s Inv_empty
    (fun sp _ => by simp [spanAt, SpansState.empty, aget_nil]) hnd h i sp']
  simp [spanAt, SpansState.empty, aget_nil]

theorem aget_map_val {κ ν μ : Type} [DecidableEq κ] (g : ν → μ) (k : κ) :
    ∀ (l : List (κ × ν)),
      aget k (l.map (fun p => (p.1, g p.2))) = (aget k l).map g := by
  intro l
  induction l with
  | nil => rfl
  | cons p t ih =>
      cases p with
      | mk k0 v0 =>
          by_cases hk : k = k0
          · subst hk
            simp [aget]
          · simp [aget, hk, ih]

theorem keys_map_val {κ ν μ : Type} (g : ν → μ) (l : List (κ × ν)) :
    (l.map (fun p => (p.1, g p.2))).map Prod.fst = l.map Prod.fst := by
  rw [List.map_map]
  rfl

/-- Association lists with distinct keys and the same lookup function hold
the same bindings, up to order. -/
theorem assoc_ext_perm {κ ν : Type} [DecidableEq κ] [DecidableEq ν] :
    ∀ (a b : List (κ × ν)), NodupKeys a → NodupKeys b →
      (∀ k, aget k a = aget k b) → List.Perm a b := by
  intro a
  induction a with
  | nil =>
      intro b _ _ hget
      cases b with
      | nil => exact List.Perm.refl _
      | cons p t =>
          exfalso
          cases p with
          | mk k0 v0 =>
              have := hget k0
              simp [aget, aget_nil] at this
  | cons p t ih =>
      intro b hnda hndb hget
      cases p with
      | mk k0 v0 =>
          have hmem : (k0, v0) ∈ b := by
            apply aget_mem
            rw [← hget k0]
            simp [aget]
          obtain ⟨rest, hbperm⟩ : ∃ rest, List.Perm b ((k0, v0) :: rest) :=
            ⟨_, List.perm_cons_erase hmem⟩
          have hkeysperm : List.Perm (b.map Prod.fst) (k0 :: rest.map Prod.fst) := by
            simpa using hbperm.map Prod.fst
          have hndkeys : (k0 :: rest.map Prod.fst).Nodup :=
            hkeysperm.nodup_iff.1 hndb
          have hndrest : NodupKeys rest := (List.nodup_cons.1 hndkeys).2
          have hk0b : k0 ∉ rest.map Prod.fst := (List.nodup_cons.1 hndkeys).1
          have hndbc : NodupKeys ((k0, v0) :: rest) := by
            unfold NodupKeys
            simpa using hndkeys
          have hk0t : k0 ∉ t.map Prod.fst := by
            have hx : (k0 :: t.map Prod.fst).Nodup := by
              unfold NodupKeys at hnda
              simpa using hnda
            exact (List.nodup_cons.1 hx).1
          have hndt : NodupKeys t := by
            have hx : (k0 :: t.map Prod.fst).Nodup := by
              unfold NodupKeys at hnda
              simpa using hnda
            exact (List.nodup_cons.1 hx).2
          have hget2 : ∀ k, aget k t = aget k rest := by
            intro k
            by_cases hk : k = k0
            · subst hk
              rw [(aget_eq_none_iff _ _).2 hk0t, (aget_eq_none_iff _ _).2 hk0b]
            · have hgb : aget k b = aget k rest := by
                cases hx : aget k rest with
                | some v =>
                    apply mem_aget hndb
                    exact hbperm.mem_iff.2 (List.mem_cons_of_mem _ (aget_mem hx))
                | none =>
                    rw [aget_eq_none_iff] at hx ⊢
                    intro hkb
                    apply hx
                    rcases List.mem_cons.1 (hkeysperm.mem_iff.1 hkb) with he | hm
                    · exact absurd he hk
                    · exact hm
              rw [← hgb, ← hget k]
              simp [aget, hk]
          have htperm := ih rest hndt hndrest hget2
          exact (htperm.cons ((k0, v0))).trans hbperm.symm

/-- The two builds of a permuted input with distinct span ids store the same
span under every id. -/
theorem spanAt_build_eq {l1 l2 : List Span} {s1 s2 : SpansState}
    (hperm : List.Perm l1 l2) (hids : (l1.map Span.span_id).Nodup)
    (h1 : buildStateS l1 = some s1) (h2 : buildStateS l2 = some s2) :
    ∀ i, spanAt s1 i = spanAt s2 i := by
  have hids2 : (l2.map Span.span_id).Nodup :=
    ((hperm.map Span.span_id).nodup_iff).1 hids
  intro i
  cases hx1 : spanAt s1 i with
  | some sp' =>
      obtain ⟨hmem, hid⟩ := (build_spanAt hids h1 i sp').1 hx1
      exact ((build_spanAt hids2 h2 i sp').2 ⟨hperm.mem_iff.1 hmem, hid⟩).symm
  | none =>
      cases hx2 : spanAt s2 i with
      | none => rfl
      | some sp' =>
          obtain ⟨hmem, hid⟩ := (build_spanAt hids2 h2 i sp').1 hx2
          rw [(build_spanAt hids h1 i sp').2 ⟨hperm.mem_iff.2 hmem, hid⟩] at hx1
          exact Option.noConfusion hx1

theorem trip_eq {s1 s2 : SpansState} (hInv1 : Inv s1) (hInv2 : Inv s2)
    (hspan : ∀ i, spanAt s1 i = spanAt s2 i) :
    ∀ i, (aget i s1.spans).map (fun st => (st.span, st.latency_ms, st.error_count)) =
      (aget i s2.spans).map (fun st => (st.span, st.latency_ms, st.error_count)) := by
  intro i
  have hs := hspan i
  unfold spanAt at hs
  cases hx1 : aget i s1.spans with
  | none =>
      rw [hx1] at hs
      cases hx2 : aget i s2.spans with
      | none => rfl
      | some st2 => rw [hx2] at hs; simp at hs
  | some st1 =>
      rw [hx1] at hs
      cases hx2 : aget i s2.spans with
      | none => rw [hx2] at hs; simp at hs
      | some st2 =>
          rw [hx2] at hs
          simp at hs
          have hlat : st1.latency_ms = st2.latency_ms := by
            rw [hInv1.latencyOk i st1 hx1, hInv2.latencyOk i st2 hx2, hs]
          have herr : st1.error_count = st2.error_count := by
            rw [hInv1.errorOk i st1 hx1, hInv2.errorOk i st2 hx2, hs]
          simp [hs, hlat, herr]

theorem presence_eq {s1 s2 : SpansState}
    (hspan : ∀ i, spanAt s1 i = spanAt s2 i) :
    ∀ i, (aget i s1.spans).isSome = (aget i s2.spans).isSome := by
  intro i
  have hs := hspan i
  unfold spanAt at hs
  have := congrArg Option.isSome hs
  simpa using this

theorem und_eq {s1 s2 : SpansState} (hInv1 : Inv s1) (hInv2 : Inv s2)
    (hspan : ∀ i, spanAt s1 i = spanAt s2 i) :
    ∀ i k, underlyingAt s1 i k = underlyingAt s2 i k := by
  intro i k
  have hb := trip_eq hInv1 hInv2 hspan i
  unfold underlyingAt
  cases hx1 : aget i s1.spans with
  | none =>
      rw [hx1] at hb
      cases hx2 : aget i s2.spans with
      | none => rfl
      | some st => rw [hx2] at hb; simp at hb
  | some st1 =>
      rw [hx1] at hb
      cases hx2 : aget i s2.spans with
      | none => rw [hx2] at hb; simp at hb
      | some st2 =>
          rw [hx2] at hb
          simp [Prod.ext_iff] at hb
          cases k <;> simp [underlyingVal, hb.1, hb.2.2]

theorem childList_perm {s1 s2 : SpansState} (hInv1 : Inv s1) (hInv2 : Inv s2)
    (hspan : ∀ i, spanAt s1 i = spanAt s2 i) :
    ∀ i, List.Perm (childList s1 i) (childList s2 i) := by
  intro i
  rw [List.perm_ext_iff_of_nodup (hInv1.childNodup i) (hInv2.childNodup i)]
  intro c
  rw [hInv1.childMemOk i c, hInv2.childMemOk i c, hspan c]

/-- Under the store invariant, the cumulative values are determined by the
stored spans alone: two stores agreeing on `spanAt` agree on every
cumulative value. -/
theorem cum_unique {s1 s2 : SpansState} (hInv1 : Inv s1) (hInv2 : Inv s2)
    (hspan : ∀ i, spanAt s1 i = spanAt s2 i) :
    ∀ i k, getCum s1 i k = getCum s2 i k := by
  have hpres := presence_eq hspan
  have hund := und_eq hInv1 hInv2 hspan
  have hcl := childList_perm hInv1 hInv2 hspan
  have hmain : ∀ (n : ℕ) (i : ℕ) (L1 : List ℕ), Chain s1 i L1 →
      s1.spans.length ≤ L1.length + n → (aget i s1.spans).isSome = true →
      ∀ k, getCum s1 i k = getCum s2 i k := by
    intro n
    induction n with
    | zero =>
        intro i L1 hc hlen hst
        exfalso
        have hnd := chain_nodup hc
        have hsub : (i :: L1) ⊆ s1.spans.map Prod.fst := by
          intro c hcm
          rcases List.mem_cons.1 hcm with rfl | hm
          · exact (aget_isSome_iff c s1.spans).1 hst
          · exact (aget_isSome_iff c s1.spans).1 (chain_mem_present hc c hm)
        have hle := (List.Nodup.subperm hnd hsub).length_le
        simp at hle
        omega
    | succ n ih =>
        intro i L1 hc hlen hst k
        have hst2 : (aget i s2.spans).isSome = true := by rw [← hpres i]; exact hst
        rw [hInv1.cumOk i hst k, hInv2.cumOk i hst2 k, hund i k]
        have hchild1 : ((childList s1 i).map (fun c => getCum s1 c k)).sum =
            ((childList s1 i).map (fun c => getCum s2 c k)).sum := by
          refine congrArg List.sum (List.map_congr_left ?_)
          intro c hcm
          obtain ⟨spc, hspc, hpc⟩ := (hInv1.childMemOk i c).1 hcm
          have hcst : (aget c s1.spans).isSome = true := by
            unfold spanAt at hspc
            cases hx : aget c s1.spans with
            | none => rw [hx] at hspc; exact Option.noConfusion hspc
            | some _ => rfl
          have hstep : pstep s1 c = some i := by
            rw [pstep_eq_some]
            exact ⟨by rw [hInv1.parentIdsOk c, hspc]; simpa using hpc, hst⟩
          exact ih c (i :: L1) (Chain.cons c i L1 hstep hc)
            (by simp; omega) hcst k
        rw [hchild1]
        exact congrArg _ ((hcl i).map (fun c => getCum s2 c k)).sum_eq
  intro i k
  by_cases hst : (aget i s1.spans).isSome = true
  · obtain ⟨L1, hc⟩ := hInv1.acyclic i hst
    exact hmain s1.spans.length i L1 hc (Nat.le_add_left _ _) hst k
  · have h1 : aget i s1.spans = none := by
      cases hx : aget i s1.spans with
      | none => rfl
      | some v => rw [hx] at hst; exact absurd rfl hst
    have h2 : aget i s2.spans = none := by
      have := hpres i
      rw [h1] at this
      cases hx : aget i s2.spans with
      | none => rfl
      | some v => rw [hx] at this; simp at this
    unfold getCum
    rw [h1, h2]

theorem skeleton_perm_of {s1 s2 : SpansState} (hInv1 : Inv s1) (hInv2 : Inv s2)
    (hspan : ∀ i, spanAt s1 i = spanAt s2 i) :
    List.Perm (skeletonData s1) (skeletonData s2) := by
  have htrip := trip_eq hInv1 hInv2 hspan
  apply assoc_ext_perm
  · unfold NodupKeys skeletonData
    rw [keys_map_val (fun st : StoredSpan => (st.span, st.latency_ms, st.error_count))]
    exact hInv1.nodupSpans
  · unfold NodupKeys skeletonData
    rw [keys_map_val (fun st : StoredSpan => (st.span, st.latency_ms, st.error_count))]
    exact hInv2.nodupSpans
  · intro k
    unfold skeletonData
    rw [aget_map_val (fun st : StoredSpan => (st.span, st.latency_ms, st.error_count)),
      aget_map_val (fun st : StoredSpan => (st.span, st.latency_ms, st.error_count))]
    exact htrip k

theorem span_count_eq {s1 s2 : SpansState} (hInv1 : Inv s1) (hInv2 : Inv s2)
    (hspan : ∀ i, spanAt s1 i = spanAt s2 i) :
    s1.spans.length = s2.spans.length := by
  have hperm := skeleton_perm_of hInv1 hInv2 hspan
  have h1 : (skeletonData s1).length = s1.spans.length := List.length_map _ _
  have h2 : (skeletonData s2).length = s2.spans.length := List.length_map _ _
  rw [← h1, ← h2, hperm.length_eq]

theorem token_total_eq {s1 s2 : SpansState} (hInv1 : Inv s1) (hInv2 : Inv s2)
    (hspan : ∀ i, spanAt s1 i = spanAt s2 i) :
    s1.tokenTotal = s2.tokenTotal := by
  have hperm := skeleton_perm_of hInv1 hInv2 hspan
  have key : ∀ c : SpansState, c.spans.map (fun p => p.2.span.tok_total.getD 0) =
      (skeletonData c).map (fun x => x.2.1.tok_total.getD 0) := by
    intro c
    unfold skeletonData
    rw [List.map_map]
    rfl
  rw [hInv1.tokenOk, hInv2.tokenOk, key s1, key s2,
    (hperm.map (fun x => x.2.1.tok_total.getD 0)).sum_eq]

theorem sketch_perm_eq {s1 s2 : SpansState} (hInv1 : Inv s1) (hInv2 : Inv s2)
    (hspan : ∀ i, spanAt s1 i = spanAt s2 i) :
    List.Perm s1.sketch s2.sketch := by
  have hperm := skeleton_perm_of hInv1 hInv2 hspan
  have key : ∀ c : SpansState, c.spans.filterMap (fun p =>
      if p.2.span.parent_id.isNone then some p.2.latency_ms else none) =
      (skeletonData c).filterMap (fun x =>
        if x.2.1.parent_id.isNone then some x.2.2.1 else none) := by
    intro c
    unfold skeletonData
    rw [List.filterMap_map]
    rfl
  refine hInv1.sketchOk.trans (List.Perm.trans ?_ hInv2.sketchOk.symm)
  rw [key s1, key s2]
  exact hperm.filterMap _

theorem trace_count_eq {s1 s2 : SpansState} (hInv1 : Inv s1) (hInv2 : Inv s2)
    (hspan : ∀ i, spanAt s1 i = spanAt s2 i) :
    s1.traces.length = s2.traces.length := by
  have hkeys : List.Perm (s1.traces.map Prod.fst) (s2.traces.map Prod.fst) := by
    rw [List.perm_ext_iff_of_nodup hInv1.nodupTraces hInv2.nodupTraces]
    intro t
    rw [← aget_isSome_iff, ← aget_isSome_iff]
    constructor
    · intro hx
      rw [hInv1.traceKeysOk t] at hx
      rw [hInv2.traceKeysOk t]
      obtain ⟨j, sp2, hsp2, htr⟩ := hx
      exact ⟨j, sp2, by rw [← hspan j]; exact hsp2, htr⟩
    · intro hx
      rw [hInv2.traceKeysOk t] at hx
      rw [hInv1.traceKeysOk t]
      obtain ⟨j, sp2, hsp2, htr⟩ := hx
      exact ⟨j, sp2, by rw [hspan j]; exact hsp2, htr⟩
  have h1 : (s1.traces.map Prod.fst).length = s1.traces.length := List.length_map _ _
  have h2 : (s2.traces.map Prod.fst).length = s2.traces.length := List.length_map _ _
  rw [← h1, ← h2, hkeys.length_eq]

theorem foldl_addItem_none : ∀ (l : List Item), l.foldl addItem none = none := by
  intro l
  induction l with
  | nil => rfl
  | cons it t ih =>
      rw [List.foldl_cons]
      exact ih

/-- Project-level ingest splits into the independent span and evaluation
ingests: spans only touch `_Spans`, evaluations only `_Evals`. -/
theorem buildProject_go : ∀ (l : List Item) (ss : SpansState) (es : EvalsState),
    l.foldl addItem (some ⟨ss, es⟩) =
      ((l.filterMap itemSpan).foldl (fun acc sp => acc.bind (addSpan 0 sp))
        (some ss)).map
        (fun s => (⟨s, (l.filterMap itemEval).foldl (fun t e => addEval 0 e t) es⟩ :
          ProjectState)) := by
  intro l
  induction l with
  | nil => intro ss es; rfl
  | cons it t ih =>
      intro ss es
      cases it with
      | span sp =>
          rw [List.foldl_cons]
          have hfs : (Item.span sp :: t).filterMap itemSpan =
              sp :: t.filterMap itemSpan :=
            List.filterMap_cons_some (show itemSpan (Item.span sp) = some sp from rfl)
          have hfe : (Item.span sp :: t).filterMap itemEval = t.filterMap itemEval :=
            List.filterMap_cons_none
              (show itemEval (Item.span sp) = none from rfl)
          rw [hfs, hfe, List.foldl_cons]
          cases hadd : addSpan 0 sp ss with
          | none =>
              have hl : addItem (some ⟨ss, es⟩) (Item.span sp) = none := by
                show (addSpan 0 sp ss).map _ = none
                rw [hadd]
                rfl
              have hr : (t.filterMap itemSpan).foldl
                  (fun acc sp => acc.bind (addSpan 0 sp))
                  ((some ss).bind (addSpan 0 sp)) = none := by
                rw [show (some ss).bind (addSpan 0 sp) = none from hadd,
                  buildStateS_go_none]
              rw [hl, foldl_addItem_none, hr]
              rfl
          | some s1 =>
              have hl : addItem (some ⟨ss, es⟩) (Item.span sp) = some ⟨s1, es⟩ := by
                show (addSpan 0 sp ss).map _ = _
                rw [hadd]
                rfl
              rw [hl, ih s1 es,
                show (some ss).bind (addSpan 0 sp) = some s1 from hadd]
      | eval e =>
          rw [List.foldl_cons]
          have hfs : (Item.eval e :: t).filterMap itemSpan = t.filterMap itemSpan :=
            List.filterMap_cons_none (show itemSpan (Item.eval e) = none from rfl)
          have hfe : (Item.eval e :: t).filterMap itemEval =
              e :: t.filterMap itemEval :=
            List.filterMap_cons_some (show itemEval (Item.eval e) = some e from rfl)
          have hl : addItem (some ⟨ss, es⟩) (Item.eval e) =
              some ⟨ss, addEval 0 e es⟩ := rfl
          rw [hfs, hfe, List.foldl_cons, hl, ih ss (addEval 0 e es)]

theorem buildProject_eq (l : List Item) :
    buildProject l =
      (buildStateS (l.filterMap itemSpan)).map
        (fun s => (⟨s, buildStateE (l.filterMap itemEval)⟩ : ProjectState)) :=
  buildProject_go l SpansState.empty EvalsState.empty

theorem evalKey_span {e : Evaluation} {i : ℕ} {n : String}
    (h : e.subject = .span i ∧ e.name = n) : evalKey e = some (.span i, n) := by
  obtain ⟨hs, hn⟩ := h
  unfold evalKey
  rw [hs, hn]

theorem evalKey_trace {e : Evaluation} {t : ℕ} {n : String}
    (h : e.subject = .trace t ∧ e.name = n) : evalKey e = some (.trace t, n) := by
  obtain ⟨hs, hn⟩ := h
  unfold evalKey
  rw [hs, hn]

theorem evalKey_document {e : Evaluation} {i pos : ℕ} {n : String}
    (h : e.subject = .document i pos ∧ e.name = n) :
    evalKey e = some (.document i pos, n) := by
  obtain ⟨hs, hn⟩ := h
  unfold evalKey
  rw [hs, hn]

theorem bool_eq_of_iff {a b : Bool} (h : (a = true) ↔ (b = true)) : a = b := by
  cases a <;> cases b <;> simp_all

theorem latencyAt_eq_of_span {s1 s2 : SpansState} (hInv1 : Inv s1) (hInv2 : Inv s2)
    (hspan : ∀ i, spanAt s1 i = spanAt s2 i) :
    ∀ i, latencyAt s1 i = latencyAt s2 i := by
  intro i
  exact (skel_option_components (trip_eq hInv1 hInv2 hspan i)).2.1

theorem errorAt_eq_of_span {s1 s2 : SpansState} (hInv1 : Inv s1) (hInv2 : Inv s2)
    (hspan : ∀ i, spanAt s1 i = spanAt s2 i) :
    ∀ i, errorAt s1 i = errorAt s2 i := by
  intro i
  exact (skel_option_components (trip_eq hInv1 hInv2 hspan i)).2.2.1

/-- C2 counterexample.  Two evaluations with the same subject and name but
different results: the indices are last-writer-wins, so the two orders of
the same multiset leave different evaluations in
`span_evaluations_by_id[1]["q"]` — the index membership differs. -/
theorem eval_reorder_counterexample :
    List.Perm [evalQlow, evalQhigh] [evalQhigh, evalQlow] ∧
    (getSpanEvaluation (buildStateE [evalQlow, evalQhigh]) 1 "q").1 ≠
      (getSpanEvaluation (buildStateE [evalQhigh, evalQlow]) 1 "q").1 := by
  constructor
  · exact List.Perm.swap _ _ _
  · decide

set_option maxHeartbeats 1000000 in
/-- C2 as amended.  For two permutations of the same multiset of
Project-level events whose spans carry pairwise-distinct span ids and whose
evaluations carry pairwise-distinct index keys (subject oneof plus name),
if both ingests complete then the two final states agree on `span_count`,
`trace_count`, `token_count_total`, every span's cumulative attributes,
`num_documents`, and the membership of every span and evaluation index.
Without the distinct-key proviso the claim fails: the indices are
last-writer-wins, so reordering two evaluations that share a key changes
the surviving record. -/
theorem ingest_order_invariant (l1 l2 : List Item) (p1 p2 : ProjectState)
    (hperm : List.Perm l1 l2)
    (hids : ((l1.filterMap itemSpan).map Span.span_id).Nodup)
    (hkeys : ((l1.filterMap itemEval).filterMap evalKey).Nodup)
    (h1 : buildProject l1 = some p1) (h2 : buildProject l2 = some p2) :
    p1.spans.spans.length = p2.spans.spans.length ∧
    p1.spans.traces.length = p2.spans.traces.length ∧
    p1.spans.tokenTotal = p2.spans.tokenTotal ∧
    (∀ i k, getCum p1.spans i k = getCum p2.spans i k) ∧
    (∀ i, aget i p1.spans.numDocuments = aget i p2.spans.numDocuments) ∧
    (∀ i, spanAt p1.spans i = spanAt p2.spans i) ∧
    (∀ i, latencyAt p1.spans i = latencyAt p2.spans i) ∧
    (∀ i, errorAt p1.spans i = errorAt p2.spans i) ∧
    (∀ p c, c ∈ childList p1.spans p ↔ c ∈ childList p2.spans p) ∧
    (∀ t j, j ∈ (aget t p1.spans.traces).getD [] ↔
      j ∈ (aget t p2.spans.traces).getD []) ∧
    (∀ q i, (q, i) ∈ p1.spans.sortedAll ↔ (q, i) ∈ p2.spans.sortedAll) ∧
    (∀ q i, (q, i) ∈ p1.spans.sortedRoots ↔ (q, i) ∈ p2.spans.sortedRoots) ∧
    (∀ q i, (q, i) ∈ p1.spans.latencyRoots ↔ (q, i) ∈ p2.spans.latencyRoots) ∧
    List.Perm p1.spans.sketch p2.spans.sketch ∧
    (∀ i n, (getSpanEvaluation p1.evals i n).1 = (getSpanEvaluation p2.evals i n).1) ∧
    (∀ n i, spanEvalByName p1.evals n i = spanEvalByName p2.evals n i) ∧
    (∀ t n, traceEvalAt p1.evals t n = traceEvalAt p2.evals t n) ∧
    (∀ n t, traceEvalByName p1.evals n t = traceEvalByName p2.evals n t) ∧
    (∀ i n pos, storedDocEval p1.evals i n pos = storedDocEval p2.evals i n pos) ∧
    (∀ n i pos, docEvalByName p1.evals n i pos = docEvalByName p2.evals n i pos) ∧
    (∀ n lb, lb ∈ (getSpanEvaluationLabels p1.evals n).1 ↔
      lb ∈ (getSpanEvaluationLabels p2.evals n).1) ∧
    (∀ i, (aget i p1.evals.evalsBySpanId).isSome =
      (aget i p2.evals.evalsBySpanId).isSome) ∧
    (∀ n, (aget n p1.evals.spanEvalsByName).isSome =
      (aget n p2.evals.spanEvalsByName).isSome) ∧
    (∀ t, (aget t p1.evals.evalsByTraceId).isSome =
      (aget t p2.evals.evalsByTraceId).isSome) ∧
    (∀ n, (aget n p1.evals.traceEvalsByName).isSome =
      (aget n p2.evals.traceEvalsByName).isSome) ∧
    (∀ i, (aget i p1.evals.docEvalsBySpanId).isSome =
      (aget i p2.evals.docEvalsBySpanId).isSome) ∧
    (∀ n, (aget n p1.evals.docEvalsByName).isSome =
      (aget n p2.evals.docEvalsByName).isSome) ∧
    (∀ n, (aget n p1.evals.spanEvalLabels).isSome =
      (aget n p2.evals.spanEvalLabels).isSome) := by
  rw [buildProject_eq] at h1 h2
  cases hs1 : buildStateS (l1.filterMap itemSpan) with
  | none =>
      rw [hs1] at h1
      exact Option.noConfusion h1
  | some s1 =>
  cases hs2 : buildStateS (l2.filterMap itemSpan) with
  | none =>
      rw [hs2] at h2
      exact Option.noConfusion h2
  | some s2 =>
  rw [hs1] at h1
  rw [hs2] at h2
  have hp1 : p1 = ⟨s1, buildStateE (l1.filterMap itemEval)⟩ := by
    cases h1
    rfl
  have hp2 : p2 = ⟨s2, buildStateE (l2.filterMap itemEval)⟩ := by
    cases h2
    rfl
  have hps1 : p1.spans = s1 := by rw [hp1]
  have hps2 : p2.spans = s2 := by rw [hp2]
  have hpe1 : p1.evals = buildStateE (l1.filterMap itemEval) := by rw [hp1]
  have hpe2 : p2.evals = buildStateE (l2.filterMap itemEval) := by rw [hp2]
  rw [hps1, hps2, hpe1, hpe2]
  have hpermS : List.Perm (l1.filterMap itemSpan) (l2.filterMap itemSpan) :=
    hperm.filterMap itemSpan
  have hpermE : List.Perm (l1.filterMap itemEval) (l2.filterMap itemEval) :=
    hperm.filterMap itemEval
  have hInv1 : Inv s1 := Inv_buildStateS hs1
  have hInv2 : Inv s2 := Inv_buildStateS hs2
  have hspan : ∀ i, spanAt s1 i = spanAt s2 i :=
    spanAt_build_eq hpermS hids hs1 hs2
  have hlat : ∀ i, latencyAt s1 i = latencyAt s2 i :=
    latencyAt_eq_of_span hInv1 hInv2 hspan
  have huniqK : ∀ (κ : SubjectId × String),
      ∀ e1 ∈ l1.filterMap itemEval, ∀ e2 ∈ l1.filterMap itemEval,
      evalKey e1 = some κ → evalKey e2 = some κ → e1 = e2 :=
    fun κ e1 hm1 e2 hm2 => filterMap_nodup_uniq evalKey hkeys e1 hm1 e2 hm2 κ
  refine ⟨span_count_eq hInv1 hInv2 hspan, trace_count_eq hInv1 hInv2 hspan,
    token_total_eq hInv1 hInv2 hspan, cum_unique hInv1 hInv2 hspan,
    ?_, hspan, hlat, errorAt_eq_of_span hInv1 hInv2 hspan,
    ?_, ?_, ?_, ?_, ?_, sketch_perm_eq hInv1 hInv2 hspan,
    ?_, ?_, ?_, ?_, ?_, ?_, ?_, ?_, ?_, ?_, ?_, ?_, ?_, ?_⟩
  · intro i
    rw [hInv1.numDocsOk, hInv2.numDocsOk, hspan i]
  · intro p c
    rw [hInv1.childMemOk p c, hInv2.childMemOk p c, hspan c]
  · intro t j
    rw [hInv1.traceMemOk t j, hInv2.traceMemOk t j, hspan j]
  · intro q i
    rw [hInv1.sortedAllMem q i, hInv2.sortedAllMem q i, hspan i]
  · intro q i
    rw [hInv1.sortedRootsMem q i, hInv2.sortedRootsMem q i, hspan i]
  · intro q i
    rw [hInv1.latRootsMem q i, hInv2.latRootsMem q i, hspan i, hlat i]
  · intro i n
    exact foldE_perm (fun s => (getSpanEvaluation s i n).1)
      (fun e => e.subject = .span i ∧ e.name = n) (fun e => e)
      (fun e s => spanEvalAt_step 0 e s i n) hpermE
      (fun e1 hm1 e2 hm2 hp1 hp2 =>
        huniqK (.span i, n) e1 hm1 e2 hm2 (evalKey_span hp1) (evalKey_span hp2))
  · intro n i
    exact foldE_perm (fun s => spanEvalByName s n i)
      (fun e => e.subject = .span i ∧ e.name = n) (fun e => e)
      (fun e s => spanEvalByName_step 0 e s n i) hpermE
      (fun e1 hm1 e2 hm2 hp1 hp2 =>
        huniqK (.span i, n) e1 hm1 e2 hm2 (evalKey_span hp1) (evalKey_span hp2))
  · intro t n
    exact foldE_perm (fun s => traceEvalAt s t n)
      (fun e => e.subject = .trace t ∧ e.name = n) (fun e => e)
      (fun e s => traceEvalAt_step 0 e s t n) hpermE
      (fun e1 hm1 e2 hm2 hp1 hp2 =>
        huniqK (.trace t, n) e1 hm1 e2 hm2 (evalKey_trace hp1) (evalKey_trace hp2))
  · intro n t
    exact foldE_perm (fun s => traceEvalByName s n t)
      (fun e => e.subject = .trace t ∧ e.name = n) (fun e => e)
      (fun e s => traceEvalByName_step 0 e s n t) hpermE
      (fun e1 hm1 e2 hm2 hp1 hp2 =>
        huniqK (.trace t, n) e1 hm1 e2 hm2 (evalKey_trace hp1) (evalKey_trace hp2))
  · intro i n pos
    exact foldE_perm (fun s => storedDocEval s i n pos)
      (fun e => e.subject = .document i pos ∧ e.name = n) (fun e => e)
      (fun e s => storedDocEval_step 0 e s i n pos) hpermE
      (fun e1 hm1 e2 hm2 hp1 hp2 =>
        huniqK (.document i pos, n) e1 hm1 e2 hm2 (evalKey_document hp1)
          (evalKey_document hp2))
  · intro n i pos
    exact foldE_perm (fun s => docEvalByName s n i pos)
      (fun e => e.subject = .document i pos ∧ e.name = n) (fun e => e)
      (fun e s => docEvalByName_step 0 e s n i pos) hpermE
      (fun e1 hm1 e2 hm2 hp1 hp2 =>
        huniqK (.document i pos, n) e1 hm1 e2 hm2 (evalKey_document hp1)
          (evalKey_document hp2))
  · intro n lb
    exact foldE_feature_perm (fun s => lb ∈ (aget n s.spanEvalLabels).getD [])
      (fun e => (∃ j, e.subject = .span j) ∧ e.name = n ∧ e.result.label = some lb)
      (fun e s => labelMem_step e s n lb) hpermE
  · intro i
    exact bool_eq_of_iff (foldE_feature_perm
      (fun s => (aget i s.evalsBySpanId).isSome = true)
      (fun e => e.subject = .span i)
      (fun e s => presE_spanId_step e s i) hpermE)
  · intro n
    exact bool_eq_of_iff
      (foldE_feature_perm (fun s => (aget n s.spanEvalsByName).isSome = true)
        (fun e => (∃ j, e.subject = .span j) ∧ e.name = n)
        (fun e s => presE_spanName_step e s n) hpermE)
  · intro t
    exact bool_eq_of_iff
      (foldE_feature_perm (fun s => (aget t s.evalsByTraceId).isSome = true)
        (fun e => e.subject = .trace t)
        (fun e s => presE_traceId_step e s t) hpermE)
  · intro n
    exact bool_eq_of_iff
      (foldE_feature_perm (fun s => (aget n s.traceEvalsByName).isSome = true)
        (fun e => (∃ t0, e.subject = .trace t0) ∧ e.name = n)
        (fun e s => presE_traceName_step e s n) hpermE)
  · intro i
    exact bool_eq_of_iff
      (foldE_feature_perm (fun s => (aget i s.docEvalsBySpanId).isSome = true)
        (fun e => ∃ pos, e.subject = .document i pos)
        (fun e s => presE_docId_step e s i) hpermE)
  · intro n
    exact bool_eq_of_iff
      (foldE_feature_perm (fun s => (aget n s.docEvalsByName).isSome = true)
        (fun e => (∃ j pos, e.subject = .document j pos) ∧ e.name = n)
        (fun e s => presE_docName_step e s n) hpermE)
  · intro n
    exact bool_eq_of_iff
      (foldE_feature_perm (fun s => (aget n s.spanEvalLabels).isSome = true)
        (fun e => (∃ j, e.subject = .span j) ∧ e.name = n ∧
          (∃ lb, e.result.label = some lb))
        (fun e s => presE_labels_step e s n) hpermE)

theorem ingest_order_invariant_witness :
    List.Perm exItems1 exItems2 ∧
    ((exItems1.filterMap itemSpan).map Span.span_id).Nodup ∧
    ((exItems1.filterMap itemEval).filterMap evalKey).Nodup ∧
    buildProject exItems1 = some exProj1 ∧
    buildProject exItems2 = some exProj2 ∧
    (∀ i k, getCum exProj1.spans i k = getCum exProj2.spans i k) :=
  ⟨by decide, by decide, by decide, by decide, by decide,
    (ingest_order_invariant exItems1 exItems2 exProj1 exProj2 (by decide) (by decide)
      (by decide) (by decide) (by decide)).2.2.2.1⟩

end Phoenix
